import Mathlib

/-!
# Safe-interval path planner (`sipp.cpp`)

A shallow embedding of the planner of `src/sipp.cpp` and theorems about it.

Conventions of the embedding.

* `double` values are idealised as rationals; every comparison and every sum of
  the source is kept as written.  Where rounding decides a property,
  `find_successors` and `check_endpoint` are given a second time with the sums
  and differences formed by the rounded operations of an `Arith` (section "The
  arithmetic of `double`"); the evaluations on `Kd` use values that are
  `double`s and on which the operations of the run are exact.
* The search functions are given on values and, for the members `open`,
  `close`, `path`, `agent` and the constraint structures, a second time on the
  planner object (section "The planner object").
* `CN_EPSILON`, `CN_INFINITY` and the library square root come from headers that
  are not part of the source file; they are the fields of `Const`.
* `std::map` / `std::unordered_map` members are finite partial functions
  (`none` = key absent).  `operator[]` creates an empty entry, which the
  embedding keeps track of because `find_successors` distinguishes an absent key
  from an empty vector.
* Loops whose number of iterations is not bounded by the size of a container take
  a fuel argument; `Fault.fuel` is the outcome of running out of it.
-/

namespace SIPP

/-- Constants and primitives taken from headers outside the source file. -/
structure Const where
  CN_EPSILON : ℚ
  CN_INFINITY : ℚ
  sqrt : ℚ → ℚ

/-- Ways in which a call does not return a value. -/
inductive Fault where
  | out_of_range   -- `std::vector::at` on an index that does not exist
  | empty_back     -- `back()` / `operator[]` applied to an empty vector
  | fuel           -- the loop did not finish within the fuel given
  | diverges       -- the loop never finishes
deriving DecidableEq, Repr

deriving instance DecidableEq for Except

/-- The fields of a search node other than its parent pointer. -/
structure Cell where
  id : Int
  f : ℚ
  g : ℚ
  i : ℚ
  j : ℚ
  interval : ℚ × ℚ
deriving DecidableEq, Repr

/-- A search node.  `parent` is the chain of nodes reached by following the
parent pointer, nearest first; the empty chain is `nullptr`.  Parents live in
the closed set, whose entries are never written after insertion, so the value
read through the pointer is the value the entry had when the pointer was taken. -/
structure Node where
  id : Int
  f : ℚ
  g : ℚ
  i : ℚ
  j : ℚ
  interval : ℚ × ℚ
  parent : List Cell
deriving DecidableEq, Repr

/-- The node without its parent pointer. -/
def Node.cell (n : Node) : Cell := ⟨n.id, n.f, n.g, n.i, n.j, n.interval⟩

/-- Dereference of a parent pointer: `*curNode.parent`. -/
def derefParent (c : Cell) (rest : List Cell) : Node :=
  ⟨c.id, c.f, c.g, c.i, c.j, c.interval, rest⟩

/-- An edge constraint or landmark. -/
structure Move where
  t1 : ℚ
  t2 : ℚ
  i1 : ℚ
  j1 : ℚ
  i2 : ℚ
  j2 : ℚ
  id1 : Int
  id2 : Int
deriving DecidableEq, Repr

/-- A raw constraint of the input list. -/
structure Constraint where
  agent : Int
  positive : Bool
  id1 : Int
  id2 : Int
  i1 : ℚ
  j1 : ℚ
  i2 : ℚ
  j2 : ℚ
  t1 : ℚ
  t2 : ℚ
deriving DecidableEq, Repr

/-- The agent to plan for. -/
structure Agent where
  id : Int
  start_id : Int
  start_i : ℚ
  start_j : ℚ
  goal_id : Int
  goal_i : ℚ
  goal_j : ℚ
deriving DecidableEq, Repr

/-- A vertex handed out by the map: the fields of the returned node that
`find_successors` reads. -/
structure Vertex where
  id : Int
  i : ℚ
  j : ℚ
deriving DecidableEq, Repr

/-- The read-only graph. -/
structure Map where
  get_valid_moves : Int → List Vertex

/-- The heuristic oracle. -/
structure Heuristic where
  get_value : Int → Int → ℚ
  get_size : Nat

/-- A planned path. -/
structure Path where
  nodes : List Node
  cost : ℚ
  agentID : Int
  expanded : Nat
deriving DecidableEq, Repr

/-- Modelled from the spec: the default-constructed `Path()` of the missing
header; the spec (§6) describes it as empty with `cost < 0`. -/
def Path.empty : Path := ⟨[], -1, -1, 0⟩

/-- The constraint structures of the planner object. -/
structure Store where
  collision_intervals : Int → Option (List (ℚ × ℚ))
  constraints : Int × Int → Option (List Move)
  landmarks : List Move
  positive_constraints : List Move

/-- The constraint part of `SIPP::clear`. -/
def clear : Store := ⟨fun _ => none, fun _ => none, [], []⟩

/-- `SIPP::dist`. -/
def dist (K : Const) (a b : Node) : ℚ :=
  K.sqrt ((a.i - b.i) ^ 2 + (a.j - b.j) ^ 2)

/-! ## `add_collision_interval` -/

/-- The order `std::sort` uses on `std::pair<double,double>`, as "not greater". -/
def pairLe (a b : ℚ × ℚ) : Prop := a.1 < b.1 ∨ (a.1 = b.1 ∧ a.2 ≤ b.2)

instance : DecidableRel pairLe := fun a b =>
  inferInstanceAs (Decidable (a.1 < b.1 ∨ (a.1 = b.1 ∧ a.2 ≤ b.2)))

/-- The coalescing loop of `add_collision_interval` with `cur` the entry at
index `i` and the list the entries after it: a merge keeps `i` in place, no
merge moves on to `i + 1`. -/
def coalesceFrom (K : Const) (cur : ℚ × ℚ) : List (ℚ × ℚ) → List (ℚ × ℚ)
  | [] => [cur]
  | nxt :: rest =>
    if cur.2 - K.CN_EPSILON < nxt.1 then coalesceFrom K (cur.1, nxt.2) rest
    else cur :: coalesceFrom K nxt rest

/-- The coalescing loop from index `0`. -/
def coalesce (K : Const) : List (ℚ × ℚ) → List (ℚ × ℚ)
  | [] => []
  | a :: rest => coalesceFrom K a rest

/-- The list stored for a vertex after `add_collision_interval`, given the list
stored before (`none` = no entry). -/
def add_collision_list (K : Const) (old : Option (List (ℚ × ℚ))) (interval : ℚ × ℚ) :
    List (ℚ × ℚ) :=
  match old with
  | none => coalesce K (List.insertionSort pairLe [interval])
  | some l => coalesce K (List.insertionSort pairLe (l ++ [interval]))

/-- `SIPP::add_collision_interval`. -/
def add_collision_interval (K : Const) (S : Store) (id : Int) (interval : ℚ × ℚ) : Store :=
  { S with collision_intervals := fun k =>
      if k = id then some (add_collision_list K (S.collision_intervals id) interval)
      else S.collision_intervals k }

/-! ## `add_move_constraint` -/

/-- The body executed at the first index `i` with `m_cons[i].t1 > move.t1`, in
the overlap case `m_cons[i].t1 < move.t2 + CN_EPSILON`. -/
def add_move_overlap (K : Const) (move : Move) (L : List Move) (i : Nat) (mi : Move) :
    List Move :=
  let mi1 : Move := { mi with t1 := move.t1 }
  let mi2 : Move := if move.t2 + K.CN_EPSILON > mi1.t2 then { mi1 with t2 := move.t2 } else mi1
  let L1 := L.set i mi2
  match i with
  | 0 => L1
  | i' + 1 =>
    match L1[i']? with
    | none => L1
    | some p =>
      if p.t2 + K.CN_EPSILON > move.t1 ∧ p.t2 < move.t2 + K.CN_EPSILON then
        let p1 : Move := { p with t2 := move.t2 }
        if p1.t2 + K.CN_EPSILON > mi2.t1 ∧ p1.t2 < mi2.t2 + K.CN_EPSILON then
          (L1.set i' { p1 with t2 := mi2.t2 }).eraseIdx (i' + 1)
        else L1.set i' p1
      else L1

/-- The body executed at the first index `i` with `m_cons[i].t1 > move.t1`, in
the gap case. -/
def add_move_gap (K : Const) (move : Move) (L : List Move) (i : Nat) : List Move :=
  match i with
  | 0 => L.insertIdx 0 move
  | i' + 1 =>
    match L[i']? with
    | none => L.insertIdx (i' + 1) move
    | some p =>
      if p.t2 + K.CN_EPSILON > move.t1 ∧ p.t2 < move.t2 + K.CN_EPSILON then
        L.set i' { p with t2 := move.t2 }
      else L.insertIdx (i' + 1) move

/-- The `for` loop of `add_move_constraint`: nothing happens before the first
index whose `t1` exceeds `move.t1`; the iteration at that index sets `inserted`
and the loop stops.  Returns the vector and the flag `inserted`. -/
def add_move_scan (K : Const) (move : Move) (L : List Move) : List Move × Bool :=
  match L.findIdx? (fun m => decide (m.t1 > move.t1)) with
  | none => (L, false)
  | some i =>
    match L[i]? with
    | none => (L, false)
    | some mi =>
      if mi.t1 < move.t2 + K.CN_EPSILON then (add_move_overlap K move L i mi, true)
      else (add_move_gap K move L i, true)

/-- The statements after the loop of `add_move_constraint`, on `m_cons.back()`. -/
def add_move_tail (K : Const) (move : Move) (L : List Move) (inserted : Bool) : List Move :=
  match L.getLast? with
  | none => L
  | some b =>
    if b.t2 + K.CN_EPSILON > move.t1 ∧ b.t2 < move.t2 + K.CN_EPSILON then
      L.set (L.length - 1) { b with t2 := move.t2 }
    else if !inserted then L ++ [move]
    else L

/-- The vector stored for the key of `move` after `add_move_constraint`, when the
key was present with the non-empty vector `L`. -/
def add_move_list (K : Const) (move : Move) (L : List Move) : List Move :=
  let r := add_move_scan K move L
  add_move_tail K move r.1 r.2

/-- `SIPP::add_move_constraint`. -/
def add_move_constraint (K : Const) (S : Store) (move : Move) : Store :=
  { S with constraints := fun k =>
      if k = (move.id1, move.id2) then
        match S.constraints (move.id1, move.id2) with
        | none => some [move]
        | some L => some (add_move_list K move L)
      else S.constraints k }

/-! ## `make_constraints` -/

/-- The `Move` built from a constraint. -/
def Move.ofConstraint (con : Constraint) : Move :=
  ⟨con.t1, con.t2, con.i1, con.j1, con.i2, con.j2, con.id1, con.id2⟩

/-- The landmark insertion of `make_constraints`: before the first landmark with
a larger `t1`, at the end when there is none. -/
def insert_landmark (m : Move) : List Move → List Move
  | [] => [m]
  | l :: rest => if l.t1 > m.t1 then m :: l :: rest else l :: insert_landmark m rest

/-- One iteration of the loop of `make_constraints`. -/
def make_constraint (K : Const) (agent : Agent) (S : Store) (con : Constraint) : Store :=
  if con.positive = false then
    if con.id1 = con.id2 then add_collision_interval K S con.id1 (con.t1, con.t2)
    else add_move_constraint K S (Move.ofConstraint con)
  else if con.agent = agent.id then
    { S with landmarks := insert_landmark (Move.ofConstraint con) S.landmarks }
  else
    { S with positive_constraints := S.positive_constraints ++ [Move.ofConstraint con] }

/-- `SIPP::make_constraints`. -/
def make_constraints (K : Const) (agent : Agent) (S : Store) (cons : List Constraint) : Store :=
  cons.foldl (make_constraint K agent) S

/-! ## `get_endpoints` -/

/-- `Node(node_id, 0, 0, node_i, node_j, nullptr, t1, t2)`. -/
def endpoint_node (node_id : Int) (node_i node_j t1 t2 : ℚ) : Node :=
  ⟨node_id, 0, 0, node_i, node_j, (t1, t2), []⟩

/-- The four cases of the `while` body of `get_endpoints` for `n = nodes[i]` and
the collision `c`: the changed vector, or `none` when `changed` stays false. -/
def endpoint_step (K : Const) (mk : ℚ → ℚ → Node) (c : ℚ × ℚ) (nodes : List Node) (i : Nat)
    (n : Node) : Option (List Node) :=
  if c.1 - K.CN_EPSILON < n.interval.1 ∧ c.2 + K.CN_EPSILON > n.interval.2 then
    some (nodes.eraseIdx i)
  else if c.1 - K.CN_EPSILON < n.interval.1 ∧ c.2 > n.interval.1 then
    some (nodes.set i { n with interval := (c.2, n.interval.2) })
  else if c.1 - K.CN_EPSILON > n.interval.1 ∧ c.2 + K.CN_EPSILON < n.interval.2 then
    some ((nodes.set i { n with interval := (n.interval.1, c.1) }).insertIdx (i + 1)
      (mk c.2 n.interval.2))
  else if c.1 < n.interval.2 ∧ c.2 + K.CN_EPSILON > n.interval.2 then
    some (nodes.set i { n with interval := (n.interval.1, c.1) })
  else none

/-- The nested loops of `get_endpoints` as a machine on `(k, i, nodes)`.  `i` is
declared before the `for` statement, so leaving the `while` loop advances `k`
and keeps `i`; a change resets both to `0`. -/
def get_endpoints_loop (K : Const) (mk : ℚ → ℚ → Node) (colls : List (ℚ × ℚ)) :
    Nat → Nat → Nat → List Node → Except Fault (List Node)
  | 0, _, _, _ => .error .fuel
  | fuel + 1, k, i, nodes =>
    match colls[k]? with
    | none => .ok nodes
    | some c =>
      match nodes[i]? with
      | none => get_endpoints_loop K mk colls fuel (k + 1) i nodes
      | some n =>
        match endpoint_step K mk c nodes i n with
        | some nodes' => get_endpoints_loop K mk colls fuel 0 0 nodes'
        | none => get_endpoints_loop K mk colls fuel k (i + 1) nodes

/-- `SIPP::get_endpoints`, reading the collision vector of `node_id` (an absent
key reads as the empty vector that `operator[]` creates). -/
def get_endpoints (K : Const) (fuel : Nat) (S : Store) (node_id : Int)
    (node_i node_j t1 t2 : ℚ) : Except Fault (List Node) :=
  match S.collision_intervals node_id with
  | none => .ok [endpoint_node node_id node_i node_j t1 t2]
  | some [] => .ok [endpoint_node node_id node_i node_j t1 t2]
  | some (c :: cs) =>
    get_endpoints_loop K (endpoint_node node_id node_i node_j) (c :: cs) fuel 0 0
      [endpoint_node node_id node_i node_j t1 t2]

/-- The effect of `collision_intervals[id]` on the map: an absent key gets an
empty vector. -/
def touch (S : Store) (id : Int) : Store :=
  { S with collision_intervals := fun k =>
      if k = id then some ((S.collision_intervals id).getD []) else S.collision_intervals k }

/-! ## `check_endpoint` -/

/-- The edge-constraint loop of `check_endpoint` on the departure time. -/
def endpoint_avoid (K : Const) : List Move → ℚ → ℚ
  | [], g => g
  | m :: rest, g =>
    endpoint_avoid K rest (if g + K.CN_EPSILON > m.t1 ∧ g < m.t2 then m.t2 else g)

/-- `SIPP::check_endpoint`. -/
def check_endpoint (K : Const) (S : Store) (start goal : Node) : ℚ :=
  let cost := K.sqrt ((start.i - goal.i) ^ 2 + (start.j - goal.j) ^ 2)
  let g0 := if start.g + cost < goal.interval.1 then goal.interval.1 - cost else start.g
  let g1 := match S.constraints (start.id, goal.id) with
    | none => g0
    | some l => endpoint_avoid K l g0
  if g1 > start.interval.2 ∨ g1 + cost > goal.interval.2 then K.CN_INFINITY
  else g1 + cost

/-! ## `find_successors` -/

/-- The safe intervals built from a collision vector: `first` is
`interval.first` on entry to the loop over the remaining collisions. -/
def safe_intervals_from (K : Const) (first : ℚ) : List (ℚ × ℚ) → List (ℚ × ℚ)
  | [] => [(first, K.CN_INFINITY)]
  | c :: rest => (first, c.1) :: safe_intervals_from K c.2 rest

/-- The vector `intervals` of `find_successors`. -/
def successor_intervals (K : Const) (colls : Option (List (ℚ × ℚ))) (g : ℚ) : List (ℚ × ℚ) :=
  match colls with
  | none => [(g, K.CN_INFINITY)]
  | some cs => safe_intervals_from K 0 cs

/-- The edge-constraint loop of `find_successors` on the arrival time. -/
def avoid_moves (K : Const) (cost : ℚ) : List Move → ℚ → ℚ
  | [], g => g
  | m :: rest, g =>
    avoid_moves K cost rest
      (if g - cost + K.CN_EPSILON > m.t1 ∧ g - cost < m.t2 then m.t2 + cost else g)

/-- The heuristic value added to `g` in `find_successors`. -/
def h_value (K : Const) (agent : Agent) (h_values : Heuristic) (goal : Node) (v : Vertex) : ℚ :=
  if goal.id = agent.goal_id then h_values.get_value v.id agent.id
  else
    (List.range h_values.get_size).foldl
      (fun h p => max h |h_values.get_value v.id p - h_values.get_value goal.id p|)
      (K.sqrt ((goal.i - v.i) ^ 2 + (goal.j - v.j) ^ 2))

/-- The value of `newNode.g` after the two adjustments made for one interval:
the wait for the interval to open and the edge-constraint loop. -/
def arrival (K : Const) (cost : ℚ) (cons : Option (List Move)) (interval : ℚ × ℚ) (g : ℚ) : ℚ :=
  match cons with
  | none => if interval.1 > g then interval.1 else g
  | some l => avoid_moves K cost l (if interval.1 > g then interval.1 else g)

/-- The loop over `intervals` of `find_successors` for one move; `g` is
`newNode.g`, which is carried from one interval to the next. -/
def interval_loop (K : Const) (curNode : Node) (v : Vertex) (cost hv : ℚ)
    (cons : Option (List Move)) : List (ℚ × ℚ) → ℚ → List Node
  | [], _ => []
  | interval :: rest, g =>
    if interval.2 < g then interval_loop K curNode v cost hv cons rest g
    else if arrival K cost cons interval g - cost > curNode.interval.2 ∨
        arrival K cost cons interval g > interval.2 then
      interval_loop K curNode v cost hv cons rest (arrival K cost cons interval g)
    else
      ⟨v.id, arrival K cost cons interval g + hv, arrival K cost cons interval g, v.i, v.j,
        interval, []⟩ ::
        interval_loop K curNode v cost hv cons rest (arrival K cost cons interval g)

/-- The successors `find_successors` appends for one valid move. -/
def move_successors (K : Const) (agent : Agent) (S : Store) (h_values : Heuristic)
    (curNode goal : Node) (v : Vertex) : List Node :=
  let cost := K.sqrt ((curNode.i - v.i) ^ 2 + (curNode.j - v.j) ^ 2)
  interval_loop K curNode v cost (h_value K agent h_values goal v)
    (S.constraints (curNode.id, v.id))
    (successor_intervals K (S.collision_intervals v.id) (curNode.g + cost)) (curNode.g + cost)

/-- `SIPP::find_successors`: the list appended to `succs`. -/
def find_successors (K : Const) (agent : Agent) (S : Store) (map : Map) (h_values : Heuristic)
    (curNode goal : Node) : List Node :=
  (map.get_valid_moves curNode.id).flatMap (move_successors K agent S h_values curNode goal)

/-! ## The open list -/

/-- The test of `add_open` that makes `iter` the insertion position. -/
def belongs_before (K : Const) (newNode iter : Node) : Prop :=
  iter.f > newNode.f + K.CN_EPSILON ∨
    (|iter.f - newNode.f| < K.CN_EPSILON ∧ newNode.g + K.CN_EPSILON > iter.g)

instance (K : Const) (a b : Node) : Decidable (belongs_before K a b) :=
  inferInstanceAs (Decidable (_ ∨ _))

/-- The `if (!pos_found)` block of `add_open` at the entry `iter` of index `idx`:
the position after the block (`none` = `pos_found` is false). -/
def next_pos (K : Const) (newNode iter : Node) (idx : Nat) (pos : Option Nat) : Option Nat :=
  match pos with
  | some p => some p
  | none => if belongs_before K newNode iter then some idx else none

/-- The entry that `add_open` writes over `iter` when it updates it in place. -/
def overwrite (iter newNode : Node) : Node :=
  { iter with f := newNode.f, g := newNode.g, interval := newNode.interval,
              parent := newNode.parent }

/-- The loop of `add_open` at index `idx`, with `rest` the entries from `idx` on
and `pos` the position found so far, followed by the insertion after the loop. -/
def add_open_loop (K : Const) (newNode : Node) (openl : List Node) :
    Nat → List Node → Option Nat → List Node
  | _, [], pos =>
    match pos with
    | some p => openl.insertIdx p newNode
    | none => openl ++ [newNode]
  | idx, iter :: rest, pos =>
    if iter.id = newNode.id ∧ |iter.interval.2 - newNode.interval.2| < K.CN_EPSILON then
      if newNode.f > iter.f - K.CN_EPSILON then openl
      else if next_pos K newNode iter idx pos = some idx then
        openl.set idx (overwrite iter newNode)
      else
        match next_pos K newNode iter idx pos with
        | some p => (openl.eraseIdx idx).insertIdx p newNode
        | none => openl.eraseIdx idx ++ [newNode]
    else add_open_loop K newNode openl (idx + 1) rest (next_pos K newNode iter idx pos)

/-- `SIPP::add_open`. -/
def add_open (K : Const) (openl : List Node) (newNode : Node) : List Node :=
  match openl with
  | [] => [newNode]
  | _ :: _ => add_open_loop K newNode openl 0 openl none

/-! ## `reconstruct_path` -/

/-- The first loop of `reconstruct_path`: the nodes from the root of the parent
chain down to `curNode`. -/
def parent_chain (c : Cell) : List Cell → List Node
  | [] => [derefParent c []]
  | p :: rest => parent_chain p rest ++ [derefParent c (p :: rest)]

/-- The second loop of `reconstruct_path` on the nodes from index `i` on.  After
an insertion the next iteration compares the inserted copy with the same
successor; the copy has the coordinates of its original, and if that comparison
asks for another insertion the loop inserts for ever. -/
def insert_waits (K : Const) : List Node → Except Fault (List Node)
  | [] => .ok []
  | [u] => .ok [u]
  | u :: v :: rest =>
    if |v.g - u.g - dist K v u| > K.CN_EPSILON then
      let add : Node := { u with g := v.g - dist K v u }
      if |v.g - add.g - dist K v add| > K.CN_EPSILON then .error .diverges
      else (insert_waits K (v :: rest)).map (fun l => u :: add :: l)
    else (insert_waits K (v :: rest)).map (fun l => u :: l)

/-- `SIPP::reconstruct_path`. -/
def reconstruct_path (K : Const) (curNode : Node) : Except Fault (List Node) :=
  insert_waits K (parent_chain curNode.cell curNode.parent)

/-! ## `find_partial_path` -/

/-- The loop over `goals` run when the popped node is at the goal vertex.  It
returns `curNode` (whose `g` the loop overwrites), the updated `paths` and the
number of times `pathFound` was incremented. -/
def goal_loop (K : Const) (closeSize : Nat) :
    Node → List Node → List Path → Except Fault (Node × List Path × Nat)
  | curNode, goal :: goals, p :: paths =>
    if curNode.g - K.CN_EPSILON < goal.interval.2 ∧
        goal.interval.1 - K.CN_EPSILON < curNode.interval.2 then
      match reconstruct_path K curNode with
      | .error e => .error e
      | .ok nodes =>
        match nodes.getLast? with
        | none => .error .empty_back
        | some b =>
          let cur1 : Node := if b.g < goal.interval.1 then { curNode with g := goal.interval.1 }
            else curNode
          let nodes1 := if b.g < goal.interval.1 then nodes ++ [cur1] else nodes
          match goal_loop K closeSize cur1 goals paths with
          | .error e => .error e
          | .ok (cur2, paths2, cnt) =>
            .ok (cur2, { p with nodes := nodes1, cost := cur1.g, expanded := closeSize } :: paths2,
              cnt + 1)
    else
      match goal_loop K closeSize curNode goals paths with
      | .error e => .error e
      | .ok (cur2, paths2, cnt) => .ok (cur2, p :: paths2, cnt)
  | curNode, _, paths => .ok (curNode, paths, 0)

/-- The closed-set test of `find_partial_path` for the successor `it`. -/
def closed_has (K : Const) (close : List Node) (it : Node) : Bool :=
  close.any (fun e => decide (e.id = it.id ∧
    e.interval.1 - K.CN_EPSILON < it.interval.1 ∧ e.interval.2 + K.CN_EPSILON > it.interval.2))

/-- The loop over `succs` of `find_partial_path`; `parent` is the chain the new
parent pointer stands for. -/
def push_successors (K : Const) (max_f : ℚ) (close : List Node) (parent : List Cell) :
    List Node → List Node → List Node
  | openl, [] => openl
  | openl, it :: succs =>
    if it.f > max_f then push_successors K max_f close parent openl succs
    else if closed_has K close it then push_successors K max_f close parent openl succs
    else push_successors K max_f close parent (add_open K openl { it with parent := parent }) succs

/-- The goal node `Node(goals[0].id, 0, 0, goals[0].i, goals[0].j)` handed to
`find_successors`; the interval is the one of the default constructor. -/
def goalArg (goal0 : Node) : Node := ⟨goal0.id, 0, 0, goal0.i, goal0.j, (-1, -1), []⟩

/-- The `while(!open.empty())` loop of `find_partial_path`.

Modelled from the spec: the member `close` is declared in the missing header;
by §3 and §5 of the spec a parent pointer refers to the closed copy of the node
from which the successor was generated, so the pointer taken by
`close.find(curNode.id)` stands for the entry inserted in this iteration. -/
def search_loop (K : Const) (agent : Agent) (S : Store) (map : Map) (h_values : Heuristic)
    (goals : List Node) (goal0 : Node) (max_f : ℚ) :
    Nat → List Node → List Node → List Path → Nat → Except Fault (List Path)
  | 0, _, _, _, _ => .error .fuel
  | _ + 1, [], _, paths, _ => .ok paths
  | fuel + 1, popped :: openl, close, paths, pathFound =>
    let close1 := close ++ [popped]
    let expand (curNode : Node) (paths1 : List Path) (found1 : Nat) : Except Fault (List Path) :=
      let succs := find_successors K agent S map h_values curNode (goalArg goal0)
      search_loop K agent S map h_values goals goal0 max_f fuel
        (push_successors K max_f close1 (popped.cell :: popped.parent) openl succs)
        close1 paths1 found1
    if popped.id = goal0.id then
      match goal_loop K close1.length popped goals paths with
      | .error e => .error e
      | .ok (curNode, paths1, cnt) =>
        if pathFound + cnt = goals.length then .ok paths1
        else expand curNode paths1 (pathFound + cnt)
    else expand popped paths pathFound

/-- `SIPP::find_partial_path`. -/
def find_partial_path (K : Const) (fuel : Nat) (agent : Agent) (S : Store) (map : Map)
    (h_values : Heuristic) (starts goals : List Node) (max_f : ℚ) : Except Fault (List Path) :=
  match goals with
  | [] => .error .empty_back
  | goal0 :: _ =>
    search_loop K agent S map h_values goals goal0 max_f fuel
      (starts.map (fun s => { s with parent := [] })) []
      (List.replicate goals.length Path.empty) 0

/-! ## `find_path` -/

/-- `SIPP::add_part`. -/
def add_part (result part : Path) : Path :=
  { result with nodes := result.nodes ++ part.nodes.tail }

/-- The last nodes of the surviving results: `starts.push_back(p.nodes.back())`. -/
def back_nodes : List Path → Except Fault (List Node)
  | [] => .ok []
  | p :: ps =>
    match p.nodes.getLast?, back_nodes ps with
    | some b, .ok bs => .ok (b :: bs)
    | none, _ => .error .empty_back
    | _, .error e => .error e

/-- The stitching test of `find_path` for one part and one result. -/
def stitch_one (K : Const) (part r : Path) : Except Fault (List Path) :=
  match part.nodes with
  | [] => .ok []
  | n0 :: _ =>
    match r.nodes.getLast? with
    | none => .error .empty_back
    | some b =>
      if |n0.interval.1 - b.interval.1| < K.CN_EPSILON ∧
          |n0.interval.2 - b.interval.2| < K.CN_EPSILON then .ok [add_part r part]
      else .ok []

/-- A loop that appends to `new_results` what its body yields for each element
in turn. -/
def collect {α : Type} (f : α → Except Fault (List Path)) : List α → Except Fault (List Path)
  | [] => .ok []
  | x :: xs =>
    match f x, collect f xs with
    | .ok a, .ok b => .ok (a ++ b)
    | .error e, _ => .error e
    | .ok _, .error e => .error e

/-- The double loop that stitches every part to every matching result. -/
def stitch (K : Const) (parts results : List Path) : Except Fault (List Path) :=
  collect (fun part => collect (stitch_one K part) results) parts

/-- The inner loop over `starts` choosing `best_start_id` and `best_g`; `j` is
the index of the head of the list. -/
def best_start (K : Const) (S : Store) (goal : Node) :
    List Node → Nat → Option Nat × ℚ → Option Nat × ℚ
  | [], _, best => best
  | s :: starts, j, best =>
    best_start K S goal starts (j + 1)
      (if check_endpoint K S s goal < best.2 then (some j, check_endpoint K S s goal) else best)

/-- The loop that moves `interval.second` of a landmark destination to the first
collision that starts after `g`. -/
def next_collision (g : ℚ) (hi : ℚ) : List (ℚ × ℚ) → ℚ
  | [] => hi
  | c :: rest => if g < c.1 then c.1 else next_collision g hi rest

/-- The destination node of a landmark edge as it is appended to a result: `g`
is the arrival time and `interval.second` is moved to the next collision. -/
def landed (K : Const) (S : Store) (goal : Node) (best_g : ℚ) : Node :=
  { goal with
    g := best_g,
    interval := (goal.interval.1,
      match S.collision_intervals goal.id with
      | none => K.CN_INFINITY
      | some [] => K.CN_INFINITY
      | some (c :: cs) => next_collision best_g goal.interval.2 (c :: cs)) }

/-- The body of the loop over the destination endpoints of a landmark edge: the
result appended to `new_results`, if any. -/
def traverse_goal (K : Const) (S : Store) (offset : ℚ) (starts : List Node)
    (results : List Path) (goal : Node) : Except Fault (List Path) :=
  match best_start K S goal starts 0 (none, K.CN_INFINITY) with
  | (none, _) => .ok []
  | (some best, best_g) =>
    match starts[best]?, results[best]? with
    | some s, some r =>
      match r.nodes.getLast? with
      | none => .error .empty_back
      | some b =>
        if (landed K S goal best_g).g - s.g > offset + K.CN_EPSILON then
          .ok [{ r with nodes := r.nodes ++ [{ b with g := (landed K S goal best_g).g - offset }]
                  ++ [landed K S goal best_g] }]
        else .ok [{ r with nodes := r.nodes ++ [landed K S goal best_g] }]
    | _, _ => .error .empty_back

/-- The part of one iteration of the landmark loop after `starts` and `goals`
are set: the partial search and the stitching.  `none` is `return Path()`. -/
def segment (K : Const) (fuel : Nat) (agent : Agent) (S : Store) (map : Map)
    (h_values : Heuristic) (first : Bool) (starts goals : List Node) (results : List Path) :
    Except Fault (Option (List Path)) :=
  match goals.getLast? with
  | none => .ok none
  | some gl =>
    match find_partial_path K fuel agent S map h_values starts goals gl.interval.2 with
    | .error e => .error e
    | .ok parts =>
      match stitch K parts results with
      | .error e => .error e
      | .ok stitched =>
        let new_results :=
          (if first then parts.filter (fun p => !p.nodes.isEmpty) else []) ++ stitched
        if new_results.isEmpty then .ok none else .ok (some new_results)

/-- The traversal of the landmark edge `lm` in the landmark loop.  `none` is
`return Path()`. -/
def traverse (K : Const) (fuel : Nat) (S : Store) (lm : Move) (results : List Path) :
    Except Fault (Option (List Path)) :=
  match back_nodes results with
  | .error e => .error e
  | .ok starts =>
    let offset := K.sqrt ((lm.i1 - lm.i2) ^ 2 + (lm.j1 - lm.j2) ^ 2)
    match get_endpoints K fuel S lm.id2 lm.i2 lm.j2 (lm.t1 + offset) (lm.t2 + offset) with
    | .error e => .error e
    | .ok goals =>
      if goals.isEmpty then .ok none
      else
        match collect (traverse_goal K (touch S lm.id2) offset starts results) goals with
        | .error e => .error e
        | .ok rs => if rs.isEmpty then .ok none else .ok (some rs)

/-- The iterations `i ≥ 1` of the landmark loop: `rem` holds `landmarks[i..]`,
so the empty list is the last iteration `i == landmarks.size()`. -/
def landmark_loop (K : Const) (fuel : Nat) (agent : Agent) (map : Map) (h_values : Heuristic) :
    List Move → Store → List Path → Except Fault (Option (List Path))
  | [], S, results =>
    match back_nodes results with
    | .error e => .error e
    | .ok starts =>
      match get_endpoints K fuel S agent.goal_id agent.goal_i agent.goal_j 0 K.CN_INFINITY with
      | .error e => .error e
      | .ok ends =>
        match ends.getLast? with
        | none => .error .empty_back
        | some gl =>
          segment K fuel agent (touch S agent.goal_id) map h_values false starts [gl] results
  | lm :: rem, S, results =>
    match back_nodes results with
    | .error e => .error e
    | .ok starts =>
      match get_endpoints K fuel S lm.id1 lm.i1 lm.j1 lm.t1 lm.t2 with
      | .error e => .error e
      | .ok goals =>
        match segment K fuel agent (touch S lm.id1) map h_values false starts goals results with
        | .error e => .error e
        | .ok none => .ok none
        | .ok (some results1) =>
          match traverse K fuel (touch S lm.id1) lm results1 with
          | .error e => .error e
          | .ok none => .ok none
          | .ok (some results2) =>
            landmark_loop K fuel agent map h_values rem (touch (touch S lm.id1) lm.id2) results2

/-- The closing statements of `find_path`. -/
def finish (agent : Agent) (result : Path) : Except Fault Path :=
  match result.nodes.getLast? with
  | none => .error .empty_back
  | some b => .ok { result with cost := b.g, agentID := agent.id }

/-- The landmark branch of `find_path`, with `lm = landmarks[0]`. -/
def find_path_landmarks (K : Const) (fuel : Nat) (agent : Agent) (map : Map)
    (h_values : Heuristic) (S : Store) (lm : Move) (rem : List Move) : Except Fault Path :=
  match get_endpoints K fuel S agent.start_id agent.start_i agent.start_j 0 K.CN_INFINITY with
  | .error e => .error e
  | .ok ends =>
    match ends with
    | [] => .error .out_of_range
    | st :: _ =>
      let S1 := touch S agent.start_id
      match get_endpoints K fuel S1 lm.id1 lm.i1 lm.j1 lm.t1 lm.t2 with
      | .error e => .error e
      | .ok goals =>
        let S2 := touch S1 lm.id1
        match segment K fuel agent S2 map h_values true [st] goals [] with
        | .error e => .error e
        | .ok none => .ok Path.empty
        | .ok (some results1) =>
          match traverse K fuel S2 lm results1 with
          | .error e => .error e
          | .ok none => .ok Path.empty
          | .ok (some results2) =>
            match landmark_loop K fuel agent map h_values rem (touch S2 lm.id2) results2 with
            | .error e => .error e
            | .ok none => .ok Path.empty
            | .ok (some []) => .error .empty_back
            | .ok (some (r :: _)) => finish agent r

/-- The branch of `find_path` taken when there is no landmark.

Modelled from the spec: the default value of the parameter `max_f` of
`find_partial_path` is declared in the missing header; §4.6 of the spec gives
`max_f = ∞`. -/
def find_path_direct (K : Const) (fuel : Nat) (agent : Agent) (map : Map)
    (h_values : Heuristic) (S : Store) : Except Fault Path :=
  match get_endpoints K fuel S agent.start_id agent.start_i agent.start_j 0 K.CN_INFINITY with
  | .error e => .error e
  | .ok ends =>
    match ends with
    | [] => .error .out_of_range
    | st :: _ =>
      let S1 := touch S agent.start_id
      match get_endpoints K fuel S1 agent.goal_id agent.goal_i agent.goal_j 0 K.CN_INFINITY with
      | .error e => .error e
      | .ok gends =>
        match gends.getLast? with
        | none => .error .empty_back
        | some gl =>
          match find_partial_path K fuel agent (touch S1 agent.goal_id) map h_values [st] [gl]
              K.CN_INFINITY with
          | .error e => .error e
          | .ok parts =>
            match parts with
            | [] => .error .empty_back
            | p0 :: _ => if p0.cost < 0 then .ok Path.empty else finish agent p0

/-- `SIPP::find_path` on a planner object whose members are empty; the run on an
object left by earlier calls is `find_path_st`. -/
def find_path (K : Const) (fuel : Nat) (agent : Agent) (map : Map) (cons : List Constraint)
    (h_values : Heuristic) : Except Fault Path :=
  let S := make_constraints K agent clear cons
  match S.landmarks with
  | [] => find_path_direct K fuel agent map h_values S
  | lm :: rem => find_path_landmarks K fuel agent map h_values S lm rem

/-! ## The planner object -/

/-- The data members of the planner object that `sipp.cpp` reads or writes. -/
structure Planner where
  openl : List Node
  close : List Node
  store : Store
  path : Path
  agent : Agent

/-- `SIPP::clear` on the planner object: the containers are emptied and
`path.cost` is set to `-1`; `path.nodes` and `agent` are left as they are. -/
def clear_state (s : Planner) : Planner :=
  { s with openl := [], close := [], store := clear, path := { s.path with cost := -1 } }

/-- `SIPP::make_constraints` on the object: the constraint members are read and
written, the member `agent` is read. -/
def make_constraints_st (K : Const) (cons : List Constraint) (s : Planner) : Planner :=
  { s with store := make_constraints K s.agent s.store cons }

/-- `SIPP::find_min` on the object: the head of `open` is removed and returned. -/
def find_min_st (s : Planner) : Option (Node × Planner) :=
  match s.openl with
  | [] => none
  | n :: rest => some (n, { s with openl := rest })

/-- `SIPP::add_open` on the object. -/
def add_open_st (K : Const) (newNode : Node) (s : Planner) : Planner :=
  { s with openl := add_open K s.openl newNode }

/-- `SIPP::reconstruct_path` on the object: `path.nodes` is cleared, the nodes
of the parent chain are inserted at its front, the wait nodes are inserted, and
the vector is returned. -/
def reconstruct_path_st (K : Const) (curNode : Node) (s : Planner) :
    Except Fault (List Node × Planner) :=
  let s1 : Planner := { s with path := { s.path with nodes := [] } }
  match insert_waits K (parent_chain curNode.cell curNode.parent ++ s1.path.nodes) with
  | .error e => .error e
  | .ok nodes => .ok (nodes, { s1 with path := { s1.path with nodes := nodes } })

/-- The loop over `goals` of `find_partial_path` on the object; `close.size()`
is read from the object. -/
def goal_loop_st (K : Const) :
    Node → List Node → List Path → Planner → Except Fault ((Node × List Path × Nat) × Planner)
  | curNode, goal :: goals, p :: paths, s =>
    if curNode.g - K.CN_EPSILON < goal.interval.2 ∧
        goal.interval.1 - K.CN_EPSILON < curNode.interval.2 then
      match reconstruct_path_st K curNode s with
      | .error e => .error e
      | .ok (nodes, s1) =>
        match nodes.getLast? with
        | none => .error .empty_back
        | some b =>
          let cur1 : Node := if b.g < goal.interval.1 then { curNode with g := goal.interval.1 }
            else curNode
          let nodes1 := if b.g < goal.interval.1 then nodes ++ [cur1] else nodes
          match goal_loop_st K cur1 goals paths s1 with
          | .error e => .error e
          | .ok ((cur2, paths2, cnt), s2) =>
            .ok ((cur2,
              { p with nodes := nodes1, cost := cur1.g, expanded := s1.close.length } :: paths2,
              cnt + 1), s2)
    else
      match goal_loop_st K curNode goals paths s with
      | .error e => .error e
      | .ok ((cur2, paths2, cnt), s2) => .ok ((cur2, p :: paths2, cnt), s2)
  | curNode, _, paths, s => .ok ((curNode, paths, 0), s)

/-- The loop over `succs` of `find_partial_path` on the object: the closed set
is read from the object and the successor is handed to `add_open`. -/
def push_successors_st (K : Const) (max_f : ℚ) (parent : List Cell) :
    List Node → Planner → Planner
  | [], s => s
  | it :: succs, s =>
    if it.f > max_f then push_successors_st K max_f parent succs s
    else if closed_has K s.close it then push_successors_st K max_f parent succs s
    else push_successors_st K max_f parent succs (add_open_st K { it with parent := parent } s)

/-- The `while(!open.empty())` loop of `find_partial_path` on the object: `open`,
`close`, the constraint members and `agent` are those of the object. -/
def search_loop_st (K : Const) (map : Map) (h_values : Heuristic)
    (goals : List Node) (goal0 : Node) (max_f : ℚ) :
    Nat → List Path → Nat → Planner → Except Fault (List Path × Planner)
  | 0, _, _, _ => .error .fuel
  | fuel + 1, paths, pathFound, s =>
    match find_min_st s with
    | none => .ok (paths, s)
    | some (popped, s1) =>
      let s2 : Planner := { s1 with close := s1.close ++ [popped] }
      let expand (curNode : Node) (paths1 : List Path) (found1 : Nat) (s3 : Planner) :
          Except Fault (List Path × Planner) :=
        let succs := find_successors K s3.agent s3.store map h_values curNode (goalArg goal0)
        search_loop_st K map h_values goals goal0 max_f fuel paths1 found1
          (push_successors_st K max_f (popped.cell :: popped.parent) succs s3)
      if popped.id = goal0.id then
        match goal_loop_st K popped goals paths s2 with
        | .error e => .error e
        | .ok ((curNode, paths1, cnt), s3) =>
          if pathFound + cnt = goals.length then .ok (paths1, s3)
          else expand curNode paths1 (pathFound + cnt) s3
      else expand popped paths pathFound s2

/-- `SIPP::find_partial_path` on the object: `open` and `close` are cleared,
`path.cost` is set to `-1`, the start nodes are pushed onto `open`, and the loop
runs. -/
def find_partial_path_st (K : Const) (fuel : Nat) (map : Map) (h_values : Heuristic)
    (starts goals : List Node) (max_f : ℚ) (s : Planner) : Except Fault (List Path × Planner) :=
  let s1 : Planner := { s with openl := [], close := [], path := { s.path with cost := -1 } }
  let s2 : Planner :=
    { s1 with openl := s1.openl ++ starts.map (fun st => { st with parent := [] }) }
  match goals with
  | [] => .error .empty_back
  | goal0 :: _ =>
    search_loop_st K map h_values goals goal0 max_f fuel
      (List.replicate goals.length Path.empty) 0 s2

/-- `SIPP::get_endpoints` on the object: the collision vector of the vertex is
read with `operator[]`, which creates it when it is absent. -/
def get_endpoints_st (K : Const) (fuel : Nat) (node_id : Int) (node_i node_j t1 t2 : ℚ)
    (s : Planner) : Except Fault (List Node × Planner) :=
  match get_endpoints K fuel s.store node_id node_i node_j t1 t2 with
  | .error e => .error e
  | .ok nodes => .ok (nodes, { s with store := touch s.store node_id })

/-- The part of one iteration of the landmark loop after `starts` and `goals`
are set, on the object. -/
def segment_st (K : Const) (fuel : Nat) (map : Map) (h_values : Heuristic) (first : Bool)
    (starts goals : List Node) (results : List Path) (s : Planner) :
    Except Fault (Option (List Path) × Planner) :=
  match goals.getLast? with
  | none => .ok (none, s)
  | some gl =>
    match find_partial_path_st K fuel map h_values starts goals gl.interval.2 s with
    | .error e => .error e
    | .ok (parts, s1) =>
      match stitch K parts results with
      | .error e => .error e
      | .ok stitched =>
        if ((if first then parts.filter (fun p => !p.nodes.isEmpty) else []) ++ stitched).isEmpty
        then .ok (none, s1)
        else .ok (some ((if first then parts.filter (fun p => !p.nodes.isEmpty) else [])
          ++ stitched), s1)

/-- The traversal of the landmark edge `lm` in the landmark loop, on the
object. -/
def traverse_st (K : Const) (fuel : Nat) (lm : Move) (results : List Path) (s : Planner) :
    Except Fault (Option (List Path) × Planner) :=
  match back_nodes results with
  | .error e => .error e
  | .ok starts =>
    match get_endpoints_st K fuel lm.id2 lm.i2 lm.j2
        (lm.t1 + K.sqrt ((lm.i1 - lm.i2) ^ 2 + (lm.j1 - lm.j2) ^ 2))
        (lm.t2 + K.sqrt ((lm.i1 - lm.i2) ^ 2 + (lm.j1 - lm.j2) ^ 2)) s with
    | .error e => .error e
    | .ok (goals, s1) =>
      if goals.isEmpty then .ok (none, s1)
      else
        match collect (traverse_goal K s1.store
            (K.sqrt ((lm.i1 - lm.i2) ^ 2 + (lm.j1 - lm.j2) ^ 2)) starts results) goals with
        | .error e => .error e
        | .ok rs => if rs.isEmpty then .ok (none, s1) else .ok (some rs, s1)

/-- The iterations `i ≥ 1` of the landmark loop on the object; `agent` is the
parameter of `find_path`. -/
def landmark_loop_st (K : Const) (fuel : Nat) (agent : Agent) (map : Map)
    (h_values : Heuristic) :
    List Move → List Path → Planner → Except Fault (Option (List Path) × Planner)
  | [], results, s =>
    match back_nodes results with
    | .error e => .error e
    | .ok starts =>
      match get_endpoints_st K fuel agent.goal_id agent.goal_i agent.goal_j 0 K.CN_INFINITY s with
      | .error e => .error e
      | .ok (ends, s1) =>
        match ends.getLast? with
        | none => .error .empty_back
        | some gl => segment_st K fuel map h_values false starts [gl] results s1
  | lm :: rem, results, s =>
    match back_nodes results with
    | .error e => .error e
    | .ok starts =>
      match get_endpoints_st K fuel lm.id1 lm.i1 lm.j1 lm.t1 lm.t2 s with
      | .error e => .error e
      | .ok (goals, s1) =>
        match segment_st K fuel map h_values false starts goals results s1 with
        | .error e => .error e
        | .ok (none, s2) => .ok (none, s2)
        | .ok (some results1, s2) =>
          match traverse_st K fuel lm results1 s2 with
          | .error e => .error e
          | .ok (none, s3) => .ok (none, s3)
          | .ok (some results2, s3) =>
            landmark_loop_st K fuel agent map h_values rem results2 s3

/-- The landmark branch of `find_path` on the object, with `lm = landmarks[0]`. -/
def find_path_landmarks_st (K : Const) (fuel : Nat) (agent : Agent) (map : Map)
    (h_values : Heuristic) (lm : Move) (rem : List Move) (s : Planner) :
    Except Fault (Path × Planner) :=
  match get_endpoints_st K fuel agent.start_id agent.start_i agent.start_j 0 K.CN_INFINITY s with
  | .error e => .error e
  | .ok (ends, s1) =>
    match ends with
    | [] => .error .out_of_range
    | st :: _ =>
      match get_endpoints_st K fuel lm.id1 lm.i1 lm.j1 lm.t1 lm.t2 s1 with
      | .error e => .error e
      | .ok (goals, s2) =>
        match segment_st K fuel map h_values true [st] goals [] s2 with
        | .error e => .error e
        | .ok (none, s3) => .ok (Path.empty, s3)
        | .ok (some results1, s3) =>
          match traverse_st K fuel lm results1 s3 with
          | .error e => .error e
          | .ok (none, s4) => .ok (Path.empty, s4)
          | .ok (some results2, s4) =>
            match landmark_loop_st K fuel agent map h_values rem results2 s4 with
            | .error e => .error e
            | .ok (none, s5) => .ok (Path.empty, s5)
            | .ok (some [], _) => .error .empty_back
            | .ok (some (r :: _), s5) =>
              match finish agent r with
              | .error e => .error e
              | .ok p => .ok (p, s5)

/-- The branch of `find_path` without landmarks, on the object. -/
def find_path_direct_st (K : Const) (fuel : Nat) (agent : Agent) (map : Map)
    (h_values : Heuristic) (s : Planner) : Except Fault (Path × Planner) :=
  match get_endpoints_st K fuel agent.start_id agent.start_i agent.start_j 0 K.CN_INFINITY s with
  | .error e => .error e
  | .ok (ends, s1) =>
    match ends with
    | [] => .error .out_of_range
    | st :: _ =>
      match get_endpoints_st K fuel agent.goal_id agent.goal_i agent.goal_j 0 K.CN_INFINITY s1 with
      | .error e => .error e
      | .ok (gends, s2) =>
        match gends.getLast? with
        | none => .error .empty_back
        | some gl =>
          match find_partial_path_st K fuel map h_values [st] [gl] K.CN_INFINITY s2 with
          | .error e => .error e
          | .ok (parts, s3) =>
            match parts with
            | [] => .error .empty_back
            | p0 :: _ =>
              if p0.cost < 0 then .ok (Path.empty, s3)
              else
                match finish agent p0 with
                | .error e => .error e
                | .ok p => .ok (p, s3)

/-- The assignment `this->agent = agent` of `find_path`. -/
def set_agent (agent : Agent) (s : Planner) : Planner := { s with agent := agent }

/-- The first three statements of `find_path` on the object: `clear`, the
assignment of the member `agent`, and `make_constraints`. -/
def enter (K : Const) (agent : Agent) (cons : List Constraint) (s : Planner) : Planner :=
  make_constraints_st K cons (set_agent agent (clear_state s))

/-- `SIPP::find_path` on the planner object `s` left by earlier calls: `clear`,
the assignment of the member `agent`, `make_constraints`, and the search; the
returned path comes with the object as the call leaves it. -/
def find_path_st (K : Const) (fuel : Nat) (agent : Agent) (map : Map)
    (cons : List Constraint) (h_values : Heuristic) (s : Planner) :
    Except Fault (Path × Planner) :=
  match (enter K agent cons s).store.landmarks with
  | [] => find_path_direct_st K fuel agent map h_values (enter K agent cons s)
  | lm :: rem => find_path_landmarks_st K fuel agent map h_values lm rem (enter K agent cons s)

/-! ## The partial search with the popped node left unchanged -/

/-- Modelled from the spec: the goal loop of `find_partial_path` as the
specification describes it, with the wait node a copy of the popped node, so
that the popped node keeps its own `g` for the remaining goals. -/
def goal_loop_kept (K : Const) (closeSize : Nat) :
    Node → List Node → List Path → Except Fault (List Path × Nat)
  | curNode, goal :: goals, p :: paths =>
    if curNode.g - K.CN_EPSILON < goal.interval.2 ∧
        goal.interval.1 - K.CN_EPSILON < curNode.interval.2 then
      match reconstruct_path K curNode with
      | .error e => .error e
      | .ok nodes =>
        match nodes.getLast? with
        | none => .error .empty_back
        | some b =>
          let add : Node := { curNode with g := goal.interval.1 }
          let nodes1 := if b.g < goal.interval.1 then nodes ++ [add] else nodes
          let cost1 := if b.g < goal.interval.1 then goal.interval.1 else curNode.g
          match goal_loop_kept K closeSize curNode goals paths with
          | .error e => .error e
          | .ok (paths2, cnt) =>
            .ok ({ p with nodes := nodes1, cost := cost1, expanded := closeSize } :: paths2,
              cnt + 1)
    else
      match goal_loop_kept K closeSize curNode goals paths with
      | .error e => .error e
      | .ok (paths2, cnt) => .ok (p :: paths2, cnt)
  | _, _, paths => .ok (paths, 0)

/-- Modelled from the spec: the loop of `find_partial_path` with the successors
generated from the popped node itself. -/
def search_loop_kept (K : Const) (agent : Agent) (S : Store) (map : Map) (h_values : Heuristic)
    (goals : List Node) (goal0 : Node) (max_f : ℚ) :
    Nat → List Node → List Node → List Path → Nat → Except Fault (List Path)
  | 0, _, _, _, _ => .error .fuel
  | _ + 1, [], _, paths, _ => .ok paths
  | fuel + 1, popped :: openl, close, paths, pathFound =>
    let close1 := close ++ [popped]
    let expand (paths1 : List Path) (found1 : Nat) : Except Fault (List Path) :=
      let succs := find_successors K agent S map h_values popped (goalArg goal0)
      search_loop_kept K agent S map h_values goals goal0 max_f fuel
        (push_successors K max_f close1 (popped.cell :: popped.parent) openl succs)
        close1 paths1 found1
    if popped.id = goal0.id then
      match goal_loop_kept K close1.length popped goals paths with
      | .error e => .error e
      | .ok (paths1, cnt) =>
        if pathFound + cnt = goals.length then .ok paths1
        else expand paths1 (pathFound + cnt)
    else expand paths pathFound

/-- Modelled from the spec: `find_partial_path` with the popped node left
unchanged by the goal loop. -/
def find_partial_path_kept (K : Const) (fuel : Nat) (agent : Agent) (S : Store) (map : Map)
    (h_values : Heuristic) (starts goals : List Node) (max_f : ℚ) : Except Fault (List Path) :=
  match goals with
  | [] => .error .empty_back
  | goal0 :: _ =>
    search_loop_kept K agent S map h_values goals goal0 max_f fuel
      (starts.map (fun s => { s with parent := [] })) []
      (List.replicate goals.length Path.empty) 0

/-! ## The arithmetic of `double` -/

/-- The power `2 ^ e` for an integer exponent. -/
def two_pow (e : ℤ) : ℚ :=
  if 0 ≤ e then ((2 ^ e.toNat : ℕ) : ℚ) else 1 / ((2 ^ (-e).toNat : ℕ) : ℚ)

/-- The number of halvings that take `n` below `2`, at most `fuel` of them: the
position of the leading bit of `n`. -/
def leading_bit : Nat → Nat → Nat
  | 0, _ => 0
  | fuel + 1, n => if n < 2 then 0 else leading_bit fuel (n / 2) + 1

/-- The binary exponent of a positive number: the `e` with `2 ^ e ≤ x < 2 ^ (e + 1)`,
for numerators and denominators below `2 ^ 4096`. -/
def binary_exponent (x : ℚ) : ℤ :=
  let e0 : ℤ := (leading_bit 4096 x.num.natAbs : ℤ) - (leading_bit 4096 x.den : ℤ)
  if x < two_pow e0 then e0 - 1 else e0

/-- Rounding to the nearest integer, a tie going to the even one. -/
def round_even (x : ℚ) : ℤ :=
  if x - (Rat.floor x : ℚ) < 1 / 2 then Rat.floor x
  else if x - (Rat.floor x : ℚ) > 1 / 2 then Rat.floor x + 1
  else if Rat.floor x % 2 = 0 then Rat.floor x
  else Rat.floor x + 1

/-- The `double` nearest to `x`: round-to-nearest-even to 53 significant bits
(IEEE 754 binary64 in its normal range; overflow and subnormal numbers are
not modelled). -/
def fl (x : ℚ) : ℚ :=
  if x = 0 then 0
  else (round_even (x / two_pow (binary_exponent |x| - 52)) : ℚ)
    * two_pow (binary_exponent |x| - 52)

/-- The rounded operations of the source on `double` values: `a + b`, `a - b`
and `pow(a, 2)`. -/
structure Arith where
  add : ℚ → ℚ → ℚ
  sub : ℚ → ℚ → ℚ
  sq : ℚ → ℚ

/-- Arithmetic without rounding. -/
def rational : Arith := ⟨fun a b => a + b, fun a b => a - b, fun a => a ^ 2⟩

/-- The arithmetic of IEEE 754 `double`: every operation returns the `double`
nearest to the exact result. -/
def binary64 : Arith := ⟨fun a b => fl (a + b), fun a b => fl (a - b), fun a => fl (a ^ 2)⟩

/-! ## `find_successors` and `check_endpoint` in the arithmetic of `double`

The same functions with every sum, difference and square of the source formed by
the rounded operations of an `Arith`. -/

/-- The expression `sqrt(pow(ai - bi, 2) + pow(aj - bj, 2))` of `dist`,
`find_successors` and `check_endpoint`. -/
def dist_fl (A : Arith) (K : Const) (ai aj bi bj : ℚ) : ℚ :=
  K.sqrt (A.add (A.sq (A.sub ai bi)) (A.sq (A.sub aj bj)))

/-- The edge-constraint loop of `find_successors` on the arrival time. -/
def avoid_moves_fl (A : Arith) (K : Const) (cost : ℚ) : List Move → ℚ → ℚ
  | [], g => g
  | m :: rest, g =>
    avoid_moves_fl A K cost rest
      (if A.add (A.sub g cost) K.CN_EPSILON > m.t1 ∧ A.sub g cost < m.t2 then A.add m.t2 cost
        else g)

/-- The heuristic value added to `g` in `find_successors`. -/
def h_value_fl (A : Arith) (K : Const) (agent : Agent) (h_values : Heuristic) (goal : Node)
    (v : Vertex) : ℚ :=
  if goal.id = agent.goal_id then h_values.get_value v.id agent.id
  else
    (List.range h_values.get_size).foldl
      (fun (h : ℚ) (p : Nat) =>
        max h |A.sub (h_values.get_value v.id (p : Int)) (h_values.get_value goal.id (p : Int))|)
      (dist_fl A K goal.i goal.j v.i v.j)

/-- The value of `newNode.g` after the two adjustments made for one interval. -/
def arrival_fl (A : Arith) (K : Const) (cost : ℚ) (cons : Option (List Move))
    (interval : ℚ × ℚ) (g : ℚ) : ℚ :=
  match cons with
  | none => if interval.1 > g then interval.1 else g
  | some l => avoid_moves_fl A K cost l (if interval.1 > g then interval.1 else g)

/-- The loop over `intervals` of `find_successors` for one move. -/
def interval_loop_fl (A : Arith) (K : Const) (curNode : Node) (v : Vertex) (cost hv : ℚ)
    (cons : Option (List Move)) : List (ℚ × ℚ) → ℚ → List Node
  | [], _ => []
  | interval :: rest, g =>
    if interval.2 < g then interval_loop_fl A K curNode v cost hv cons rest g
    else if A.sub (arrival_fl A K cost cons interval g) cost > curNode.interval.2 ∨
        arrival_fl A K cost cons interval g > interval.2 then
      interval_loop_fl A K curNode v cost hv cons rest (arrival_fl A K cost cons interval g)
    else
      ⟨v.id, A.add (arrival_fl A K cost cons interval g) hv, arrival_fl A K cost cons interval g,
        v.i, v.j, interval, []⟩ ::
        interval_loop_fl A K curNode v cost hv cons rest (arrival_fl A K cost cons interval g)

/-- The successors `find_successors` appends for one valid move. -/
def move_successors_fl (A : Arith) (K : Const) (agent : Agent) (S : Store)
    (h_values : Heuristic) (curNode goal : Node) (v : Vertex) : List Node :=
  interval_loop_fl A K curNode v (dist_fl A K curNode.i curNode.j v.i v.j)
    (h_value_fl A K agent h_values goal v) (S.constraints (curNode.id, v.id))
    (successor_intervals K (S.collision_intervals v.id)
      (A.add curNode.g (dist_fl A K curNode.i curNode.j v.i v.j)))
    (A.add curNode.g (dist_fl A K curNode.i curNode.j v.i v.j))

/-- `SIPP::find_successors` in the arithmetic `A`: the list appended to `succs`. -/
def find_successors_fl (A : Arith) (K : Const) (agent : Agent) (S : Store) (map : Map)
    (h_values : Heuristic) (curNode goal : Node) : List Node :=
  (map.get_valid_moves curNode.id).flatMap (move_successors_fl A K agent S h_values curNode goal)

/-- The edge-constraint loop of `check_endpoint` on the departure time. -/
def endpoint_avoid_fl (A : Arith) (K : Const) : List Move → ℚ → ℚ
  | [], g => g
  | m :: rest, g =>
    endpoint_avoid_fl A K rest (if A.add g K.CN_EPSILON > m.t1 ∧ g < m.t2 then m.t2 else g)

/-- The value of `start.g` when `check_endpoint` reaches its last test: the
departure time. -/
def endpoint_departure_fl (A : Arith) (K : Const) (S : Store) (start goal : Node) : ℚ :=
  match S.constraints (start.id, goal.id) with
  | none =>
    if A.add start.g (dist_fl A K start.i start.j goal.i goal.j) < goal.interval.1
    then A.sub goal.interval.1 (dist_fl A K start.i start.j goal.i goal.j) else start.g
  | some l =>
    endpoint_avoid_fl A K l
      (if A.add start.g (dist_fl A K start.i start.j goal.i goal.j) < goal.interval.1
        then A.sub goal.interval.1 (dist_fl A K start.i start.j goal.i goal.j) else start.g)

/-- `SIPP::check_endpoint` in the arithmetic `A`. -/
def check_endpoint_fl (A : Arith) (K : Const) (S : Store) (start goal : Node) : ℚ :=
  if endpoint_departure_fl A K S start goal > start.interval.2 ∨
      A.add (endpoint_departure_fl A K S start goal) (dist_fl A K start.i start.j goal.i goal.j)
        > goal.interval.2 then K.CN_INFINITY
  else A.add (endpoint_departure_fl A K S start goal) (dist_fl A K start.i start.j goal.i goal.j)

/-! ## Properties named by the specification -/

/-- Consecutive entries `a, b` of a collision vector satisfy `a.hi + ε < b.lo`:
the vector is sorted by `lo` and pairwise disjoint modulo `ε`. -/
def CollisionsDisjoint (K : Const) (l : List (ℚ × ℚ)) : Prop :=
  List.Chain' (fun a b => a.2 + K.CN_EPSILON < b.1) l

instance (K : Const) (l : List (ℚ × ℚ)) : Decidable (CollisionsDisjoint K l) :=
  inferInstanceAs (Decidable (List.Chain' _ l))

/-- Consecutive entries `a, b` of an edge-constraint vector satisfy
`a.t2 + ε < b.t1`. -/
def MovesDisjoint (K : Const) (l : List Move) : Prop :=
  List.Chain' (fun a b => a.t2 + K.CN_EPSILON < b.t1) l

instance (K : Const) (l : List Move) : Decidable (MovesDisjoint K l) :=
  inferInstanceAs (Decidable (List.Chain' _ l))

/-- The time `t` is covered by an interval of the list. -/
def Covered (l : List (ℚ × ℚ)) (t : ℚ) : Prop := ∃ c ∈ l, c.1 ≤ t ∧ t ≤ c.2

/-- The safe interval `[lo, hi]` meets no collision interval of the list in more
than a boundary point. -/
def SafeAgainst (l : List (ℚ × ℚ)) (iv : ℚ × ℚ) : Prop :=
  ∀ c ∈ l, c.2 ≤ iv.1 ∨ iv.2 ≤ c.1

instance (l : List (ℚ × ℚ)) (iv : ℚ × ℚ) : Decidable (SafeAgainst l iv) :=
  inferInstanceAs (Decidable (∀ c ∈ l, c.2 ≤ iv.1 ∨ iv.2 ≤ c.1))

/-- A space-time path, given by its nodes (vertex, coordinates, arrival time
`g`), respects the negative constraints of the input: it starts at the start of
the agent at time `0`, ends at its goal, every step is a wait at a vertex or a
move along an edge of the map that takes the length of the edge, the agent is at
no vertex during a forbidden wait interval of that vertex (from its arrival to
its departure, and from the arrival on at the last vertex), and it leaves along
no edge during a forbidden departure interval of that edge. -/
def Respects (K : Const) (agent : Agent) (map : Map) (cons : List Constraint) :
    List Node → Prop
  | [] => False
  | [n] => n.id = agent.goal_id ∧
      ∀ c ∈ cons, c.positive = false → c.id1 = n.id → c.id2 = n.id → c.t2 < n.g
  | u :: v :: rest =>
    ((u.id = v.id ∧ u.i = v.i ∧ u.j = v.j ∧ u.g < v.g ∧
        (∀ c ∈ cons, c.positive = false → c.id1 = u.id → c.id2 = u.id →
          c.t2 < u.g ∨ v.g < c.t1)) ∨
      ((⟨v.id, v.i, v.j⟩ : Vertex) ∈ map.get_valid_moves u.id ∧ v.g = u.g + dist K u v ∧
        (∀ c ∈ cons, c.positive = false → c.id1 = u.id → c.id2 = u.id →
          c.t2 < u.g ∨ u.g < c.t1) ∧
        (∀ c ∈ cons, c.positive = false → c.id1 = u.id → c.id2 = v.id → u.id ≠ v.id →
          c.t2 < u.g ∨ u.g < c.t1))) ∧
    Respects K agent map cons (v :: rest)

/-- A path in the sense of `Respects` that starts at the start of the agent at
time `0`. -/
def RespectsFromStart (K : Const) (agent : Agent) (map : Map) (cons : List Constraint)
    (p : List Node) : Prop :=
  (∃ n ∈ p.head?, n.id = agent.start_id ∧ n.i = agent.start_i ∧ n.j = agent.start_j ∧ n.g = 0) ∧
    Respects K agent map cons p

/-- Modelled from the spec: the moves of the positive constraints that name the
agent, in the order of the input. -/
def own_landmarks (agent : Agent) (cons : List Constraint) : List Move :=
  (cons.filter (fun c => c.positive && decide (c.agent = agent.id))).map Move.ofConstraint

/-- Modelled from the spec: the heuristic `h(v)` of §4.4.  If the sub-search
targets the goal of the agent it is the exact pre-computed heuristic, the value
of the oracle at the pivot index `agent.id`; else it is the maximum of the
straight-line Euclidean distance to the target and the differential lower
bounds `|h(v, pivot_k) − h(goal, pivot_k)|` over the pivots. -/
def h_spec (K : Const) (agent : Agent) (h_values : Heuristic) (goal : Node) (v : Vertex) : ℚ :=
  if goal.id = agent.goal_id then h_values.get_value v.id agent.id
  else
    ((List.range h_values.get_size).map
      (fun (k : Nat) =>
        |h_values.get_value v.id (k : Int) - h_values.get_value goal.id (k : Int)|)).foldr max
      (K.sqrt ((goal.i - v.i) ^ 2 + (goal.j - v.j) ^ 2))

/-! ## Invariants used in the proofs -/

/-- The coordinates of a node are those the coordinate table gives its vertex. -/
def CoordOK (coord : Int → ℚ × ℚ) (n : Node) : Prop := (n.i, n.j) = coord n.id

/-- Every vertex the map hands out carries the coordinates of the table. -/
def MapCoord (coord : Int → ℚ × ℚ) (map : Map) : Prop :=
  ∀ a, ∀ v ∈ map.get_valid_moves a, (v.i, v.j) = coord v.id

/-- The popped node with `g` overwritten, as the goal loop leaves it. -/
def withG (n : Node) (g : ℚ) : Node := { n with g := g }

/-- What `find_partial_path` stores in a slot of `paths`, for a node invariant
`P`: nothing, or the reconstruction of a popped node that satisfies `P` and
passed the goal test of some goal, followed by a wait node when it arrives
before the goal interval opens.  The `g` of the popped node at that moment is
its own or the start of an earlier goal interval. -/
def PartSpec (K : Const) (P : Node → Prop) (goals : List Node) (goal0 : Node) (p : Path) : Prop :=
  p.nodes = [] ∨
    ∃ (popped goal : Node) (g' : ℚ) (nodes : List Node),
      P popped ∧ popped.g ≤ g' ∧ popped.id = goal0.id ∧
      (∃ done rest, goals = done ++ goal :: rest ∧
        (g' = popped.g ∨ ∃ gk ∈ done, g' = gk.interval.1)) ∧
      g' - K.CN_EPSILON < goal.interval.2 ∧
      goal.interval.1 - K.CN_EPSILON < popped.interval.2 ∧
      reconstruct_path K (withG popped g') = .ok nodes ∧
      p.nodes = (if g' < goal.interval.1 then nodes ++ [withG popped goal.interval.1] else nodes)

/-- The distance `find_successors` computes between a parent and a child. -/
def cellDist (K : Const) (a b : Cell) : ℚ := K.sqrt ((a.i - b.i) ^ 2 + (a.j - b.j) ^ 2)

/-- Every link of the parent chain of a node, from the node up to the root,
satisfies the relation `R parent child`. -/
def Linked (R : Cell → Cell → Prop) : Cell → List Cell → Prop
  | _, [] => True
  | c, p :: rest => R p c ∧ Linked R p rest

/-- The child arrives no earlier than a direct move from the parent allows. -/
def MoveLink (K : Const) (p c : Cell) : Prop := p.g + cellDist K p c ≤ c.g

/-- The shape of a step of a path as the code guarantees it: a move that takes
the length of the edge up to `ε` (inclusive), or a wait at one vertex. -/
def Shape (K : Const) (u v : Node) : Prop :=
  |v.g - u.g - dist K u v| ≤ K.CN_EPSILON ∨ (u.id = v.id ∧ v.g > u.g)

/-- The shape of a step as the specification states it, with a strict bound. -/
def ShapeStrict (K : Const) (u v : Node) : Prop :=
  |v.g - u.g - dist K u v| < K.CN_EPSILON ∨ (u.id = v.id ∧ v.g > u.g)

/-- The input has no landmark for the agent. -/
def NoLandmark (agent : Agent) (cons : List Constraint) : Prop :=
  ∀ c ∈ cons, c.positive = true → c.agent ≠ agent.id

/-- The root of a parent chain. -/
def rootCell : Cell → List Cell → Cell
  | c, [] => c
  | _, p :: rest => rootCell p rest

/-- What `find_successors` guarantees between a popped node `p` and a successor
`c`: the child arrives no earlier than a direct move allows, leaves the parent
inside the parent's interval, arrives inside its own interval, and that
interval is one of those built from the collision vector of its vertex. -/
def Link (K : Const) (S : Store) (p c : Cell) : Prop :=
  p.g + cellDist K p c ≤ c.g ∧ c.g - cellDist K p c ≤ p.interval.2 ∧
    c.interval.1 ≤ c.g ∧ c.g ≤ c.interval.2 ∧
    ∃ t, c.interval ∈ successor_intervals K (S.collision_intervals c.id) t

/-- The invariant of the nodes of the open list: table coordinates, a linked
parent chain, and a root that is one of the start nodes. -/
def Inv (K : Const) (S : Store) (coord : Int → ℚ × ℚ) (starts : List Node) (n : Node) : Prop :=
  CoordOK coord n ∧ Linked (Link K S) n.cell n.parent ∧
    ∃ s ∈ starts, rootCell n.cell n.parent = s.cell

/-- The order of two sub-intervals returned by `get_endpoints`: the first ends
before the second starts, and their starts are at least `ε` apart. -/
def EndBefore (K : Const) (a b : Node) : Prop :=
  a.interval.2 ≤ b.interval.1 ∧ a.interval.1 + K.CN_EPSILON ≤ b.interval.1

/-- A sub-interval returned by `get_endpoints` for the window `[t1, t2]`. -/
def EndWithin (t1 t2 : ℚ) (n : Node) : Prop :=
  t1 ≤ n.interval.1 ∧ n.interval.2 ≤ t2 ∧ n.interval.1 ≤ n.interval.2

/-- The invariant of the vector of `get_endpoints`: the sub-intervals lie in the
window, in ascending order. -/
def EndInv (K : Const) (t1 t2 : ℚ) (nodes : List Node) : Prop :=
  nodes.Pairwise (EndBefore K) ∧ ∀ n ∈ nodes, EndWithin t1 t2 n

/-- Every stored collision interval has `lo ≤ hi`. -/
def StoreOrdered (S : Store) : Prop :=
  ∀ id l, S.collision_intervals id = some l → ∀ c ∈ l, c.1 ≤ c.2

/-- The consecutive pairs of a node sequence. -/
def pairs : List Node → List (Node × Node)
  | a :: b :: l => (a, b) :: pairs (b :: l)
  | _ => []

/-- The consecutive nodes `a, b` are a traversal of the landmark edge `lm` that
leaves inside its window. -/
def Traverses (lm : Move) (a b : Node) : Prop :=
  a.id = lm.id1 ∧ b.id = lm.id2 ∧ lm.t1 ≤ a.g ∧ a.g ≤ lm.t2

/-- The node sequence contains a traversal of every landmark of the list, in the
order of the list. -/
def Honoured (lms : List Move) (nodes : List Node) : Prop :=
  ∃ ps : List (Node × Node),
    List.Forall₂ (fun lm p => Traverses lm p.1 p.2) lms ps ∧ ps.Sublist (pairs nodes)

/-- The invariant of a surviving result of the landmark loop: the shape of a
path, the landmarks traversed so far, and a last node with table coordinates. -/
def ResInv (K : Const) (coord : Int → ℚ × ℚ) (done : List Move) (r : Path) : Prop :=
  List.Chain' (Shape K) r.nodes ∧ Honoured done r.nodes ∧
    ∃ b, r.nodes.getLast? = some b ∧ CoordOK coord b

/-- Two surviving results whose last nodes have interval starts within `ε` of
each other have the same last node. -/
def BacksSep (K : Const) (results : List Path) : Prop :=
  ∀ r ∈ results, ∀ r' ∈ results, ∀ b b', r.nodes.getLast? = some b →
    r'.nodes.getLast? = some b' → |b.interval.1 - b'.interval.1| < K.CN_EPSILON → b = b'

/-- The landmarks carry the coordinates the table gives their vertices. -/
def LandmarkCoord (coord : Int → ℚ × ℚ) (lms : List Move) : Prop :=
  ∀ lm ∈ lms, coord lm.id1 = (lm.i1, lm.j1) ∧ coord lm.id2 = (lm.i2, lm.j2)

/-- The constraint is a negative wait constraint on the vertex `id`. -/
def WaitOn (c : Constraint) (id : Int) : Prop :=
  c.positive = false ∧ c.id1 = id ∧ c.id2 = id

instance (c : Constraint) (id : Int) : Decidable (WaitOn c id) :=
  inferInstanceAs (Decidable (_ ∧ _ ∧ _))

/-- No two negative wait constraints of the input are on the same vertex. -/
def WaitsDistinct (cons : List Constraint) : Prop :=
  cons.Pairwise (fun c c' => ∀ id, WaitOn c id → ¬ WaitOn c' id)

/-- Every negative wait constraint of the input is an interval `[t1, t2]` that
starts after `ε`, is at least `ε` long and ends before `∞ − ε`. -/
def WaitsProper (K : Const) (cons : List Constraint) : Prop :=
  ∀ c ∈ cons, ∀ id, WaitOn c id →
    K.CN_EPSILON < c.t1 ∧ c.t1 + K.CN_EPSILON ≤ c.t2 ∧ c.t2 + K.CN_EPSILON < K.CN_INFINITY

/-- The agent, at the vertex of `n` from its arrival `n.g` until it leaves for
`n'` at `n'.g − dist(n, n')`, meets no forbidden wait interval of that vertex in
more than an endpoint. -/
def SafeStep (K : Const) (cons : List Constraint) (n n' : Node) : Prop :=
  ∀ c ∈ cons, WaitOn c n.id → n'.g - dist K n n' ≤ c.t1 ∨ c.t2 ≤ n.g

/-- Vertex safety as the specification states it: no forbidden wait interval of
the vertex of `n` meets the open interval `(n.g − ε, n'.g + ε)`. -/
def SafeStepSpec (K : Const) (cons : List Constraint) (n n' : Node) : Prop :=
  ∀ c ∈ cons, WaitOn c n.id → c.t2 ≤ n.g - K.CN_EPSILON ∨ n'.g + K.CN_EPSILON ≤ c.t1

/-- The interval of `n` is safe for the forbidden wait intervals of its vertex
from the arrival `n.g` on. -/
def SafeAt (cons : List Constraint) (n : Node) : Prop :=
  ∀ c ∈ cons, WaitOn c n.id → n.interval.2 ≤ c.t1 ∨ c.t2 ≤ n.g

/-- The interval of a cell at a vertex with a forbidden wait interval
`[t1, t2]` is `[0, t1]` or `[t2, ∞]` and the cell arrives inside it; a cell at
the goal vertex `goal_id`, when no wait constraint is on it, arrives at a time
`≥ 0`. -/
def Placed (K : Const) (cons : List Constraint) (goal_id : Int) (c : Cell) : Prop :=
  (∀ con ∈ cons, WaitOn con c.id →
      (c.interval = (0, con.t1) ∨ c.interval = (con.t2, K.CN_INFINITY)) ∧ c.interval.1 ≤ c.g) ∧
    (c.id = goal_id → (∀ con ∈ cons, ¬ WaitOn con c.id) → 0 ≤ c.g)

/-- The test of `add_open` for an entry `e` that holds the state of `n`: the
same vertex and the same end of the interval up to `ε`. -/
def Duplicate (K : Const) (n e : Node) : Prop :=
  e.id = n.id ∧ |e.interval.2 - n.interval.2| < K.CN_EPSILON

instance (K : Const) (n e : Node) : Decidable (Duplicate K n e) :=
  inferInstanceAs (Decidable (_ ∧ _))

/-- The position `pos` of `add_open` after the loop has passed the entries
`pre`, the first of which has index `idx`. -/
def scan_pos (K : Const) (n : Node) : Nat → List Node → Option Nat → Option Nat
  | _, [], pos => pos
  | idx, x :: xs, pos => scan_pos K n (idx + 1) xs (next_pos K n x idx pos)

/-- The order of the open list as the specification states it: no entry's `f`
exceeds the `f` of a later entry by more than `ε`, and of two entries with `f`
within `ε` the earlier one has the larger or equal `g`. -/
def OpenOrderedEps (K : Const) (l : List Node) : Prop :=
  l.Pairwise (fun a b => a.f ≤ b.f + K.CN_EPSILON ∧ (|a.f - b.f| < K.CN_EPSILON → b.g ≤ a.g))

/-- The exact lexicographic order of the keys `(f ascending, g descending)`. -/
def Lex (a b : Node) : Prop := a.f < b.f ∨ (a.f = b.f ∧ b.g ≤ a.g)

/-- The keys of `n` and of the entries of `l` can be told apart under the
tolerance: the `f` values are equal or more than `ε` apart, and so are the `g`
values of entries with the `f` of `n`. -/
def Apart (K : Const) (n : Node) (l : List Node) : Prop :=
  ∀ e ∈ l, (e.f = n.f ∨ K.CN_EPSILON < |e.f - n.f|) ∧
    (e.f = n.f → e.g = n.g ∨ K.CN_EPSILON < |e.g - n.g|)

/-- The departure time `a − c` of an arrival at time `a` lies in no forbidden
departure window of the list: no `m` with `a − c + ε > m.t1` and
`a − c < m.t2`. -/
def NoWindow (K : Const) (c : ℚ) (l : List Move) (a : ℚ) : Prop :=
  ∀ m ∈ l, ¬ (a - c + K.CN_EPSILON > m.t1 ∧ a - c < m.t2)

/-- The arrival times at a neighbour that are compatible with the safe interval
`I` of the neighbour: no earlier than a direct move from `u` allows, inside
`I`, leaving `u` inside its safe interval and in no forbidden departure
window. -/
def Feasible (K : Const) (u : Node) (c : ℚ) (l : List Move) (I : ℚ × ℚ) (a : ℚ) : Prop :=
  u.g + c ≤ a ∧ I.1 ≤ a ∧ a ≤ I.2 ∧ a - c ≤ u.interval.2 ∧ NoWindow K c l a

/-- Modelled from the spec: the safe intervals of a vertex, the gaps
`[0, coll[0].lo]`, `[coll[k].hi, coll[k+1].lo]`, `[coll[last].hi, ∞]` of its
collision list. -/
def gaps (K : Const) (colls : List (ℚ × ℚ)) : List (ℚ × ℚ) :=
  (0 :: colls.map Prod.snd).zip (colls.map Prod.fst ++ [K.CN_INFINITY])

/-- The run `x` on the planner object returns what the run `y` on the values
returns, and leaves an object that satisfies `P`. -/
def Agrees {α : Type} (x : Except Fault (α × Planner)) (y : Except Fault α)
    (P : Planner → Prop) : Prop :=
  match x, y with
  | .ok (r, s), .ok r0 => r = r0 ∧ P s
  | .error e, .error e0 => e = e0
  | _, _ => False

/-- The object `s1` differs from `s` in the member `path` at most. -/
def SameButPath (s s1 : Planner) : Prop :=
  s1.openl = s.openl ∧ s1.close = s.close ∧ s1.store = s.store ∧ s1.agent = s.agent

/-- The object has the constraint members `S` and the member `agent = a`. -/
def Holds (S : Store) (a : Agent) (s : Planner) : Prop :=
  s.store = S ∧ s.agent = a

/-- The arithmetic `A` is exact where the interval loop of `find_successors`
uses it on the arrival time `x`: the departure `x − c` and the sum `x + hv` are
formed without rounding, and the rounded `x − c + ε` compares with the start of
every window of `l` as the exact sum does. -/
def ExactAt (A : Arith) (K : Const) (c hv : ℚ) (l : List Move) (x : ℚ) : Prop :=
  A.sub x c = x - c ∧ A.add x hv = x + hv ∧
    ∀ m ∈ l, (A.add (x - c) K.CN_EPSILON > m.t1 ↔ x - c + K.CN_EPSILON > m.t1)

instance (A : Arith) (K : Const) (c hv : ℚ) (l : List Move) (x : ℚ) :
    Decidable (ExactAt A K c hv l x) :=
  inferInstanceAs (Decidable (_ ∧ _ ∧ ∀ m ∈ l, _))

/-- The arithmetic `A` is exact on a run of the interval loop of
`find_successors` from the node `u` over the intervals `ivs`: the sums
`u.g + c` and `m.t2 + c` are formed without rounding, and `A` is exact at every
value the arrival time can take, which are `u.g + c`, the starts of the
intervals and the arrivals `m.t2 + c` after a push. -/
def ExactRun (A : Arith) (K : Const) (u : Node) (c hv : ℚ) (l : List Move)
    (ivs : List (ℚ × ℚ)) : Prop :=
  A.add u.g c = u.g + c ∧ (∀ m ∈ l, A.add m.t2 c = m.t2 + c) ∧
    ∀ x ∈ (u.g + c) :: (ivs.map Prod.fst ++ l.map (fun m => m.t2 + c)), ExactAt A K c hv l x

instance (A : Arith) (K : Const) (u : Node) (c hv : ℚ) (l : List Move) (ivs : List (ℚ × ℚ)) :
    Decidable (ExactRun A K u c hv l ivs) :=
  inferInstanceAs (Decidable (_ ∧ (∀ m ∈ l, _) ∧ ∀ x ∈ _, _))

/-- The arithmetic `A` is exact on the operations of the differential
heuristic for the target `goal` and the vertex `v`: the Euclidean distance and
the differences of the pivot values are formed without rounding. -/
def HeurExact (A : Arith) (K : Const) (h_values : Heuristic) (goal : Node) (v : Vertex) : Prop :=
  dist_fl A K goal.i goal.j v.i v.j = K.sqrt ((goal.i - v.i) ^ 2 + (goal.j - v.j) ^ 2) ∧
    ∀ p ∈ List.range h_values.get_size,
      A.sub (h_values.get_value v.id (p : Int)) (h_values.get_value goal.id (p : Int))
        = h_values.get_value v.id (p : Int) - h_values.get_value goal.id (p : Int)

instance (A : Arith) (K : Const) (h_values : Heuristic) (goal : Node) (v : Vertex) :
    Decidable (HeurExact A K h_values goal v) :=
  inferInstanceAs (Decidable (_ ∧ ∀ p ∈ _, _))

/-! ## Concrete data for evaluation -/

/-- The tolerance `10⁻⁸`, the sentinel `10⁸` and a square root that is exact on
the squares `0`, `1`, `4`. -/
def K8 : Const :=
  ⟨1 / 100000000, 100000000, fun q => if q = 0 then 0 else if q = 1 then 1 else if q = 4 then 2 else q⟩

/-- The line graph `0 — 1 — 2` with vertex `k` at `(k, 0)`. -/
def line3 : Map :=
  ⟨fun id => if id = 0 then [⟨1, 1, 0⟩] else if id = 1 then [⟨0, 0, 0⟩, ⟨2, 2, 0⟩]
    else if id = 2 then [⟨1, 1, 0⟩] else []⟩

/-- The exact distance to vertex `2` on `line3`. -/
def hLine3 : Heuristic := ⟨fun v _ => |2 - (v : ℚ)|, 0⟩

/-- Agent `0` going from vertex `0` to vertex `2` of `line3`. -/
def agent02 : Agent := ⟨0, 0, 0, 0, 2, 2, 0⟩

/-- A negative wait constraint on vertex `id` at `(i, 0)` for `[t1, t2]`. -/
def waitCon (id : Int) (i t1 t2 : ℚ) : Constraint := ⟨1, false, id, id, i, 0, i, 0, t1, t2⟩

/-- An edge constraint on `0 → 1` for the departure window `[t1, t2]`. -/
def move01 (t1 t2 : ℚ) : Move := ⟨t1, t2, 0, 0, 1, 0, 0, 1⟩

/-- A store whose only content is the collision vector `l` of vertex `7`. -/
def storeAt7 (l : List (ℚ × ℚ)) : Store :=
  { clear with collision_intervals := fun k => if k = 7 then some l else none }

/-- The store after the single edge constraint `0 → 1`, window `[0, 5/2]`. -/
def storeMove01 : Store := add_move_constraint K8 clear (move01 0 (5 / 2))

/-- A node at vertex `0` of `line3`, arrived at time `0`, safe for ever. -/
def startNode0 : Node := ⟨0, 0, 0, 0, 0, (0, 100000000), []⟩

/-- The node `Node(2, 0, 0, 2, 0)` handed to `find_successors` as the goal. -/
def goalNode2 : Node := goalArg ⟨2, 0, 0, 2, 0, (0, 100000000), []⟩

/-- The successor of `startNode0` at vertex `1` under `storeMove01`. -/
def succNode1 : Node := ⟨1, 9 / 2, 7 / 2, 1, 0, (1, 100000000), []⟩

/-- An endpoint at vertex `1` of `line3` with the window `[0, CN_INFINITY]`. -/
def endNode1 : Node := endpoint_node 1 1 0 0 100000000

/-- The coordinate table of `line3`. -/
def coordLine (id : Int) : ℚ × ℚ := ((id : ℚ), 0)

/-- The positive constraint that makes agent `0` traverse `1 → 2` of `line3`
leaving in `[5, 6]`. -/
def landmark12 : Constraint := ⟨0, true, 1, 2, 1, 0, 2, 0, 5, 6⟩

/-- The path `find_path` returns on `line3` under `landmark12` and the wait
constraint `[2, 3]` on vertex `1`. -/
def pathLandmark : Path :=
  ⟨[⟨0, 0, 0, 0, 0, (0, 100000000), []⟩,
    ⟨0, 0, 2, 0, 0, (0, 100000000), []⟩,
    ⟨1, 3, 3, 1, 0, (3, 100000000), [⟨0, 0, 0, 0, 0, (0, 100000000)⟩]⟩,
    ⟨1, 3, 5, 1, 0, (3, 100000000), [⟨0, 0, 0, 0, 0, (0, 100000000)⟩]⟩,
    ⟨2, 0, 6, 2, 0, (6, 100000000), []⟩], 6, 0, 3⟩

/-- The path `find_path` returns on `line3` under the wait constraint
`[0, 1 + ε]` on vertex `1`. -/
def pathEps : Path :=
  ⟨[⟨0, 0, 0, 0, 0, (0, 100000000), []⟩,
    ⟨1, 200000001 / 100000000, 100000001 / 100000000, 1, 0,
      (100000001 / 100000000, 100000000), [⟨0, 0, 0, 0, 0, (0, 100000000)⟩]⟩,
    ⟨2, 200000001 / 100000000, 200000001 / 100000000, 2, 0, (0, 100000000),
      [⟨1, 200000001 / 100000000, 100000001 / 100000000, 1, 0,
          (100000001 / 100000000, 100000000)⟩,
       ⟨0, 0, 0, 0, 0, (0, 100000000)⟩]⟩],
   200000001 / 100000000, 0, 3⟩

/-- The path `find_path` returns on `line3` under the wait constraint `[1, 2]`
on vertex `1`: the agent arrives at vertex `1` at time `1`, in the safe interval
`[0, 1]`, and leaves at once. -/
def pathTouch : Path :=
  ⟨[⟨0, 0, 0, 0, 0, (0, 100000000), []⟩,
    ⟨1, 2, 1, 1, 0, (0, 1), [⟨0, 0, 0, 0, 0, (0, 100000000)⟩]⟩,
    ⟨2, 2, 2, 2, 0, (0, 100000000),
      [⟨1, 2, 1, 1, 0, (0, 1)⟩, ⟨0, 0, 0, 0, 0, (0, 100000000)⟩]⟩],
   2, 0, 3⟩

/-- The node sequence contains a wait at the vertex `id`: two consecutive nodes
with that id. -/
def has_wait (id : Int) : List Node → Bool
  | a :: b :: rest => (decide (a.id = id) && decide (b.id = id)) || has_wait id (b :: rest)
  | _ => false

/-- The store of `line3` under the wait constraint `[1, 2]` on vertex `1`. -/
def storeWait1 : Store := make_constraints K8 agent02 clear [waitCon 1 1 1 2]

/-- The input of the delayed-successor scenario on `line3`: the landmark
`1 → 2` in `[2, 10]`, the wait constraints `[4, 5]` on vertex `1` and
`[3/2, 100]` on vertex `0`, and the edge constraint `[2, 9/2]` on `(1, 2)`. -/
def consDelay : List Constraint :=
  [⟨0, true, 1, 2, 1, 0, 2, 0, 2, 10⟩, waitCon 1 1 4 5, waitCon 0 0 (3 / 2) 100,
    ⟨1, false, 1, 2, 1, 0, 2, 0, 2, 9 / 2⟩]

/-- The store of the first segment of `find_path` on `consDelay`, after
`get_endpoints` has read the vectors of the vertices `0` and `1`. -/
def storeDelay : Store := touch (touch (make_constraints K8 agent02 clear consDelay) 0) 1

/-- The node `1@1` with safe interval `[0, 4]` that the first segment pops, with
the start node as parent. -/
def poppedNode1 : Node := ⟨1, 1, 1, 1, 0, (0, 4), [⟨0, 0, 0, 0, 0, (0, 3 / 2)⟩]⟩

/-- The ids, arrival times and intervals of the nodes of a path. -/
def trace (p : Path) : List (Int × ℚ × ℚ × ℚ) :=
  p.nodes.map (fun n => (n.id, n.g, n.interval.1, n.interval.2))

/-- The constants as `double` values: the tolerance is the `double` nearest to
`10⁻⁸`, the sentinel is `10⁸`, and the square root is exact on the squares `0`,
`1`, `4` and `2⁻⁵²`. -/
def Kd : Const :=
  ⟨3022314549036573 / 302231454903657293676544, 100000000,
    fun q => if q = 0 then 0 else if q = 1 then 1 else if q = 4 then 2
      else if q = 1 / 4503599627370496 then 1 / 67108864 else q⟩

/-- Two vertices `0` at `(0, 0)` and `1` at `(2⁻²⁶, 0)`, joined by an edge. -/
def near2 : Map :=
  ⟨fun id => if id = 0 then [⟨1, 1 / 67108864, 0⟩] else if id = 1 then [⟨0, 0, 0⟩] else []⟩

/-- The exact distance to vertex `1` on `near2`. -/
def hNear2 : Heuristic := ⟨fun v _ => if v = 1 then 0 else 1 / 67108864, 0⟩

/-- Agent `0` going from vertex `0` to vertex `1` of `near2`. -/
def agent01 : Agent := ⟨0, 0, 0, 0, 1, 1 / 67108864, 0⟩

/-- The path `find_path` returns on `near2` under the wait constraint
`[0, 2⁻²⁶ + ε]` on vertex `1`. -/
def pathNear2 : Path :=
  ⟨[⟨0, 0, 0, 0, 0, (0, 100000000), []⟩,
    ⟨1, 7525914176407069 / 302231454903657293676544,
      7525914176407069 / 302231454903657293676544, 1 / 67108864, 0,
      (7525914176407069 / 302231454903657293676544, 100000000),
      [⟨0, 0, 0, 0, 0, (0, 100000000)⟩]⟩],
   7525914176407069 / 302231454903657293676544, 0, 2⟩

/-- The path `find_path` returns on `line3` under the wait constraints
`[1/2, 10]` and `[3/4, 7/8]` on vertex `1`. -/
def pathInside : Path :=
  ⟨[⟨0, 0, 0, 0, 0, (0, 100000000), []⟩,
    ⟨1, 2, 1, 1, 0, (7 / 8, 100000000), [⟨0, 0, 0, 0, 0, (0, 100000000)⟩]⟩,
    ⟨2, 2, 2, 2, 0, (0, 100000000),
      [⟨1, 2, 1, 1, 0, (7 / 8, 100000000)⟩, ⟨0, 0, 0, 0, 0, (0, 100000000)⟩]⟩],
   2, 0, 3⟩

/-- A negative edge constraint on `0 → 1` of `line3` for the departure window
`[t1, t2]`. -/
def edgeCon01 (t1 t2 : ℚ) : Constraint := ⟨1, false, 0, 1, 0, 0, 1, 0, t1, t2⟩

/-- The `double` nearest to `0.4`. -/
def d04 : ℚ := 3602879701896397 / 9007199254740992

/-- The `double` nearest to `1.4`. -/
def d14 : ℚ := 3152519739159347 / 2251799813685248

/-- The store of `line3` under the edge constraint `0 → 1` with the window
`[0, 0.4]`. -/
def storeEdge04 : Store := make_constraints Kd agent02 clear [edgeCon01 0 d04]

/-- The store of `line3` under the edge constraint `0 → 1` with the window
`[0, 1/2]`. -/
def storeEdgeHalf : Store := make_constraints Kd agent02 clear [edgeCon01 0 (1 / 2)]

/-- The successor of `startNode0` at vertex `1` under `storeEdgeHalf`. -/
def succHalf : Node := ⟨1, 5 / 2, 3 / 2, 1, 0, (1, 100000000), []⟩

/-- The store of `line3` under the wait constraint `[5, 6]` on vertex `1` and
the edge constraint `0 → 1` with the window `[0, 0.4]`. -/
def storeWaitEdge04 : Store := make_constraints Kd agent02 clear [waitCon 1 1 5 6, edgeCon01 0 d04]

/-- The store of `line3` under the wait constraint `[1, 2]` on vertex `1` and
the edge constraint `0 → 1` with the window `[0, 1/2]`. -/
def storeWaitEdgeHalf : Store :=
  make_constraints Kd agent02 clear [waitCon 1 1 1 2, edgeCon01 0 (1 / 2)]

/-- The line graph `0 — 1 — 2` with vertex `k` at `(k · 2⁻²⁶, 0)`. -/
def near3 : Map :=
  ⟨fun id => if id = 0 then [⟨1, 1 / 67108864, 0⟩]
    else if id = 1 then [⟨0, 0, 0⟩, ⟨2, 1 / 33554432, 0⟩]
    else if id = 2 then [⟨1, 1 / 67108864, 0⟩] else []⟩

/-- The exact distance to vertex `2` on `near3`. -/
def hNear3 : Heuristic := ⟨fun v _ => |2 - (v : ℚ)| / 67108864, 0⟩

/-- Agent `0` going from vertex `0` to vertex `2` of `near3`. -/
def agentNear : Agent := ⟨0, 0, 0, 0, 2, 1 / 33554432, 0⟩

/-- The input of the landmark scenario on `near3`, with `δ = 2⁻²⁶`: the landmark
`1 → 2` leaving in `[0, 4δ]` and the wait constraint `[δ + ε, 4δ]` on vertex
`2`, which starts exactly `ε` after the arrival window `[δ, 5δ]` opens. -/
def consNear : List Constraint :=
  [⟨0, true, 1, 2, 1 / 67108864, 0, 1 / 33554432, 0, 0, 1 / 16777216⟩,
    waitCon 2 (1 / 33554432) (1 / 67108864 + Kd.CN_EPSILON) (1 / 16777216)]

/-- The path `find_path` returns on `line3` when the agent has to stay at the
start until time `2`: `0@0 → 0@2 → 1@3 → 2@4`. -/
def pathStay : Path :=
  ⟨[⟨0, 0, 0, 0, 0, (0, 100000000), []⟩,
    ⟨0, 0, 2, 0, 0, (0, 100000000), []⟩,
    ⟨1, 4, 3, 1, 0, (3, 100000000), [⟨0, 0, 0, 0, 0, (0, 100000000)⟩]⟩,
    ⟨2, 4, 4, 2, 0, (0, 100000000),
      [⟨1, 4, 3, 1, 0, (3, 100000000)⟩, ⟨0, 0, 0, 0, 0, (0, 100000000)⟩]⟩],
   4, 0, 3⟩

/-- The path `find_path` returns on `line3` under the wait constraint
`[5/2, 5/2 + 2⁻²⁸]` on vertex `2`: the agent arrives at the goal at time `2` and
a wait until `5/2 + 2⁻²⁸` is appended. -/
def pathShort : Path :=
  ⟨[⟨0, 0, 0, 0, 0, (0, 100000000), []⟩,
    ⟨1, 2, 1, 1, 0, (1, 100000000), [⟨0, 0, 0, 0, 0, (0, 100000000)⟩]⟩,
    ⟨2, 2, 2, 2, 0, (0, 5 / 2),
      [⟨1, 2, 1, 1, 0, (1, 100000000)⟩, ⟨0, 0, 0, 0, 0, (0, 100000000)⟩]⟩,
    ⟨2, 2, 671088641 / 268435456, 2, 0, (0, 5 / 2),
      [⟨1, 2, 1, 1, 0, (1, 100000000)⟩, ⟨0, 0, 0, 0, 0, (0, 100000000)⟩]⟩],
   671088641 / 268435456, 0, 3⟩

/-- The path `find_path` returns on `near3` under `consNear`, with `δ = 2⁻²⁶`:
`0@0 → 1@δ → 2@2δ`, and a wait at vertex `2` until `4δ`. -/
def pathLanded : Path :=
  ⟨[⟨0, 0, 0, 0, 0, (0, 100000000), []⟩,
    ⟨1, 1 / 67108864, 1 / 67108864, 1 / 67108864, 0, (0, 100000000),
      [⟨0, 0, 0, 0, 0, (0, 100000000)⟩]⟩,
    ⟨2, 0, 1 / 33554432, 1 / 33554432, 0, (1 / 67108864, 5 / 67108864), []⟩,
    ⟨2, 0, 1 / 16777216, 1 / 33554432, 0, (1 / 67108864, 5 / 67108864), []⟩],
   1 / 16777216, 0, 2⟩

/-! ## Theorems -/

/-! ### The open list: membership after `add_open` -/

/-- An element of a list after an insertion is the inserted one or an old one. -/
theorem mem_of_mem_insertIdx {α : Type} (l : List α) (n : Nat) (x y : α)
    (h : y ∈ l.insertIdx n x) : y = x ∨ y ∈ l := by
  induction l generalizing n with
  | nil =>
    cases n with
    | zero => simpa using h
    | succ n => simp at h
  | cons a l ih =>
    cases n with
    | zero => simpa using h
    | succ n =>
      simp only [List.insertIdx_succ_cons, List.mem_cons] at h ⊢
      rcases h with h | h
      · exact Or.inr (Or.inl h)
      · rcases ih n h with h | h
        · exact Or.inl h
        · exact Or.inr (Or.inr h)

/-- Every entry of the open list after the loop of `add_open` is an old entry,
the new node, or an old entry with the same id overwritten by the new node. -/
theorem add_open_loop_mem (K : Const) (newNode : Node) (openl : List Node) :
    ∀ (rest : List Node) (idx : Nat) (pos : Option Nat) (n : Node),
      (∀ x ∈ rest, x ∈ openl) →
      n ∈ add_open_loop K newNode openl idx rest pos →
      n ∈ openl ∨ n = newNode ∨
        ∃ iter ∈ openl, iter.id = newNode.id ∧ n = overwrite iter newNode := by
  intro rest
  induction rest with
  | nil =>
    intro idx pos n _ hn
    simp only [add_open_loop] at hn
    cases pos with
    | none =>
      rcases List.mem_append.mp hn with h | h
      · exact Or.inl h
      · exact Or.inr (Or.inl (by simpa using h))
    | some p =>
      rcases mem_of_mem_insertIdx _ _ _ _ hn with h | h
      · exact Or.inr (Or.inl h)
      · exact Or.inl h
  | cons iter rest ih =>
    intro idx pos n hsub hn
    have hiter : iter ∈ openl := hsub iter (List.mem_cons_self _ _)
    have hrest : ∀ x ∈ rest, x ∈ openl := fun x hx => hsub x (List.mem_cons_of_mem _ hx)
    simp only [add_open_loop] at hn
    generalize next_pos K newNode iter idx pos = pos' at hn
    split_ifs at hn with h1 h2 h3
    · exact Or.inl hn
    · rcases List.mem_or_eq_of_mem_set hn with h | h
      · exact Or.inl h
      · exact Or.inr (Or.inr ⟨iter, hiter, h1.1, h⟩)
    · split at hn
      · rcases mem_of_mem_insertIdx _ _ _ _ hn with h | h
        · exact Or.inr (Or.inl h)
        · exact Or.inl (List.mem_of_mem_eraseIdx h)
      · rcases List.mem_append.mp hn with h | h
        · exact Or.inl (List.mem_of_mem_eraseIdx h)
        · exact Or.inr (Or.inl (by simpa using h))
    · exact ih _ _ n hrest hn

/-- Every entry of the open list after `add_open` is an old entry, the new node,
or an old entry with the same id overwritten by the new node. -/
theorem add_open_mem (K : Const) (openl : List Node) (newNode n : Node)
    (hn : n ∈ add_open K openl newNode) :
    n ∈ openl ∨ n = newNode ∨
      ∃ iter ∈ openl, iter.id = newNode.id ∧ n = overwrite iter newNode := by
  cases openl with
  | nil => exact Or.inr (Or.inl (by simpa [add_open] using hn))
  | cons a l =>
    exact add_open_loop_mem K newNode (a :: l) (a :: l) 0 none n (fun _ h => h) hn




/-! ### Invariants of the partial search -/

/-- Two nodes with the same id and table coordinates: overwriting one with the
other gives the other. -/
theorem overwrite_eq (coord : Int → ℚ × ℚ) (iter newNode : Node)
    (h1 : CoordOK coord iter) (h2 : CoordOK coord newNode) (hid : iter.id = newNode.id) :
    overwrite iter newNode = newNode := by
  unfold CoordOK at h1 h2
  rw [hid, ← h2] at h1
  obtain ⟨hi, hj⟩ := Prod.mk.inj h1
  cases iter; cases newNode
  simp_all [overwrite]

/-- The successors pushed by `find_partial_path` keep a node invariant of the
open list that fixes the coordinates of each vertex. -/
theorem push_successors_inv (K : Const) (coord : Int → ℚ × ℚ) (P : Node → Prop)
    (hP : ∀ n, P n → CoordOK coord n) (max_f : ℚ) (close : List Node) (parent : List Cell) :
    ∀ (succs openl : List Node),
      (∀ n ∈ openl, P n) → (∀ s ∈ succs, P { s with parent := parent }) →
      ∀ n ∈ push_successors K max_f close parent openl succs, P n := by
  intro succs
  induction succs with
  | nil => intro openl ho _ n hn; exact ho n (by simpa [push_successors] using hn)
  | cons it succs ih =>
    intro openl ho hs n hn
    have hs' : ∀ s ∈ succs, P { s with parent := parent } :=
      fun s h => hs s (List.mem_cons_of_mem _ h)
    simp only [push_successors] at hn
    split_ifs at hn
    · exact ih openl ho hs' n hn
    · exact ih openl ho hs' n hn
    · refine ih _ ?_ hs' n hn
      intro m hm
      rcases add_open_mem K openl _ m hm with h | h | ⟨iter, hiter, hid, h⟩
      · exact ho m h
      · rw [h]; exact hs it (List.mem_cons_self _ _)
      · have hnew := hs it (List.mem_cons_self _ _)
        rw [h, overwrite_eq coord iter _ (hP _ (ho iter hiter)) (hP _ hnew) hid]
        exact hnew

/-- The last node of the parent chain is the node itself. -/
theorem parent_chain_getLast (c : Cell) (ps : List Cell) :
    (parent_chain c ps).getLast? = some (derefParent c ps) := by
  cases ps with
  | nil => simp [parent_chain]
  | cons p rest => simp [parent_chain]

/-- The wait-insertion loop keeps the last node. -/
theorem insert_waits_getLast (K : Const) :
    ∀ (ns out : List Node), insert_waits K ns = .ok out → out.getLast? = ns.getLast? := by
  intro ns
  induction ns with
  | nil => intro out h; simp [insert_waits] at h; subst h; rfl
  | cons u rest ih =>
    cases rest with
    | nil => intro out h; simp [insert_waits] at h; subst h; rfl
    | cons v rest =>
      intro out h
      simp only [insert_waits] at h
      split_ifs at h with h1 h2
      · cases hr : insert_waits K (v :: rest) with
        | error e => simp [hr, Except.map] at h
        | ok l =>
          simp only [hr, Except.map, Except.ok.injEq] at h
          subst h
          have hl := ih l hr
          cases l with
          | nil => exact absurd (List.getLast?_eq_none_iff.mp hl.symm) (by simp)
          | cons a l' => simp only [List.getLast?_cons_cons]; exact hl
      · cases hr : insert_waits K (v :: rest) with
        | error e => simp [hr, Except.map] at h
        | ok l =>
          simp only [hr, Except.map, Except.ok.injEq] at h
          subst h
          have hl := ih l hr
          cases l with
          | nil => exact absurd (List.getLast?_eq_none_iff.mp hl.symm) (by simp)
          | cons a l' => simp only [List.getLast?_cons_cons]; exact hl

/-- The last node of a reconstructed path is the node it was reconstructed from. -/
theorem reconstruct_path_getLast (K : Const) (n : Node) (out : List Node)
    (h : reconstruct_path K n = .ok out) : out.getLast? = some n := by
  unfold reconstruct_path at h
  rw [insert_waits_getLast K _ out h, parent_chain_getLast]
  rfl

/-- The goal loop fills slots of `paths` as `PartSpec` describes and leaves the
popped node with a `g` that is not smaller. -/
theorem goal_loop_spec (K : Const) (P : Node → Prop) (allGoals : List Node) (goal0 popped : Node)
    (closeSize : Nat) (hpop : P popped) (hid : popped.id = goal0.id) :
    ∀ (goals done : List Node) (paths : List Path) (g0 : ℚ) (cur2 : Node) (paths2 : List Path)
      (cnt : Nat),
      allGoals = done ++ goals → popped.g ≤ g0 →
      (g0 = popped.g ∨ ∃ gk ∈ done, g0 = gk.interval.1) →
      (∀ p ∈ paths, PartSpec K P allGoals goal0 p) →
      goal_loop K closeSize (withG popped g0) goals paths = .ok (cur2, paths2, cnt) →
      (∃ g2, popped.g ≤ g2 ∧ cur2 = withG popped g2) ∧
        ∀ p ∈ paths2, PartSpec K P allGoals goal0 p := by
  intro goals
  induction goals with
  | nil =>
    intro done paths g0 cur2 paths2 cnt _ hg _ hp h
    simp only [goal_loop, Except.ok.injEq, Prod.mk.injEq] at h
    obtain ⟨h1, h2, _⟩ := h
    subst h1 h2
    exact ⟨⟨g0, hg, rfl⟩, hp⟩
  | cons goal goals ih =>
    intro done paths g0 cur2 paths2 cnt hall hg hg0 hp h
    cases paths with
    | nil =>
      simp only [goal_loop, Except.ok.injEq, Prod.mk.injEq] at h
      obtain ⟨h1, h2, _⟩ := h
      subst h1 h2
      exact ⟨⟨g0, hg, rfl⟩, hp⟩
    | cons p paths =>
      have hall' : allGoals = (done ++ [goal]) ++ goals := by
        rw [hall, List.append_assoc]; rfl
      have hg0' : g0 = popped.g ∨ ∃ gk ∈ done ++ [goal], g0 = gk.interval.1 := by
        rcases hg0 with h | ⟨gk, hk, h⟩
        · exact Or.inl h
        · exact Or.inr ⟨gk, List.mem_append_left _ hk, h⟩
      have hp' : ∀ q ∈ paths, PartSpec K P allGoals goal0 q :=
        fun q h => hp q (List.mem_cons_of_mem _ h)
      simp only [goal_loop] at h
      split_ifs at h with htest
      · cases hrec : reconstruct_path K (withG popped g0) with
        | error e => simp [hrec] at h
        | ok nodes =>
          have hlast := reconstruct_path_getLast K _ nodes hrec
          simp only [hrec, hlast] at h
          have hspec : ∀ q : Path,
              q.nodes = (if g0 < goal.interval.1 then nodes ++ [withG popped goal.interval.1]
                else nodes) → PartSpec K P allGoals goal0 q := fun q hq =>
            Or.inr ⟨popped, goal, g0, nodes, hpop, hg, hid, ⟨done, goals, hall, hg0⟩, htest.1,
              htest.2, hrec, hq⟩
          by_cases hw : g0 < goal.interval.1
          · have hb : (withG popped g0).g < goal.interval.1 := hw
            simp only [hb, if_true] at h
            have hmk : ({ withG popped g0 with g := goal.interval.1 } : Node)
                = withG popped goal.interval.1 := rfl
            cases hr : goal_loop K closeSize (withG popped goal.interval.1) goals paths with
            | error e => simp [hmk, hr] at h
            | ok r =>
              obtain ⟨c2, ps2, n2⟩ := r
              simp only [hmk, hr, Except.ok.injEq, Prod.mk.injEq] at h
              obtain ⟨h1, h2, _⟩ := h
              subst h1 h2
              obtain ⟨hc, hps⟩ := ih (done ++ [goal]) paths goal.interval.1 c2 ps2 n2 hall'
                (le_trans hg (le_of_lt hw))
                (Or.inr ⟨goal, List.mem_append_right _ (List.mem_singleton_self _), rfl⟩) hp' hr
              refine ⟨hc, ?_⟩
              intro q hq
              rcases List.mem_cons.mp hq with rfl | hq
              · exact hspec _ (by simp [hw])
              · exact hps q hq
          · have hb : ¬ (withG popped g0).g < goal.interval.1 := hw
            simp only [hb, if_false] at h
            cases hr : goal_loop K closeSize (withG popped g0) goals paths with
            | error e => simp [hr] at h
            | ok r =>
              obtain ⟨c2, ps2, n2⟩ := r
              simp only [hr, Except.ok.injEq, Prod.mk.injEq] at h
              obtain ⟨h1, h2, _⟩ := h
              subst h1 h2
              obtain ⟨hc, hps⟩ := ih (done ++ [goal]) paths g0 c2 ps2 n2 hall' hg hg0' hp' hr
              refine ⟨hc, ?_⟩
              intro q hq
              rcases List.mem_cons.mp hq with rfl | hq
              · exact hspec _ (by simp [hw])
              · exact hps q hq
      · cases hr : goal_loop K closeSize (withG popped g0) goals paths with
        | error e => simp [hr] at h
        | ok r =>
          obtain ⟨c2, ps2, n2⟩ := r
          simp only [hr, Except.ok.injEq, Prod.mk.injEq] at h
          obtain ⟨h1, h2, _⟩ := h
          subst h1 h2
          obtain ⟨hc, hps⟩ := ih (done ++ [goal]) paths g0 c2 ps2 n2 hall' hg hg0' hp' hr
          refine ⟨hc, ?_⟩
          intro q hq
          rcases List.mem_cons.mp hq with rfl | hq
          · exact hp q (List.mem_cons_self _ _)
          · exact hps q hq

/-- A node invariant `P` that fixes coordinates, holds for the nodes of the open
list and is passed from a popped node to its successors, describes every path
the search loop returns. -/
theorem search_loop_spec (K : Const) (agent : Agent) (S : Store) (map : Map)
    (h_values : Heuristic) (coord : Int → ℚ × ℚ) (P : Node → Prop)
    (hP : ∀ n, P n → CoordOK coord n) (goals : List Node) (goal0 : Node) (max_f : ℚ)
    (hsucc : ∀ (popped s : Node) (g' : ℚ), P popped → popped.g ≤ g' →
      s ∈ find_successors K agent S map h_values (withG popped g') (goalArg goal0) →
      P { s with parent := popped.cell :: popped.parent }) :
    ∀ (fuel : Nat) (openl close : List Node) (paths : List Path) (found : Nat)
      (out : List Path),
      (∀ n ∈ openl, P n) → (∀ p ∈ paths, PartSpec K P goals goal0 p) →
      search_loop K agent S map h_values goals goal0 max_f fuel openl close paths found = .ok out →
      ∀ p ∈ out, PartSpec K P goals goal0 p := by
  intro fuel
  induction fuel with
  | zero => intro openl close paths found out _ _ h; simp [search_loop] at h
  | succ fuel ih =>
    intro openl close paths found out ho hp h
    cases openl with
    | nil =>
      simp only [search_loop, Except.ok.injEq] at h
      subst h
      exact hp
    | cons popped openl =>
      have hpop : P popped := ho popped (List.mem_cons_self _ _)
      have ho' : ∀ n ∈ openl, P n := fun n hn => ho n (List.mem_cons_of_mem _ hn)
      have hexp : ∀ (g' : ℚ) (paths1 : List Path) (found1 : Nat), popped.g ≤ g' →
          (∀ p ∈ paths1, PartSpec K P goals goal0 p) →
          search_loop K agent S map h_values goals goal0 max_f fuel
            (push_successors K max_f (close ++ [popped]) (popped.cell :: popped.parent) openl
              (find_successors K agent S map h_values (withG popped g') (goalArg goal0)))
            (close ++ [popped]) paths1 found1 = .ok out →
          ∀ p ∈ out, PartSpec K P goals goal0 p := by
        intro g' paths1 found1 hg hp1 hrun
        refine ih _ _ paths1 found1 out ?_ hp1 hrun
        exact push_successors_inv K coord P hP max_f _ _ _ openl ho'
          (fun s hs => hsucc popped s g' hpop hg hs)
      simp only [search_loop] at h
      split_ifs at h with hid
      · generalize (close ++ [popped]).length = cs at h
        cases hgl : goal_loop K cs popped goals paths with
        | error e => rw [hgl] at h; simp at h
        | ok r =>
          obtain ⟨cur2, paths1, cnt⟩ := r
          obtain ⟨⟨g2, hg2, hcur⟩, hps⟩ :=
            goal_loop_spec K P goals goal0 popped _ hpop hid goals [] paths popped.g cur2 paths1
              cnt rfl (le_refl _) (Or.inl rfl) hp hgl
          rw [hgl] at h
          simp only at h
          split_ifs at h
          · simp only [Except.ok.injEq] at h
            subst h
            exact hps
          · subst hcur
            exact hexp g2 paths1 _ hg2 hps h
      · exact hexp popped.g paths found (le_refl _) hp h

/-- A node invariant `P` that fixes coordinates, holds for the start nodes and
is passed from a popped node to its successors, describes every path that
`find_partial_path` returns. -/
theorem find_partial_path_spec (K : Const) (fuel : Nat) (agent : Agent) (S : Store) (map : Map)
    (h_values : Heuristic) (coord : Int → ℚ × ℚ) (P : Node → Prop)
    (hP : ∀ n, P n → CoordOK coord n) (starts goals : List Node) (goal0 : Node) (max_f : ℚ)
    (hgoal0 : goals.head? = some goal0)
    (hstart : ∀ s ∈ starts, P { s with parent := [] })
    (hsucc : ∀ (popped s : Node) (g' : ℚ), P popped → popped.g ≤ g' →
      s ∈ find_successors K agent S map h_values (withG popped g') (goalArg goal0) →
      P { s with parent := popped.cell :: popped.parent })
    (out : List Path)
    (h : find_partial_path K fuel agent S map h_values starts goals max_f = .ok out) :
    ∀ p ∈ out, PartSpec K P goals goal0 p := by
  cases goals with
  | nil => simp at hgoal0
  | cons g0 rest =>
    simp only [List.head?_cons, Option.some.injEq] at hgoal0
    subst hgoal0
    simp only [find_partial_path] at h
    refine search_loop_spec K agent S map h_values coord P hP _ g0 max_f hsucc fuel _ _ _ _ out
      ?_ ?_ h
    · intro n hn
      obtain ⟨s, hs, rfl⟩ := List.mem_map.mp hn
      exact hstart s hs
    · intro p hp
      left
      rw [(List.mem_replicate.mp hp).2]
      rfl

/-! ### Edge constraints -/

/-- The edge-constraint loop of `find_successors` never moves the arrival time
back. -/
theorem le_avoid_moves (K : Const) (cost : ℚ) (l : List Move) (g : ℚ) :
    g ≤ avoid_moves K cost l g := by
  induction l generalizing g with
  | nil => simp [avoid_moves]
  | cons m rest ih =>
    simp only [avoid_moves]
    split_ifs with h
    · exact le_trans (by linarith [h.2]) (ih _)
    · exact ih _

/-- A departure time that precedes every window of the list is left alone. -/
theorem avoid_moves_eq_self (K : Const) (cost : ℚ) (l : List Move) (g : ℚ)
    (h : ∀ m ∈ l, g - cost + K.CN_EPSILON ≤ m.t1) : avoid_moves K cost l g = g := by
  induction l with
  | nil => simp [avoid_moves]
  | cons m rest ih =>
    have hm := h m (List.mem_cons_self _ _)
    simp only [avoid_moves]
    rw [if_neg (fun hc => absurd hc.1 (not_lt.mpr hm))]
    exact ih (fun m' hm' => h m' (List.mem_cons_of_mem _ hm'))

/-- After the edge-constraint loop of `find_successors` over a list sorted by
`t1`, the departure time lies in no window of the list. -/
theorem avoid_moves_clear (K : Const) (cost : ℚ) (l : List Move)
    (hs : l.Sorted (fun a b => a.t1 ≤ b.t1)) (g : ℚ) :
    ∀ m ∈ l, ¬ (avoid_moves K cost l g - cost + K.CN_EPSILON > m.t1 ∧
      avoid_moves K cost l g - cost < m.t2) := by
  induction l generalizing g with
  | nil => simp
  | cons m rest ih =>
    have hrest := (List.sorted_cons.mp hs).2
    have hle := (List.sorted_cons.mp hs).1
    intro m' hm'
    rcases List.mem_cons.mp hm' with rfl | hin
    · simp only [avoid_moves]
      split_ifs with h
      · have := le_avoid_moves K cost rest (m'.t2 + cost)
        intro hc; linarith [hc.2]
      · by_cases h1 : g - cost + K.CN_EPSILON ≤ m'.t1
        · rw [avoid_moves_eq_self K cost rest g (fun x hx => le_trans h1 (hle x hx))]
          intro hc; linarith [hc.1]
        · have h2 : m'.t2 ≤ g - cost := by
            by_contra hlt
            exact h ⟨lt_of_not_le h1, lt_of_not_le hlt⟩
          have := le_avoid_moves K cost rest g
          intro hc; linarith [hc.2]
    · simp only [avoid_moves]
      exact ih hrest _ m' hin

/-- Every node emitted by the interval loop is at the vertex of the move and has
an arrival time produced by the edge-constraint loop. -/
theorem interval_loop_mem (K : Const) (curNode : Node) (v : Vertex) (cost hv : ℚ)
    (cons : Option (List Move)) (ivs : List (ℚ × ℚ)) (g : ℚ) (s : Node)
    (hs : s ∈ interval_loop K curNode v cost hv cons ivs g) :
    s.id = v.id ∧ s.i = v.i ∧ s.j = v.j ∧
      ∀ l, cons = some l → ∃ g1, s.g = avoid_moves K cost l g1 := by
  induction ivs generalizing g with
  | nil => simp [interval_loop] at hs
  | cons iv rest ih =>
    simp only [interval_loop] at hs
    split_ifs at hs
    all_goals first
      | exact ih _ hs
      | (rcases List.mem_cons.mp hs with rfl | hin
         · refine ⟨rfl, rfl, rfl, ?_⟩
           intro l hl
           subst hl
           exact ⟨_, rfl⟩
         · exact ih _ hin)

/-- The edge-constraint loop of `check_endpoint` never moves the departure back. -/
theorem le_endpoint_avoid (K : Const) (l : List Move) (g : ℚ) :
    g ≤ endpoint_avoid K l g := by
  induction l generalizing g with
  | nil => simp [endpoint_avoid]
  | cons m rest ih =>
    simp only [endpoint_avoid]
    split_ifs with h
    · exact le_trans (le_of_lt h.2) (ih _)
    · exact ih _

/-- A departure time that precedes every window of the list is left alone by
`check_endpoint`. -/
theorem endpoint_avoid_eq_self (K : Const) (l : List Move) (g : ℚ)
    (h : ∀ m ∈ l, g + K.CN_EPSILON ≤ m.t1) : endpoint_avoid K l g = g := by
  induction l with
  | nil => simp [endpoint_avoid]
  | cons m rest ih =>
    have hm := h m (List.mem_cons_self _ _)
    simp only [endpoint_avoid]
    rw [if_neg (fun hc => absurd hc.1 (not_lt.mpr hm))]
    exact ih (fun m' hm' => h m' (List.mem_cons_of_mem _ hm'))

/-- After the edge-constraint loop of `check_endpoint` over a list sorted by
`t1`, the departure time lies in no window of the list. -/
theorem endpoint_avoid_clear (K : Const) (l : List Move)
    (hs : l.Sorted (fun a b => a.t1 ≤ b.t1)) (g : ℚ) :
    ∀ m ∈ l, ¬ (endpoint_avoid K l g + K.CN_EPSILON > m.t1 ∧ endpoint_avoid K l g < m.t2) := by
  induction l generalizing g with
  | nil => simp
  | cons m rest ih =>
    have hrest := (List.sorted_cons.mp hs).2
    have hle := (List.sorted_cons.mp hs).1
    intro m' hm'
    rcases List.mem_cons.mp hm' with rfl | hin
    · simp only [endpoint_avoid]
      split_ifs with h
      · have := le_endpoint_avoid K rest m'.t2
        intro hc; linarith [hc.2]
      · by_cases h1 : g + K.CN_EPSILON ≤ m'.t1
        · rw [endpoint_avoid_eq_self K rest g (fun x hx => le_trans h1 (hle x hx))]
          intro hc; linarith [hc.1]
        · have h2 : m'.t2 ≤ g := by
            by_contra hlt
            exact h ⟨lt_of_not_le h1, lt_of_not_le hlt⟩
          have := le_endpoint_avoid K rest g
          intro hc; linarith [hc.2]
    · simp only [endpoint_avoid]
      exact ih hrest _ m' hin

/-! ### Successors -/

/-- What the interval loop guarantees of every node it emits. -/
theorem interval_loop_spec (K : Const) (curNode : Node) (v : Vertex) (cost hv : ℚ)
    (cons : Option (List Move)) (ivs : List (ℚ × ℚ)) (g : ℚ) (s : Node)
    (hs : s ∈ interval_loop K curNode v cost hv cons ivs g) :
    s.parent = [] ∧ g ≤ s.g ∧ s.interval ∈ ivs ∧ s.interval.1 ≤ s.g ∧ s.g ≤ s.interval.2 ∧
      s.g - cost ≤ curNode.interval.2 := by
  induction ivs generalizing g with
  | nil => simp [interval_loop] at hs
  | cons iv rest ih =>
    simp only [interval_loop] at hs
    have hstep : g ≤ arrival K cost cons iv g ∧ iv.1 ≤ arrival K cost cons iv g := by
      have hmax : g ≤ (if iv.1 > g then iv.1 else g) ∧ iv.1 ≤ (if iv.1 > g then iv.1 else g) := by
        split_ifs with h
        · exact ⟨le_of_lt h, le_refl _⟩
        · exact ⟨le_refl _, not_lt.mp h⟩
      unfold arrival
      cases cons with
      | none => exact hmax
      | some l =>
        have := le_avoid_moves K cost l (if iv.1 > g then iv.1 else g)
        exact ⟨le_trans hmax.1 this, le_trans hmax.2 this⟩
    generalize arrival K cost cons iv g = g2 at hs hstep
    have lift : s ∈ interval_loop K curNode v cost hv cons rest g2 →
        s.parent = [] ∧ g ≤ s.g ∧ s.interval ∈ iv :: rest ∧ s.interval.1 ≤ s.g ∧
          s.g ≤ s.interval.2 ∧ s.g - cost ≤ curNode.interval.2 := by
      intro h
      obtain ⟨a, b, c, d⟩ := ih g2 h
      exact ⟨a, le_trans hstep.1 b, List.mem_cons_of_mem _ c, d⟩
    split_ifs at hs with h1 h2
    · obtain ⟨a, b, c, d⟩ := ih g hs
      exact ⟨a, b, List.mem_cons_of_mem _ c, d⟩
    · exact lift hs
    · rcases List.mem_cons.mp hs with rfl | hin
      · refine ⟨rfl, hstep.1, List.mem_cons_self _ _, hstep.2, ?_, ?_⟩
        · exact not_lt.mp (fun hc => h2 (Or.inr hc))
        · exact not_lt.mp (fun hc => h2 (Or.inl hc))
      · exact lift hin

/-- What `find_successors` guarantees of every successor: it is at a vertex the
map hands out, has no parent yet, arrives no earlier than a direct move allows
and inside its interval, and leaves the current node inside the interval of the
current node. -/
theorem find_successors_spec (K : Const) (agent : Agent) (S : Store) (map : Map)
    (h_values : Heuristic) (curNode goal s : Node)
    (hs : s ∈ find_successors K agent S map h_values curNode goal) :
    (∃ v ∈ map.get_valid_moves curNode.id, s.id = v.id ∧ s.i = v.i ∧ s.j = v.j) ∧
      s.parent = [] ∧
      curNode.g + K.sqrt ((curNode.i - s.i) ^ 2 + (curNode.j - s.j) ^ 2) ≤ s.g ∧
      s.interval ∈ successor_intervals K (S.collision_intervals s.id)
        (curNode.g + K.sqrt ((curNode.i - s.i) ^ 2 + (curNode.j - s.j) ^ 2)) ∧
      s.interval.1 ≤ s.g ∧ s.g ≤ s.interval.2 ∧
      s.g - K.sqrt ((curNode.i - s.i) ^ 2 + (curNode.j - s.j) ^ 2) ≤ curNode.interval.2 := by
  simp only [find_successors, List.mem_flatMap] at hs
  obtain ⟨v, hv, hsv⟩ := hs
  obtain ⟨hid, hi, hj, _⟩ := interval_loop_mem K curNode v _ _ _ _ _ s hsv
  obtain ⟨hp, hg, hiv, hlo, hhi, hdep⟩ := interval_loop_spec K curNode v _ _ _ _ _ s hsv
  rw [hid, hi, hj]
  exact ⟨⟨v, hv, rfl, rfl, rfl⟩, hp, hg, hiv, hlo, hhi, hdep⟩

/-! ### Reconstruction -/

/-- The distance of the code is symmetric. -/
theorem dist_comm (K : Const) (a b : Node) : dist K a b = dist K b a := by
  unfold dist
  congr 1
  ring

/-- The first node of the parent chain has no parent. -/
theorem parent_chain_head (c : Cell) (ps : List Cell) :
    ∃ r : Cell, (parent_chain c ps).head? = some (derefParent r []) := by
  induction ps generalizing c with
  | nil => exact ⟨c, rfl⟩
  | cons p rest ih =>
    obtain ⟨r, hr⟩ := ih p
    refine ⟨r, ?_⟩
    simp only [parent_chain, List.head?_append, hr]
    rfl

/-- Consecutive nodes of the parent chain are linked. -/
theorem parent_chain_chain (R : Cell → Cell → Prop) (c : Cell) (ps : List Cell)
    (h : Linked R c ps) : List.Chain' (fun u v => R u.cell v.cell) (parent_chain c ps) := by
  induction ps generalizing c with
  | nil => simp [parent_chain]
  | cons p rest ih =>
    obtain ⟨h1, h2⟩ := h
    simp only [parent_chain]
    rw [List.chain'_append]
    refine ⟨ih p h2, by simp, ?_⟩
    intro x hx y hy
    rw [parent_chain_getLast] at hx
    simp only [Option.mem_def, Option.some.injEq, List.head?_cons] at hx hy
    subst hx hy
    exact h1

/-- The wait-insertion loop keeps the first node. -/
theorem insert_waits_head (K : Const) (ns out : List Node) (h : insert_waits K ns = .ok out) :
    out.head? = ns.head? := by
  cases ns with
  | nil => simp [insert_waits] at h; subst h; rfl
  | cons u rest =>
    cases rest with
    | nil => simp [insert_waits] at h; subst h; rfl
    | cons v rest =>
      simp only [insert_waits] at h
      split_ifs at h
      all_goals
        cases hr : insert_waits K (v :: rest) with
        | error e => simp [hr, Except.map] at h
        | ok l =>
          simp only [hr, Except.map, Except.ok.injEq] at h
          subst h
          rfl

/-- On a chain in which every node arrives no earlier than a direct move from
its predecessor allows, the wait-insertion loop returns a path of the shape the
code guarantees. -/
theorem insert_waits_shape (K : Const) :
    ∀ (ns out : List Node),
      List.Chain' (fun u v => MoveLink K u.cell v.cell) ns →
      insert_waits K ns = .ok out → List.Chain' (Shape K) out := by
  intro ns
  induction ns with
  | nil => intro out _ h; simp [insert_waits] at h; subst h; simp
  | cons u rest ih =>
    cases rest with
    | nil => intro out _ h; simp [insert_waits] at h; subst h; simp
    | cons v rest =>
      intro out hc h
      obtain ⟨huv, hc'⟩ := List.chain'_cons.mp hc
      have hmove : u.g + dist K u v ≤ v.g := huv
      simp only [insert_waits] at h
      split_ifs at h with h1 h2
      · cases hr : insert_waits K (v :: rest) with
        | error e => simp [hr, Except.map] at h
        | ok l =>
          simp only [hr, Except.map, Except.ok.injEq] at h
          subst h
          have hl := ih l hc' hr
          have hhead := insert_waits_head K _ l hr
          have he : 0 ≤ K.CN_EPSILON := le_trans (abs_nonneg _) (not_lt.mp h2)
          have hx : v.g - u.g - dist K v u > K.CN_EPSILON := by
            rw [dist_comm K v u] at h1 ⊢
            rw [abs_of_nonneg (by linarith)] at h1
            exact h1
          cases l with
          | nil => simp at hhead
          | cons a l' =>
            simp only [List.head?_cons, Option.some.injEq] at hhead
            subst hhead
            refine List.chain'_cons.mpr ⟨Or.inr ⟨rfl, ?_⟩, List.chain'_cons.mpr ⟨Or.inl ?_, hl⟩⟩
            · show a.g - dist K a u > u.g
              linarith
            · show |a.g - (a.g - dist K a u) - dist K _ a| ≤ K.CN_EPSILON
              rw [dist_comm K _ a]
              exact not_lt.mp h2
      · cases hr : insert_waits K (v :: rest) with
        | error e => simp [hr, Except.map] at h
        | ok l =>
          simp only [hr, Except.map, Except.ok.injEq] at h
          subst h
          have hl := ih l hc' hr
          have hhead := insert_waits_head K _ l hr
          cases l with
          | nil => simp at hhead
          | cons a l' =>
            simp only [List.head?_cons, Option.some.injEq] at hhead
            subst hhead
            refine List.chain'_cons.mpr ⟨Or.inl ?_, hl⟩
            rw [dist_comm K u a]
            exact not_lt.mp h1

/-! ### The invariant of the open list -/

/-- The start nodes satisfy the invariant once their coordinates are those of
the table. -/
theorem inv_start (K : Const) (S : Store) (coord : Int → ℚ × ℚ) (starts : List Node)
    (hc : ∀ s ∈ starts, CoordOK coord s) :
    ∀ s ∈ starts, Inv K S coord starts { s with parent := [] } :=
  fun s hs => ⟨hc s hs, trivial, s, hs, rfl⟩

/-- The invariant passes from a popped node to its successors, also when the
goal loop has raised the `g` of the popped node. -/
theorem inv_succ (K : Const) (agent : Agent) (S : Store) (map : Map) (h_values : Heuristic)
    (coord : Int → ℚ × ℚ) (starts : List Node) (hmap : MapCoord coord map) (goal : Node)
    (popped s : Node) (g' : ℚ) (hp : Inv K S coord starts popped) (hg : popped.g ≤ g')
    (hs : s ∈ find_successors K agent S map h_values (withG popped g') goal) :
    Inv K S coord starts { s with parent := popped.cell :: popped.parent } := by
  obtain ⟨⟨v, hv, hid, hi, hj⟩, _, hmove, hiv, hlo, hhi, hdep⟩ :=
    find_successors_spec K agent S map h_values _ goal s hs
  obtain ⟨_, hlink, hroot⟩ := hp
  refine ⟨?_, ⟨⟨?_, hdep, hlo, hhi, _, hiv⟩, hlink⟩, hroot⟩
  · have := hmap _ v hv
    unfold CoordOK
    show (s.i, s.j) = coord s.id
    rw [hid, hi, hj]
    exact this
  · show popped.g + K.sqrt ((popped.i - s.i) ^ 2 + (popped.j - s.j) ^ 2) ≤ s.g
    have : g' + K.sqrt ((popped.i - s.i) ^ 2 + (popped.j - s.j) ^ 2) ≤ s.g := hmove
    linarith

/-- Every path returned by `find_partial_path` is described by `PartSpec` for
the invariant `Inv`. -/
theorem find_partial_path_inv (K : Const) (fuel : Nat) (agent : Agent) (S : Store) (map : Map)
    (h_values : Heuristic) (coord : Int → ℚ × ℚ) (hmap : MapCoord coord map)
    (starts goals : List Node) (goal0 : Node) (max_f : ℚ)
    (hgoal0 : goals.head? = some goal0) (hc : ∀ s ∈ starts, CoordOK coord s)
    (out : List Path)
    (h : find_partial_path K fuel agent S map h_values starts goals max_f = .ok out) :
    ∀ p ∈ out, PartSpec K (Inv K S coord starts) goals goal0 p :=
  find_partial_path_spec K fuel agent S map h_values coord _ (fun _ hn => hn.1) starts goals
    goal0 max_f hgoal0 (inv_start K S coord starts hc)
    (fun popped s g' hp hg hs =>
      inv_succ K agent S map h_values coord starts hmap _ popped s g' hp hg hs)
    out h

/-- A linked chain is a chain of direct moves, also after the `g` of its last
node has been raised. -/
theorem linked_moveLink (K : Const) (S : Store) (c : Cell) (ps : List Cell) (g' : ℚ)
    (h : Linked (Link K S) c ps) (hg : c.g ≤ g') :
    Linked (MoveLink K) { c with g := g' } ps := by
  have mono : ∀ (c : Cell) (ps : List Cell), Linked (Link K S) c ps → Linked (MoveLink K) c ps := by
    intro c ps
    induction ps generalizing c with
    | nil => intro _; trivial
    | cons p rest ih => intro h; exact ⟨h.1.1, ih p h.2⟩
  cases ps with
  | nil => trivial
  | cons p rest =>
    refine ⟨?_, mono p rest h.2⟩
    have := h.1.1
    show p.g + cellDist K p { c with g := g' } ≤ g'
    have e : cellDist K p { c with g := g' } = cellDist K p c := rfl
    rw [e]
    linarith

/-- Every path described by `PartSpec` for the invariant has the shape the code
guarantees. -/
theorem partSpec_shape (K : Const) (S : Store) (coord : Int → ℚ × ℚ) (starts goals : List Node)
    (goal0 : Node) (p : Path) (h : PartSpec K (Inv K S coord starts) goals goal0 p) :
    List.Chain' (Shape K) p.nodes := by
  rcases h with h | ⟨popped, goal, g', nodes, hinv, hg, _, _, _, _, hrec, hnodes⟩
  · rw [h]; exact List.chain'_nil
  · have hlink := linked_moveLink K S popped.cell popped.parent g' hinv.2.1 hg
    have hchain := parent_chain_chain (MoveLink K) _ _ hlink
    have hshape := insert_waits_shape K _ nodes hchain hrec
    rw [hnodes]
    split_ifs with hw
    · rw [List.chain'_append]
      refine ⟨hshape, by simp, ?_⟩
      intro x hx y hy
      rw [reconstruct_path_getLast K _ nodes hrec] at hx
      simp only [Option.mem_def, Option.some.injEq, List.head?_cons] at hx hy
      subst hx hy
      exact Or.inr ⟨rfl, hw⟩
    · exact hshape

/-! ### `get_endpoints` -/

/-- A property of nodes that does not depend on the interval holds for every
node of the vector after one change of `get_endpoints`. -/
theorem endpoint_step_forall (K : Const) (mk : ℚ → ℚ → Node) (Q : Node → Prop)
    (hQ1 : ∀ n iv, Q n → Q { n with interval := iv }) (hQ2 : ∀ a b, Q (mk a b))
    (c : ℚ × ℚ) (nodes : List Node) (i : Nat) (n : Node) (nodes' : List Node)
    (hn : Q n) (hall : ∀ m ∈ nodes, Q m)
    (h : endpoint_step K mk c nodes i n = some nodes') : ∀ m ∈ nodes', Q m := by
  unfold endpoint_step at h
  intro m hm
  split_ifs at h
  all_goals
    simp only [Option.some.injEq] at h
    subst h
  · exact hall m (List.mem_of_mem_eraseIdx hm)
  · rcases List.mem_or_eq_of_mem_set hm with h | h
    · exact hall m h
    · rw [h]; exact hQ1 _ _ hn
  · rcases mem_of_mem_insertIdx _ _ _ _ hm with h | h
    · rw [h]; exact hQ2 _ _
    · rcases List.mem_or_eq_of_mem_set h with h | h
      · exact hall m h
      · rw [h]; exact hQ1 _ _ hn
  · rcases List.mem_or_eq_of_mem_set hm with h | h
    · exact hall m h
    · rw [h]; exact hQ1 _ _ hn

/-- A property of nodes that does not depend on the interval holds for every
node the loops of `get_endpoints` return. -/
theorem get_endpoints_loop_forall (K : Const) (mk : ℚ → ℚ → Node) (Q : Node → Prop)
    (hQ1 : ∀ n iv, Q n → Q { n with interval := iv }) (hQ2 : ∀ a b, Q (mk a b))
    (colls : List (ℚ × ℚ)) :
    ∀ (fuel k i : Nat) (nodes out : List Node), (∀ m ∈ nodes, Q m) →
      get_endpoints_loop K mk colls fuel k i nodes = .ok out → ∀ m ∈ out, Q m := by
  intro fuel
  induction fuel with
  | zero => intro k i nodes out _ h; simp [get_endpoints_loop] at h
  | succ fuel ih =>
    intro k i nodes out hall h
    simp only [get_endpoints_loop] at h
    cases hc : colls[k]? with
    | none => simp only [hc, Except.ok.injEq] at h; subst h; exact hall
    | some c =>
      simp only [hc] at h
      cases hn : nodes[i]? with
      | none => simp only [hn] at h; exact ih _ _ _ _ hall h
      | some n =>
        simp only [hn] at h
        cases hs : endpoint_step K mk c nodes i n with
        | none => simp only [hs] at h; exact ih _ _ _ _ hall h
        | some nodes' =>
          simp only [hs] at h
          exact ih _ _ _ _
            (endpoint_step_forall K mk Q hQ1 hQ2 c nodes i n nodes'
              (hall n (List.getElem?_mem hn)) hall hs) h

/-- Every node `get_endpoints` returns is at the vertex asked for, with its
coordinates, arrival time `0` and no parent. -/
theorem get_endpoints_nodes (K : Const) (fuel : Nat) (S : Store) (node_id : Int)
    (node_i node_j t1 t2 : ℚ) (out : List Node)
    (h : get_endpoints K fuel S node_id node_i node_j t1 t2 = .ok out) :
    ∀ m ∈ out, m.id = node_id ∧ m.i = node_i ∧ m.j = node_j ∧ m.g = 0 ∧ m.parent = [] := by
  have base : ∀ m ∈ [endpoint_node node_id node_i node_j t1 t2],
      m.id = node_id ∧ m.i = node_i ∧ m.j = node_j ∧ m.g = 0 ∧ m.parent = [] := by
    intro m hm
    rw [List.mem_singleton.mp hm]
    exact ⟨rfl, rfl, rfl, rfl, rfl⟩
  unfold get_endpoints at h
  split at h
  · simp only [Except.ok.injEq] at h; subst h; exact base
  · simp only [Except.ok.injEq] at h; subst h; exact base
  · exact get_endpoints_loop_forall K _
      (fun m => m.id = node_id ∧ m.i = node_i ∧ m.j = node_j ∧ m.g = 0 ∧ m.parent = [])
      (fun n iv hn => hn) (fun a b => ⟨rfl, rfl, rfl, rfl, rfl⟩) _ fuel 0 0 _ out base h

/-! ### Order and bounds of the endpoints -/

/-- An index that holds `n` splits the list around `n`. -/
theorem getElem?_split {α : Type} (l : List α) (i : Nat) (n : α) (h : l[i]? = some n) :
    ∃ pre post, l = pre ++ n :: post ∧ pre.length = i := by
  induction l generalizing i with
  | nil => simp at h
  | cons a l ih =>
    cases i with
    | zero =>
      simp only [List.getElem?_cons_zero, Option.some.injEq] at h
      exact ⟨[], l, by simp [h], rfl⟩
    | succ i =>
      simp only [List.getElem?_cons_succ] at h
      obtain ⟨pre, post, h1, h2⟩ := ih i h
      exact ⟨a :: pre, post, by simp [h1], by simp [h2]⟩

/-- `erase` at the split point. -/
theorem eraseIdx_split {α : Type} (pre post : List α) (n : α) :
    (pre ++ n :: post).eraseIdx pre.length = pre ++ post := by
  induction pre with
  | nil => rfl
  | cons a pre ih => simp only [List.cons_append, List.length_cons, List.eraseIdx_cons_succ, ih]

/-- Assignment at the split point. -/
theorem set_split {α : Type} (pre post : List α) (n x : α) :
    (pre ++ n :: post).set pre.length x = pre ++ x :: post := by
  induction pre with
  | nil => rfl
  | cons a pre ih => simp only [List.cons_append, List.length_cons, List.set_cons_succ, ih]

/-- `insert` right after the split point. -/
theorem insertIdx_split {α : Type} (pre post : List α) (x y : α) :
    (pre ++ x :: post).insertIdx (pre.length + 1) y = pre ++ x :: y :: post := by
  induction pre with
  | nil => rfl
  | cons a pre ih =>
    simp only [List.cons_append, List.length_cons, List.insertIdx_succ_cons, ih]

/-- Replacing an element of a pairwise ordered list by one that is ordered the
same way against every other element. -/
theorem pairwise_replace {α : Type} {R : α → α → Prop} (pre post : List α) (n n' : α)
    (h : (pre ++ n :: post).Pairwise R) (hl : ∀ a, R a n → R a n') (hr : ∀ b, R n b → R n' b) :
    (pre ++ n' :: post).Pairwise R := by
  obtain ⟨hpre, hnp, hcross⟩ := List.pairwise_append.mp h
  obtain ⟨hn, hpost⟩ := List.pairwise_cons.mp hnp
  refine List.pairwise_append.mpr ⟨hpre, List.pairwise_cons.mpr ⟨fun b hb => hr b (hn b hb), hpost⟩,
    ?_⟩
  intro a ha b hb
  rcases List.mem_cons.mp hb with rfl | hb
  · exact hl a (hcross a ha n (List.mem_cons_self _ _))
  · exact hcross a ha b (List.mem_cons_of_mem _ hb)

/-- Replacing an element of a pairwise ordered list by two ordered elements,
each ordered against every other element as the original. -/
theorem pairwise_replace_two {α : Type} {R : α → α → Prop} (pre post : List α) (n n' m : α)
    (h : (pre ++ n :: post).Pairwise R) (hl : ∀ a, R a n → R a n') (hl2 : ∀ a, R a n → R a m)
    (hr : ∀ b, R n b → R n' b) (hr2 : ∀ b, R n b → R m b) (hnm : R n' m) :
    (pre ++ n' :: m :: post).Pairwise R := by
  obtain ⟨hpre, hnp, hcross⟩ := List.pairwise_append.mp h
  obtain ⟨hn, hpost⟩ := List.pairwise_cons.mp hnp
  refine List.pairwise_append.mpr ⟨hpre, List.pairwise_cons.mpr ⟨?_,
    List.pairwise_cons.mpr ⟨fun b hb => hr2 b (hn b hb), hpost⟩⟩, ?_⟩
  · intro b hb
    rcases List.mem_cons.mp hb with rfl | hb
    · exact hnm
    · exact hr b (hn b hb)
  · intro a ha b hb
    have han := hcross a ha n (List.mem_cons_self _ _)
    rcases List.mem_cons.mp hb with rfl | hb
    · exact hl a han
    · rcases List.mem_cons.mp hb with rfl | hb
      · exact hl2 a han
      · exact hcross a ha b (List.mem_cons_of_mem _ hb)

/-- One change of `get_endpoints` by a collision with `lo ≤ hi` keeps the
sub-intervals inside the window and in ascending order. -/
theorem endpoint_step_inv (K : Const) (he : 0 ≤ K.CN_EPSILON) (mk : ℚ → ℚ → Node)
    (hmk : ∀ a b, (mk a b).interval = (a, b)) (t1 t2 : ℚ) (c : ℚ × ℚ) (hc : c.1 ≤ c.2)
    (nodes : List Node) (i : Nat) (n : Node) (nodes' : List Node) (hn : nodes[i]? = some n)
    (hinv : EndInv K t1 t2 nodes) (h : endpoint_step K mk c nodes i n = some nodes') :
    EndInv K t1 t2 nodes' := by
  obtain ⟨pre, post, hsplit, hlen⟩ := getElem?_split nodes i n hn
  subst hsplit hlen
  obtain ⟨hpw, hq⟩ := hinv
  have hqn : EndWithin t1 t2 n := hq n (by simp)
  have hq' : ∀ m ∈ pre ++ post, EndWithin t1 t2 m := by
    intro m hm
    rcases List.mem_append.mp hm with h | h
    · exact hq m (by simp [h])
    · exact hq m (by simp [h])
  obtain ⟨hq1, hq2, hq3⟩ := hqn
  unfold endpoint_step at h
  split_ifs at h with h1 h2 h3 h4
  · simp only [Option.some.injEq] at h
    subst h
    rw [eraseIdx_split]
    refine ⟨?_, hq'⟩
    have : (pre ++ post).Sublist (pre ++ n :: post) :=
      List.Sublist.append_left (List.sublist_cons_self _ _) _
    exact hpw.sublist this
  · simp only [Option.some.injEq] at h
    subst h
    rw [set_split]
    have hle : c.2 + K.CN_EPSILON ≤ n.interval.2 :=
      not_lt.mp (fun hgt => h1 ⟨h2.1, hgt⟩)
    refine ⟨pairwise_replace pre post n _ hpw ?_ ?_, ?_⟩
    · intro a ha
      exact ⟨le_trans ha.1 (le_of_lt h2.2), le_trans ha.2 (le_of_lt h2.2)⟩
    · intro b hb
      exact ⟨hb.1, le_trans hle hb.1⟩
    · intro m hm
      rcases List.mem_append.mp hm with h | h
      · exact hq m (by simp [h])
      · rcases List.mem_cons.mp h with rfl | h
        · exact ⟨le_trans hq1 (le_of_lt h2.2), hq2, by show c.2 ≤ n.interval.2; linarith⟩
        · exact hq m (by simp [h])
  · simp only [Option.some.injEq] at h
    subst h
    rw [set_split, insertIdx_split]
    refine ⟨pairwise_replace_two pre post n _ _ hpw ?_ ?_ ?_ ?_ ?_, ?_⟩
    · intro a ha
      exact ha
    · intro a ha
      rw [EndBefore, hmk]
      exact ⟨by show a.interval.2 ≤ c.2; linarith [ha.1, h3.1],
        by show a.interval.1 + K.CN_EPSILON ≤ c.2; linarith [ha.2, h3.1]⟩
    · intro b hb
      exact ⟨by show c.1 ≤ b.interval.1; linarith [hb.1, h3.2], hb.2⟩
    · intro b hb
      rw [EndBefore, hmk]
      exact ⟨hb.1, by show c.2 + K.CN_EPSILON ≤ b.interval.1; linarith [hb.1, h3.2]⟩
    · rw [EndBefore, hmk]
      exact ⟨hc, by show n.interval.1 + K.CN_EPSILON ≤ c.2; linarith [h3.1]⟩
    · intro m hm
      rcases List.mem_append.mp hm with h | h
      · exact hq m (by simp [h])
      · rcases List.mem_cons.mp h with rfl | h
        · exact ⟨hq1, by show c.1 ≤ t2; linarith [h3.2], by show n.interval.1 ≤ c.1; linarith [h3.1]⟩
        · rcases List.mem_cons.mp h with rfl | h
          · rw [EndWithin, hmk]
            exact ⟨by show t1 ≤ c.2; linarith [h3.1], hq2, by show c.2 ≤ n.interval.2; linarith [h3.2]⟩
          · exact hq m (by simp [h])
  · simp only [Option.some.injEq] at h
    subst h
    rw [set_split]
    have hlo : n.interval.1 ≤ c.1 - K.CN_EPSILON := by
      by_contra hlt
      exact h1 ⟨lt_of_not_le hlt, h4.2⟩
    refine ⟨pairwise_replace pre post n _ hpw ?_ ?_, ?_⟩
    · intro a ha
      exact ha
    · intro b hb
      exact ⟨le_trans (le_of_lt h4.1) hb.1, hb.2⟩
    · intro m hm
      rcases List.mem_append.mp hm with h | h
      · exact hq m (by simp [h])
      · rcases List.mem_cons.mp h with rfl | h
        · exact ⟨hq1, le_trans (le_of_lt h4.1) hq2, by show n.interval.1 ≤ c.1; linarith⟩
        · exact hq m (by simp [h])

/-- The loops of `get_endpoints` keep the sub-intervals inside the window and in
ascending order. -/
theorem get_endpoints_loop_inv (K : Const) (he : 0 ≤ K.CN_EPSILON) (mk : ℚ → ℚ → Node)
    (hmk : ∀ a b, (mk a b).interval = (a, b)) (t1 t2 : ℚ) (colls : List (ℚ × ℚ))
    (hcolls : ∀ c ∈ colls, c.1 ≤ c.2) :
    ∀ (fuel k i : Nat) (nodes out : List Node), EndInv K t1 t2 nodes →
      get_endpoints_loop K mk colls fuel k i nodes = .ok out → EndInv K t1 t2 out := by
  intro fuel
  induction fuel with
  | zero => intro k i nodes out _ h; simp [get_endpoints_loop] at h
  | succ fuel ih =>
    intro k i nodes out hinv h
    simp only [get_endpoints_loop] at h
    cases hc : colls[k]? with
    | none => simp only [hc, Except.ok.injEq] at h; subst h; exact hinv
    | some c =>
      simp only [hc] at h
      cases hn : nodes[i]? with
      | none => simp only [hn] at h; exact ih _ _ _ _ hinv h
      | some n =>
        simp only [hn] at h
        cases hs : endpoint_step K mk c nodes i n with
        | none => simp only [hs] at h; exact ih _ _ _ _ hinv h
        | some nodes' =>
          simp only [hs] at h
          exact ih _ _ _ _
            (endpoint_step_inv K he mk hmk t1 t2 c (hcolls c (List.getElem?_mem hc)) nodes i n
              nodes' hn hinv hs) h

/-- For a window `t1 ≤ t2` and collisions with `lo ≤ hi`, the sub-intervals
`get_endpoints` returns lie in the window, in ascending order, with starts at
least `ε` apart. -/
theorem get_endpoints_inv (K : Const) (he : 0 ≤ K.CN_EPSILON) (fuel : Nat) (S : Store)
    (node_id : Int) (node_i node_j t1 t2 : ℚ) (ht : t1 ≤ t2)
    (hcolls : ∀ l, S.collision_intervals node_id = some l → ∀ c ∈ l, c.1 ≤ c.2)
    (out : List Node) (h : get_endpoints K fuel S node_id node_i node_j t1 t2 = .ok out) :
    EndInv K t1 t2 out := by
  have base : EndInv K t1 t2 [endpoint_node node_id node_i node_j t1 t2] := by
    refine ⟨List.pairwise_singleton _ _, ?_⟩
    intro m hm
    rw [List.mem_singleton.mp hm]
    exact ⟨le_refl _, le_refl _, ht⟩
  unfold get_endpoints at h
  split at h
  · simp only [Except.ok.injEq] at h; subst h; exact base
  · simp only [Except.ok.injEq] at h; subst h; exact base
  · rename_i c cs hcs
    exact get_endpoints_loop_inv K he _ (fun a b => rfl) t1 t2 _ (hcolls _ hcs) fuel 0 0 _ out
      base h

/-! ### The constraint store -/

instance : IsTotal (ℚ × ℚ) pairLe :=
  ⟨fun a b => by
    unfold pairLe
    rcases lt_trichotomy a.1 b.1 with h | h | h
    · exact Or.inl (Or.inl h)
    · rcases le_total a.2 b.2 with h2 | h2
      · exact Or.inl (Or.inr ⟨h, h2⟩)
      · exact Or.inr (Or.inr ⟨h.symm, h2⟩)
    · exact Or.inr (Or.inl h)⟩

instance : IsTrans (ℚ × ℚ) pairLe :=
  ⟨fun a b c hab hbc => by
    unfold pairLe at *
    rcases hab with h | ⟨h1, h2⟩
    · rcases hbc with h' | ⟨h1', _⟩
      · exact Or.inl (lt_trans h h')
      · exact Or.inl (h1' ▸ h)
    · rcases hbc with h' | ⟨h1', h2'⟩
      · exact Or.inl (h1 ▸ h')
      · exact Or.inr ⟨h1.trans h1', le_trans h2 h2'⟩⟩

/-- The coalescing loop keeps `lo ≤ hi` on a vector sorted by `lo`. -/
theorem coalesceFrom_ordered (K : Const) :
    ∀ (rest : List (ℚ × ℚ)) (cur : ℚ × ℚ), cur.1 ≤ cur.2 →
      (cur :: rest).Pairwise (fun a b => a.1 ≤ b.1) → (∀ x ∈ rest, x.1 ≤ x.2) →
      ∀ c ∈ coalesceFrom K cur rest, c.1 ≤ c.2 := by
  intro rest
  induction rest with
  | nil =>
    intro cur hcur _ _ c hc
    simp only [coalesceFrom, List.mem_singleton] at hc
    rw [hc]; exact hcur
  | cons nxt rest ih =>
    intro cur hcur hpw hall c hc
    obtain ⟨hcr, hpw'⟩ := List.pairwise_cons.mp hpw
    obtain ⟨hnr, hpw''⟩ := List.pairwise_cons.mp hpw'
    have hnxt := hall nxt (List.mem_cons_self _ _)
    have hall' : ∀ x ∈ rest, x.1 ≤ x.2 := fun x hx => hall x (List.mem_cons_of_mem _ hx)
    simp only [coalesceFrom] at hc
    split_ifs at hc
    · refine ih (cur.1, nxt.2) ?_ ?_ hall' c hc
      · exact le_trans (hcr nxt (List.mem_cons_self _ _)) hnxt
      · exact List.pairwise_cons.mpr
          ⟨fun x hx => hcr x (List.mem_cons_of_mem _ hx), hpw''⟩
    · rcases List.mem_cons.mp hc with rfl | hc
      · exact hcur
      · exact ih nxt hnxt hpw' hall' c hc

/-- Sorting and coalescing keep `lo ≤ hi`. -/
theorem coalesce_sort_ordered (K : Const) (l : List (ℚ × ℚ)) (h : ∀ x ∈ l, x.1 ≤ x.2) :
    ∀ c ∈ coalesce K (List.insertionSort pairLe l), c.1 ≤ c.2 := by
  have hs : (List.insertionSort pairLe l).Pairwise (fun a b => a.1 ≤ b.1) := by
    refine (List.sorted_insertionSort pairLe l).imp ?_
    intro a b hab
    rcases hab with h | ⟨h, _⟩
    · exact le_of_lt h
    · exact le_of_eq h
  have hall : ∀ x ∈ List.insertionSort pairLe l, x.1 ≤ x.2 :=
    fun x hx => h x ((List.perm_insertionSort pairLe l).mem_iff.mp hx)
  generalize List.insertionSort pairLe l = sorted at hs hall
  cases sorted with
  | nil => intro c hc; simp [coalesce] at hc
  | cons a rest =>
    exact coalesceFrom_ordered K rest a (hall a (List.mem_cons_self _ _)) hs
      (fun x hx => hall x (List.mem_cons_of_mem _ hx))

/-- `add_collision_interval` with `lo ≤ hi` keeps `lo ≤ hi` in the store. -/
theorem add_collision_interval_ordered (K : Const) (S : Store) (id : Int) (iv : ℚ × ℚ)
    (hS : StoreOrdered S) (hiv : iv.1 ≤ iv.2) :
    StoreOrdered (add_collision_interval K S id iv) := by
  intro k l hl c hc
  simp only [add_collision_interval] at hl
  split_ifs at hl with hk
  · simp only [Option.some.injEq] at hl
    subst hl
    unfold add_collision_list at hc
    cases hold : S.collision_intervals id with
    | none =>
      rw [hold] at hc
      exact coalesce_sort_ordered K [iv] (by simpa using hiv) c hc
    | some old =>
      rw [hold] at hc
      refine coalesce_sort_ordered K (old ++ [iv]) ?_ c hc
      intro x hx
      rcases List.mem_append.mp hx with h | h
      · exact hS id old hold x h
      · rw [List.mem_singleton.mp h]; exact hiv
  · exact hS k l hl c hc

/-- `make_constraints` on constraints with `t1 ≤ t2` keeps `lo ≤ hi` in the
store. -/
theorem make_constraints_ordered (K : Const) (agent : Agent) (cons : List Constraint)
    (hcons : ∀ c ∈ cons, c.t1 ≤ c.t2) (S : Store) (hS : StoreOrdered S) :
    StoreOrdered (make_constraints K agent S cons) := by
  induction cons generalizing S with
  | nil => exact hS
  | cons con rest ih =>
    simp only [make_constraints, List.foldl_cons]
    refine ih (fun c hc => hcons c (List.mem_cons_of_mem _ hc)) _ ?_
    unfold make_constraint
    split_ifs
    · exact add_collision_interval_ordered K S _ _ hS (hcons con (List.mem_cons_self _ _))
    · exact hS
    · exact hS
    · exact hS

/-- `operator[]` keeps `lo ≤ hi` in the store. -/
theorem touch_ordered (S : Store) (id : Int) (hS : StoreOrdered S) : StoreOrdered (touch S id) := by
  intro k l hl c hc
  simp only [touch] at hl
  split_ifs at hl with hk
  · simp only [Option.some.injEq] at hl
    subst hl
    cases hold : S.collision_intervals id with
    | none => simp [hold] at hc
    | some old =>
      simp only [hold, Option.getD_some] at hc
      exact hS id old hold c hc
  · exact hS k l hl c hc

/-- The empty store has `lo ≤ hi`. -/
theorem clear_ordered : StoreOrdered clear := by
  intro k l hl
  simp [clear] at hl

/-- The landmark vector after an insertion holds the new landmark and the old
ones. -/
theorem mem_insert_landmark (m x : Move) (l : List Move) :
    x ∈ insert_landmark m l ↔ x = m ∨ x ∈ l := by
  induction l with
  | nil => simp [insert_landmark]
  | cons a l ih =>
    simp only [insert_landmark]
    split_ifs
    · simp
    · simp only [List.mem_cons, ih]
      tauto

/-- Every landmark stored by `make_constraints` was stored before or is built
from a positive constraint of the input that names the agent. -/
theorem make_constraints_landmark_mem (K : Const) (agent : Agent) (cons : List Constraint)
    (S : Store) (lm : Move) (h : lm ∈ (make_constraints K agent S cons).landmarks) :
    lm ∈ S.landmarks ∨
      ∃ c ∈ cons, c.positive = true ∧ c.agent = agent.id ∧ lm = Move.ofConstraint c := by
  induction cons generalizing S with
  | nil => exact Or.inl h
  | cons con rest ih =>
    simp only [make_constraints, List.foldl_cons] at h
    rcases ih _ h with h1 | ⟨c, hc, h2⟩
    · unfold make_constraint at h1
      split_ifs at h1 with ha hb hc
      · exact Or.inl h1
      · exact Or.inl h1
      · rcases (mem_insert_landmark _ _ _).mp h1 with h3 | h3
        · exact Or.inr ⟨con, List.mem_cons_self _ _, by simpa using ha, hc, h3⟩
        · exact Or.inl h3
      · exact Or.inl h1
    · exact Or.inr ⟨c, List.mem_cons_of_mem _ hc, h2⟩

/-! ### `find_path` without landmarks -/

/-- One constraint that is not a landmark of the agent leaves the landmark
vector alone. -/
theorem make_constraint_landmarks (K : Const) (agent : Agent) (S : Store) (con : Constraint)
    (h : con.positive = true → con.agent ≠ agent.id) :
    (make_constraint K agent S con).landmarks = S.landmarks := by
  unfold make_constraint
  split_ifs with h1 h2 h3
  · rfl
  · unfold add_move_constraint; rfl
  · exact absurd h3 (h (by simpa using h1))
  · rfl

/-- An input without a landmark for the agent leaves the landmark vector empty. -/
theorem make_constraints_landmarks (K : Const) (agent : Agent) (cons : List Constraint)
    (h : NoLandmark agent cons) (S : Store) :
    (make_constraints K agent S cons).landmarks = S.landmarks := by
  induction cons generalizing S with
  | nil => rfl
  | cons con rest ih =>
    simp only [make_constraints, List.foldl_cons]
    have := ih (fun c hc => h c (List.mem_cons_of_mem _ hc)) (make_constraint K agent S con)
    simp only [make_constraints] at this
    rw [this]
    exact make_constraint_landmarks K agent S con (h con (List.mem_cons_self _ _))

/-- The closing statements of `find_path` keep the nodes. -/
theorem finish_nodes (agent : Agent) (r p : Path) (h : finish agent r = .ok p) :
    p.nodes = r.nodes := by
  unfold finish at h
  split at h
  · simp at h
  · simp only [Except.ok.injEq] at h; subst h; rfl

/-- The path returned by the branch of `find_path` without landmarks is empty or
is described by `PartSpec` for the invariant, with the first endpoint of the
start vertex as the only start and the last endpoint of the goal vertex as the
only goal. -/
theorem find_path_direct_spec (K : Const) (fuel : Nat) (agent : Agent) (map : Map)
    (h_values : Heuristic) (S : Store) (coord : Int → ℚ × ℚ) (hmap : MapCoord coord map)
    (hstart : coord agent.start_id = (agent.start_i, agent.start_j)) (p : Path)
    (h : find_path_direct K fuel agent map h_values S = .ok p) :
    p.nodes = [] ∨ ∃ (ends gends : List Node) (st gl : Node),
      get_endpoints K fuel S agent.start_id agent.start_i agent.start_j 0 K.CN_INFINITY
        = .ok ends ∧ ends.head? = some st ∧
      get_endpoints K fuel (touch S agent.start_id) agent.goal_id agent.goal_i agent.goal_j 0
        K.CN_INFINITY = .ok gends ∧ gends.getLast? = some gl ∧
      PartSpec K (Inv K (touch (touch S agent.start_id) agent.goal_id) coord [st]) [gl] gl p := by
  unfold find_path_direct at h
  cases he : get_endpoints K fuel S agent.start_id agent.start_i agent.start_j 0 K.CN_INFINITY with
  | error e => simp [he] at h
  | ok ends =>
    simp only [he] at h
    cases ends with
    | nil => simp at h
    | cons st rest =>
      simp only at h
      cases hg : get_endpoints K fuel (touch S agent.start_id) agent.goal_id agent.goal_i
          agent.goal_j 0 K.CN_INFINITY with
      | error e => simp [hg] at h
      | ok gends =>
        simp only [hg] at h
        cases hl : gends.getLast? with
        | none => simp [hl] at h
        | some gl =>
          simp only [hl] at h
          cases hf : find_partial_path K fuel agent (touch (touch S agent.start_id) agent.goal_id)
              map h_values [st] [gl] K.CN_INFINITY with
          | error e => simp [hf] at h
          | ok parts =>
            simp only [hf] at h
            cases parts with
            | nil => simp at h
            | cons p0 ps =>
              simp only at h
              split_ifs at h
              · simp only [Except.ok.injEq] at h
                subst h
                exact Or.inl rfl
              · right
                have hst := get_endpoints_nodes K fuel S _ _ _ _ _ _ he st (List.mem_cons_self _ _)
                have hc : ∀ s ∈ [st], CoordOK coord s := by
                  intro s hs
                  rw [List.mem_singleton.mp hs]
                  unfold CoordOK
                  rw [hst.1, hst.2.1, hst.2.2.1, hstart]
                have hspec := find_partial_path_inv K fuel agent _ map h_values coord hmap [st]
                  [gl] gl K.CN_INFINITY rfl hc _ hf p0 (List.mem_cons_self _ _)
                refine ⟨st :: rest, gends, st, gl, rfl, rfl, rfl, hl, ?_⟩
                rcases hspec with h0 | ⟨popped, goal, g', nodes, h1, h2, h3, h4, h5, h6, h7, h8⟩
                · exact Or.inl (by rw [finish_nodes agent p0 p h]; exact h0)
                · exact Or.inr ⟨popped, goal, g', nodes, h1, h2, h3, h4, h5, h6, h7,
                    by rw [finish_nodes agent p0 p h]; exact h8⟩

/-! ### The landmark loop: stitching -/

/-- Every result a `collect` loop returns was yielded by its body for some
element. -/
theorem collect_mem {α : Type} (f : α → Except Fault (List Path)) :
    ∀ (l : List α) (out : List Path), collect f l = .ok out →
      ∀ y ∈ out, ∃ x ∈ l, ∃ ys, f x = .ok ys ∧ y ∈ ys := by
  intro l
  induction l with
  | nil => intro out h y hy; simp only [collect, Except.ok.injEq] at h; subst h; simp at hy
  | cons x xs ih =>
    intro out h y hy
    simp only [collect] at h
    cases hx : f x with
    | error e => simp [hx] at h
    | ok a =>
      cases hxs : collect f xs with
      | error e => simp [hx, hxs] at h
      | ok b =>
        simp only [hx, hxs, Except.ok.injEq] at h
        subst h
        rcases List.mem_append.mp hy with h1 | h1
        · exact ⟨x, List.mem_cons_self _ _, a, hx, h1⟩
        · obtain ⟨x', hx', ys, h2, h3⟩ := ih b hxs y h1
          exact ⟨x', List.mem_cons_of_mem _ hx', ys, h2, h3⟩

/-- The start nodes of a segment are the last nodes of the results, in order. -/
theorem back_nodes_forall₂ :
    ∀ (results : List Path) (starts : List Node), back_nodes results = .ok starts →
      List.Forall₂ (fun r s => r.nodes.getLast? = some s) results starts := by
  intro results
  induction results with
  | nil => intro starts h; simp only [back_nodes, Except.ok.injEq] at h; subst h; exact .nil
  | cons p ps ih =>
    intro starts h
    simp only [back_nodes] at h
    cases hb : p.nodes.getLast? with
    | none => simp [hb] at h
    | some b =>
      cases hr : back_nodes ps with
      | error e => simp [hb, hr] at h
      | ok bs =>
        simp only [hb, hr, Except.ok.injEq] at h
        subst h
        exact .cons hb (ih bs hr)

/-- Two related lists are related at every index. -/
theorem forall₂_getElem? {α β : Type} {R : α → β → Prop} :
    ∀ (l₁ : List α) (l₂ : List β), List.Forall₂ R l₁ l₂ →
      ∀ (k : Nat) (a : α) (b : β), l₁[k]? = some a → l₂[k]? = some b → R a b := by
  intro l₁ l₂ h
  induction h with
  | nil => intro k a b ha; simp at ha
  | cons hab _ ih =>
    intro k a b ha hb
    cases k with
    | zero =>
      simp only [List.getElem?_cons_zero, Option.some.injEq] at ha hb
      subst ha hb
      exact hab
    | succ k =>
      simp only [List.getElem?_cons_succ] at ha hb
      exact ih k a b ha hb

/-- Every element of the second of two related lists has a partner in the
first. -/
theorem forall₂_mem_right {α β : Type} {R : α → β → Prop} :
    ∀ (l₁ : List α) (l₂ : List β), List.Forall₂ R l₁ l₂ → ∀ b ∈ l₂, ∃ a ∈ l₁, R a b := by
  intro l₁ l₂ h
  induction h with
  | nil => intro b hb; simp at hb
  | cons hab _ ih =>
    intro b hb
    rcases List.mem_cons.mp hb with rfl | hb
    · exact ⟨_, List.mem_cons_self _ _, hab⟩
    · obtain ⟨a, ha, hr⟩ := ih b hb
      exact ⟨a, List.mem_cons_of_mem _ ha, hr⟩

/-- Every result of the stitching loop is a result extended by a part whose
first node has the interval of the last node of the result, up to `ε`. -/
theorem stitch_spec (K : Const) (parts results out : List Path)
    (h : stitch K parts results = .ok out) :
    ∀ r' ∈ out, ∃ part ∈ parts, ∃ r ∈ results, ∃ n0 tl b,
      part.nodes = n0 :: tl ∧ r.nodes.getLast? = some b ∧
      |n0.interval.1 - b.interval.1| < K.CN_EPSILON ∧
      |n0.interval.2 - b.interval.2| < K.CN_EPSILON ∧ r' = add_part r part := by
  intro r' hr'
  unfold stitch at h
  obtain ⟨part, hpart, ys, hys, hy⟩ := collect_mem _ parts out h r' hr'
  obtain ⟨r, hr, zs, hzs, hz⟩ := collect_mem _ results ys hys r' hy
  unfold stitch_one at hzs
  cases hn : part.nodes with
  | nil => simp [hn] at hzs; subst hzs; simp at hz
  | cons n0 tl =>
    simp only [hn] at hzs
    cases hb : r.nodes.getLast? with
    | none => simp [hb] at hzs
    | some b =>
      simp only [hb] at hzs
      split_ifs at hzs with hc
      · simp only [Except.ok.injEq] at hzs
        subst hzs
        exact ⟨part, hpart, r, hr, n0, tl, b, hn, hb, hc.1, hc.2, List.mem_singleton.mp hz⟩
      · simp only [Except.ok.injEq] at hzs
        subst hzs
        simp at hz

/-! ### The landmark loop: the parts of a segment -/

/-- The first node of the parent chain is the root, without parent. -/
theorem parent_chain_head_root (c : Cell) (ps : List Cell) :
    (parent_chain c ps).head? = some (derefParent (rootCell c ps) []) := by
  induction ps generalizing c with
  | nil => rfl
  | cons p rest ih =>
    simp only [parent_chain, List.head?_append, ih p]
    rfl

/-- A parent chain with a parent has at least two nodes. -/
theorem parent_chain_two (c p : Cell) (rest : List Cell) :
    ∃ u v tl, parent_chain c (p :: rest) = u :: v :: tl := by
  simp only [parent_chain]
  cases h : parent_chain p rest with
  | nil =>
    have := parent_chain_getLast p rest
    rw [h] at this
    simp at this
  | cons u tl =>
    cases tl with
    | nil => exact ⟨u, _, [], rfl⟩
    | cons v tl' => exact ⟨u, v, tl' ++ [derefParent c (p :: rest)], rfl⟩

/-- The wait-insertion loop keeps the first node and returns at least two nodes
when given at least two. -/
theorem insert_waits_two (K : Const) (u v : Node) (rest out : List Node)
    (h : insert_waits K (u :: v :: rest) = .ok out) : ∃ x tl, out = u :: x :: tl := by
  simp only [insert_waits] at h
  split_ifs at h
  · cases hr : insert_waits K (v :: rest) with
    | error e => simp [hr, Except.map] at h
    | ok l =>
      simp only [hr, Except.map, Except.ok.injEq] at h
      exact ⟨_, l, h.symm⟩
  · cases hr : insert_waits K (v :: rest) with
    | error e => simp [hr, Except.map] at h
    | ok l =>
      simp only [hr, Except.map, Except.ok.injEq] at h
      have hhead := insert_waits_head K _ l hr
      cases l with
      | nil => simp at hhead
      | cons a l' => exact ⟨a, l', h.symm⟩

/-- Two elements of a pairwise ordered list, the first in the part before the
second: they are ordered. -/
theorem pairwise_split_rel {α : Type} {R : α → α → Prop} (done rest : List α) (goal gk : α)
    (h : (done ++ goal :: rest).Pairwise R) (hk : gk ∈ done) : R gk goal :=
  (List.pairwise_append.mp h).2.2 gk hk goal (List.mem_cons_self _ _)

/-- The facts about a non-empty part of a segment that the stitching needs: its
first node has the interval of a start node; its last node is at the goal
vertex, has table coordinates and arrives inside the window; its second node,
if any, follows any node with the id, coordinates and arrival time of that
start node in the shape of a path; and when the part is a single node, the
start node itself is at the goal vertex and inside the window. -/
theorem part_facts (K : Const) (S : Store) (coord : Int → ℚ × ℚ) (starts goals : List Node)
    (goal0 : Node) (t1 t2 : ℚ) (he : 0 < K.CN_EPSILON) (hgoals : EndInv K t1 t2 goals)
    (p : Path) (hp : PartSpec K (Inv K S coord starts) goals goal0 p) (hne : p.nodes ≠ []) :
    ∃ s ∈ starts, ∃ n0 tl, p.nodes = n0 :: tl ∧ n0.interval = s.interval ∧
      (∃ bk, p.nodes.getLast? = some bk ∧ bk.id = goal0.id ∧ CoordOK coord bk ∧ t1 ≤ bk.g) ∧
      (∀ x, tl.head? = some x → ∀ b : Node, b.id = s.id → b.i = s.i → b.j = s.j → b.g = s.g →
        Shape K b x) ∧
      (tl = [] → s.id = goal0.id ∧ t1 ≤ s.g) := by
  have hshape := partSpec_shape K S coord starts goals goal0 p hp
  rcases hp with h0 | ⟨popped, goal, g', nodes, hinv, hg, hid, ⟨done, rest, hsplit, hg'⟩, ht1, ht2,
    hrec, hnodes⟩
  · exact absurd h0 hne
  obtain ⟨hcoord, hlinked, s, hs, hroot⟩ := hinv
  have hgoal : goal ∈ goals := by rw [hsplit]; simp
  have hlo : t1 ≤ goal.interval.1 := (hgoals.2 goal hgoal).1
  have hlast := reconstruct_path_getLast K _ nodes hrec
  -- the last node of the part
  have hbk : ∃ bk, p.nodes.getLast? = some bk ∧ bk.id = goal0.id ∧ CoordOK coord bk ∧ t1 ≤ bk.g := by
    rw [hnodes]
    split_ifs with hw
    · exact ⟨withG popped goal.interval.1, by simp, hid, hcoord, hlo⟩
    · exact ⟨withG popped g', hlast, hid, hcoord, le_trans hlo (not_lt.mp hw)⟩
  unfold reconstruct_path at hrec
  cases hpar : popped.parent with
  | nil =>
    rw [hpar] at hroot
    have hcell : popped.cell = s.cell := hroot
    have hsid : popped.id = s.id := congrArg Cell.id hcell
    have hsg : popped.g = s.g := congrArg Cell.g hcell
    have hsiv : popped.interval = s.interval := congrArg Cell.interval hcell
    have hnodes1 : nodes = [withG popped g'] := by
      have : parent_chain (withG popped g').cell (withG popped g').parent
          = [derefParent (withG popped g').cell []] := by
        show parent_chain (withG popped g').cell popped.parent = _
        rw [hpar]; rfl
      rw [this] at hrec
      simp only [insert_waits, Except.ok.injEq] at hrec
      rw [← hrec]
      simp only [derefParent, withG, Node.cell, hpar]
    refine ⟨s, hs, withG popped g', (if g' < goal.interval.1 then [withG popped goal.interval.1]
      else []), ?_, hsiv, hbk, ?_, ?_⟩
    · rw [hnodes, hnodes1]
      split_ifs <;> rfl
    · intro x hx b hb1 _ _ hb4
      split_ifs at hx with hw
      · simp only [List.head?_cons, Option.some.injEq] at hx
        subst hx
        refine Or.inr ⟨by rw [hb1, ← hsid]; rfl, ?_⟩
        show goal.interval.1 > b.g
        rw [hb4, ← hsg]
        exact lt_of_le_of_lt hg hw
      · simp at hx
    · intro htl
      by_cases hw : g' < goal.interval.1
      · rw [if_pos hw] at htl
        simp at htl
      · have hge : goal.interval.1 ≤ g' := not_lt.mp hw
        rcases hg' with h1 | ⟨gk, hk, h1⟩
        · exact ⟨by rw [← hsid]; exact hid, by rw [← hsg, ← h1]; exact le_trans hlo hge⟩
        · have hrel : EndBefore K gk goal := by
            have := hgoals.1
            rw [hsplit] at this
            exact pairwise_split_rel done rest goal gk this hk
          have := hrel.2
          rw [h1] at hge
          linarith
  | cons q qs =>
    rw [hpar] at hroot
    obtain ⟨u, v, tl0, hpc⟩ := parent_chain_two (withG popped g').cell q qs
    have hpc' : parent_chain (withG popped g').cell (withG popped g').parent = u :: v :: tl0 := by
      show parent_chain (withG popped g').cell popped.parent = _
      rw [hpar]; exact hpc
    have hhead := parent_chain_head_root (withG popped g').cell (q :: qs)
    rw [hpc] at hhead
    simp only [List.head?_cons, Option.some.injEq] at hhead
    have hu : u = derefParent s.cell [] := by
      rw [hhead]
      show derefParent (rootCell q qs) [] = _
      have : rootCell popped.cell (q :: qs) = rootCell q qs := rfl
      rw [← this, hroot]
    rw [hpc'] at hrec
    obtain ⟨x, tl1, hout⟩ := insert_waits_two K u v tl0 nodes hrec
    have hp_nodes : p.nodes = u :: (x :: tl1 ++
        (if g' < goal.interval.1 then [withG popped goal.interval.1] else [])) := by
      rw [hnodes, hout]
      split_ifs <;> simp
    refine ⟨s, hs, u, _, hp_nodes, by rw [hu]; rfl, hbk, ?_, ?_⟩
    · intro y hy b hb1 hb2 hb3 hb4
      simp only [List.cons_append, List.head?_cons, Option.some.injEq] at hy
      subst hy
      rw [hp_nodes] at hshape
      have hux : Shape K u x := (List.chain'_cons.mp hshape).1
      have e1 : dist K b x = dist K u x := by
        unfold dist
        rw [hb2, hb3, hu]
        rfl
      unfold Shape at hux ⊢
      rw [e1, hb4, hb1]
      rw [hu] at hux ⊢
      exact hux
    · intro htl
      simp at htl

/-! ### The landmark loop: one segment -/

/-- The consecutive pairs of a sequence are among those of any extension. -/
theorem pairs_append_sublist : ∀ (xs ys : List Node), (pairs xs).Sublist (pairs (xs ++ ys)) := by
  intro xs
  induction xs with
  | nil => intro ys; exact List.nil_sublist _
  | cons a xs ih =>
    intro ys
    cases xs with
    | nil => exact List.nil_sublist _
    | cons b l =>
      have := ih ys
      simp only [List.cons_append, pairs] at this ⊢
      exact List.Sublist.cons₂ _ this

/-- The consecutive pairs of a sequence extended by one node. -/
theorem pairs_concat : ∀ (xs : List Node) (a b : Node), xs.getLast? = some a →
    pairs (xs ++ [b]) = pairs xs ++ [(a, b)] := by
  intro xs
  induction xs with
  | nil => intro a b h; simp at h
  | cons x xs ih =>
    intro a b h
    cases xs with
    | nil =>
      simp only [List.getLast?_singleton, Option.some.injEq] at h
      subst h
      rfl
    | cons y l =>
      rw [List.getLast?_cons_cons] at h
      exact congrArg ((x, y) :: ·) (ih a b h)

/-- A traversal appended at the end of a sequence adds its landmark to those
the sequence honours. -/
theorem honoured_snoc (done : List Move) (lm : Move) (xs zs : List Node) (a b : Node)
    (h : Honoured done xs) (ht : Traverses lm a b)
    (hsub : (pairs xs ++ [(a, b)]).Sublist (pairs zs)) : Honoured (done ++ [lm]) zs := by
  obtain ⟨ps, hf, hs⟩ := h
  refine ⟨ps ++ [(a, b)], ?_, (List.Sublist.append_right hs _).trans hsub⟩
  exact List.rel_append hf (List.Forall₂.cons ht List.Forall₂.nil)

/-- Stitching against no result yields no result. -/
theorem stitch_nil (K : Const) : ∀ parts : List Path, stitch K parts [] = .ok [] := by
  intro parts
  unfold stitch
  induction parts with
  | nil => rfl
  | cons p ps ih =>
    simp only [collect] at ih ⊢
    rw [ih]
    rfl

/-- The results of the first segment: every result has the shape of a path and
ends at the goal vertex of the segment, inside the window, with table
coordinates. -/
theorem segment_first_spec (K : Const) (fuel : Nat) (agent : Agent) (S : Store) (map : Map)
    (h_values : Heuristic) (coord : Int → ℚ × ℚ) (hmap : MapCoord coord map)
    (he : 0 < K.CN_EPSILON) (starts goals : List Node) (lmId : Int) (t1 t2 : ℚ)
    (hgoals : EndInv K t1 t2 goals) (hgid : ∀ g ∈ goals, g.id = lmId)
    (hstartC : ∀ s ∈ starts, CoordOK coord s) (out : List Path)
    (h : segment K fuel agent S map h_values true starts goals [] = .ok (some out)) :
    ∀ r ∈ out, List.Chain' (Shape K) r.nodes ∧
      ∃ b, r.nodes.getLast? = some b ∧ CoordOK coord b ∧ b.id = lmId ∧ t1 ≤ b.g := by
  unfold segment at h
  cases hl : goals.getLast? with
  | none => simp [hl] at h
  | some gl =>
    simp only [hl] at h
    cases hgoal0 : goals.head? with
    | none =>
      rw [List.head?_eq_none_iff] at hgoal0
      rw [hgoal0] at hl
      simp at hl
    | some goal0 =>
      cases hf : find_partial_path K fuel agent S map h_values starts goals gl.interval.2 with
      | error e => simp [hf] at h
      | ok parts =>
        simp only [hf] at h
        rw [stitch_nil K parts] at h
        simp only [if_true, List.append_nil] at h
        split_ifs at h
        · simp at h
        simp only [Except.ok.injEq, Option.some.injEq] at h
        subst h
        intro r hr
        obtain ⟨hr1, hr2⟩ := List.mem_filter.mp hr
        have hne : r.nodes ≠ [] := by
          intro h0
          rw [h0] at hr2
          simp at hr2
        have hspec := find_partial_path_inv K fuel agent S map h_values coord hmap starts goals
          goal0 gl.interval.2 hgoal0 hstartC parts hf r hr1
        obtain ⟨s, _, n0, tl, _, _, ⟨bk, hb1, hb2, hb3, hb4⟩, _, _⟩ :=
          part_facts K S coord starts goals goal0 t1 t2 he hgoals r hspec hne
        refine ⟨partSpec_shape K S coord starts goals goal0 r hspec, bk, hb1, hb3, ?_, hb4⟩
        rw [hb2]
        exact hgid goal0 (List.mem_of_mem_head? hgoal0)

/-- The results of a later segment: every result has the shape of a path,
honours the landmarks traversed so far and ends at the goal vertex of the
segment, inside the window, with table coordinates. -/
theorem segment_next_spec (K : Const) (fuel : Nat) (agent : Agent) (S : Store) (map : Map)
    (h_values : Heuristic) (coord : Int → ℚ × ℚ) (hmap : MapCoord coord map)
    (he : 0 < K.CN_EPSILON) (starts goals : List Node) (results : List Path) (lmId : Int)
    (t1 t2 : ℚ) (done : List Move)
    (hgoals : EndInv K t1 t2 goals) (hgid : ∀ g ∈ goals, g.id = lmId)
    (hback : List.Forall₂ (fun r s => r.nodes.getLast? = some s) results starts)
    (hres : ∀ r ∈ results, ResInv K coord done r) (hsep : BacksSep K results)
    (out : List Path)
    (h : segment K fuel agent S map h_values false starts goals results = .ok (some out)) :
    ∀ r ∈ out, List.Chain' (Shape K) r.nodes ∧ Honoured done r.nodes ∧
      ∃ b, r.nodes.getLast? = some b ∧ CoordOK coord b ∧ b.id = lmId ∧ t1 ≤ b.g := by
  have hstartC : ∀ s ∈ starts, CoordOK coord s := by
    intro s hs
    obtain ⟨r, hr, hrs⟩ := forall₂_mem_right _ _ hback s hs
    obtain ⟨_, _, b, hb, hc⟩ := hres r hr
    rw [hrs] at hb
    simp only [Option.some.injEq] at hb
    rw [hb]; exact hc
  unfold segment at h
  cases hl : goals.getLast? with
  | none => simp [hl] at h
  | some gl =>
    simp only [hl] at h
    cases hgoal0 : goals.head? with
    | none =>
      rw [List.head?_eq_none_iff] at hgoal0
      rw [hgoal0] at hl
      simp at hl
    | some goal0 =>
      have hg0 : goal0.id = lmId := hgid goal0 (List.mem_of_mem_head? hgoal0)
      cases hf : find_partial_path K fuel agent S map h_values starts goals gl.interval.2 with
      | error e => simp [hf] at h
      | ok parts =>
        simp only [hf] at h
        cases hst : stitch K parts results with
        | error e => simp [hst] at h
        | ok stitched =>
          simp only [hst, Bool.false_eq_true, if_false, List.nil_append] at h
          split_ifs at h
          · simp at h
          simp only [Except.ok.injEq, Option.some.injEq] at h
          subst h
          intro r' hr'
          obtain ⟨part, hpart, r, hr, n0, tl, b, hpn, hrb, hc1, _, hr'eq⟩ :=
            stitch_spec K parts results stitched hst r' hr'
          have hspec := find_partial_path_inv K fuel agent S map h_values coord hmap starts goals
            goal0 gl.interval.2 hgoal0 hstartC parts hf part hpart
          have hne : part.nodes ≠ [] := by rw [hpn]; simp
          have hpshape := partSpec_shape K S coord starts goals goal0 part hspec
          obtain ⟨s, hs, n0', tl', hpn', hiv, ⟨bk, hb1, hb2, hb3, hb4⟩, hjoin, hsingle⟩ :=
            part_facts K S coord starts goals goal0 t1 t2 he hgoals part hspec hne
          rw [hpn] at hpn' hb1 hpshape
          obtain ⟨hn0, htl⟩ := List.cons.inj hpn'
          subst hn0 htl
          -- the start node the part grew from is the last node of the result
          obtain ⟨r'', hr'', hr''s⟩ := forall₂_mem_right _ _ hback s hs
          have hbs : b = s := by
            refine hsep r hr r'' hr'' b s hrb hr''s ?_
            rw [abs_sub_comm, ← hiv]
            exact hc1
          subst hbs
          obtain ⟨hrshape, hrhon, b0, hrb0, hrc⟩ := hres r hr
          rw [hrb] at hrb0
          simp only [Option.some.injEq] at hrb0
          subst hrb0
          have hnodes : r'.nodes = r.nodes ++ tl := by
            rw [hr'eq]
            simp only [add_part, hpn, List.tail_cons]
          rw [hnodes]
          refine ⟨?_, ?_, ?_⟩
          · rw [List.chain'_append]
            refine ⟨hrshape, hpshape.tail, ?_⟩
            intro x hx y hy
            rw [hrb] at hx
            simp only [Option.mem_def, Option.some.injEq] at hx
            subst hx
            exact hjoin y hy b rfl rfl rfl rfl
          · obtain ⟨ps, hf2, hs2⟩ := hrhon
            exact ⟨ps, hf2, hs2.trans (pairs_append_sublist _ _)⟩
          · cases tl with
            | nil =>
              obtain ⟨h1, h2⟩ := hsingle rfl
              exact ⟨b, by simpa using hrb, hrc, by rw [h1, hg0], h2⟩
            | cons y tl2 =>
              refine ⟨bk, ?_, hb3, by rw [hb2, hg0], hb4⟩
              rw [List.getLast?_append_of_ne_nil _ (by simp)]
              rw [List.getLast?_cons_cons] at hb1
              exact hb1

/-! ### The landmark loop: the traversal of the landmark edge -/

/-- A value of `check_endpoint` below `CN_INFINITY` is an arrival time: not
before a direct move from the start node, inside the interval of the goal, and
with a departure inside the interval of the start node. -/
theorem check_endpoint_spec (K : Const) (S : Store) (s goal : Node)
    (h : check_endpoint K S s goal < K.CN_INFINITY) :
    s.g + K.sqrt ((s.i - goal.i) ^ 2 + (s.j - goal.j) ^ 2) ≤ check_endpoint K S s goal ∧
      goal.interval.1 ≤ check_endpoint K S s goal ∧
      check_endpoint K S s goal ≤ goal.interval.2 ∧
      check_endpoint K S s goal - K.sqrt ((s.i - goal.i) ^ 2 + (s.j - goal.j) ^ 2)
        ≤ s.interval.2 := by
  unfold check_endpoint at h ⊢
  simp only at h ⊢
  generalize K.sqrt ((s.i - goal.i) ^ 2 + (s.j - goal.j) ^ 2) = cost at h ⊢
  have h0 : s.g ≤ (if s.g + cost < goal.interval.1 then goal.interval.1 - cost else s.g) ∧
      goal.interval.1 ≤ (if s.g + cost < goal.interval.1 then goal.interval.1 - cost else s.g)
        + cost := by
    split_ifs with hc
    · exact ⟨by linarith, by linarith⟩
    · exact ⟨le_refl _, not_lt.mp hc⟩
  generalize (if s.g + cost < goal.interval.1 then goal.interval.1 - cost else s.g) = g0 at h h0 ⊢
  have h1 : g0 ≤ (match S.constraints (s.id, goal.id) with
      | none => g0
      | some l => endpoint_avoid K l g0) := by
    cases S.constraints (s.id, goal.id) with
    | none => exact le_refl _
    | some l => exact le_endpoint_avoid K l g0
  generalize (match S.constraints (s.id, goal.id) with
      | none => g0
      | some l => endpoint_avoid K l g0) = g1 at h h1 ⊢
  split_ifs at h ⊢ with hc
  · exact absurd h (lt_irrefl _)
  · have hc1 : g1 ≤ s.interval.2 := not_lt.mp (fun x => hc (Or.inl x))
    have hc2 : g1 + cost ≤ goal.interval.2 := not_lt.mp (fun x => hc (Or.inr x))
    exact ⟨by linarith [h0.1], by linarith [h0.2], hc2, by linarith⟩

/-- The element right after a prefix is at the index of the length of the
prefix. -/
theorem getElem?_append_cons_length {α : Type} (pre post : List α) (x : α) :
    (pre ++ x :: post)[pre.length]? = some x := by
  induction pre with
  | nil => simp
  | cons a pre ih => simpa using ih

/-- What the loop over `starts` has chosen so far: a value not above
`CN_INFINITY`, and if an index was chosen, the value is `check_endpoint` of the
start node at that index and is below `CN_INFINITY`. -/
theorem best_start_spec (K : Const) (S : Store) (goal : Node) :
    ∀ (starts pre : List Node) (best : Option Nat × ℚ),
      (best.2 ≤ K.CN_INFINITY ∧ ∀ j, best.1 = some j → ∃ s, (pre ++ starts)[j]? = some s ∧
        best.2 = check_endpoint K S s goal ∧ best.2 < K.CN_INFINITY) →
      ((best_start K S goal starts pre.length best).2 ≤ K.CN_INFINITY ∧
        ∀ j, (best_start K S goal starts pre.length best).1 = some j →
          ∃ s, (pre ++ starts)[j]? = some s ∧
            (best_start K S goal starts pre.length best).2 = check_endpoint K S s goal ∧
            (best_start K S goal starts pre.length best).2 < K.CN_INFINITY) := by
  intro starts
  induction starts with
  | nil => intro pre best h; simpa [best_start] using h
  | cons s starts ih =>
    intro pre best h
    simp only [best_start]
    have key := ih (pre ++ [s])
      (if check_endpoint K S s goal < best.2 then (some pre.length, check_endpoint K S s goal)
        else best)
    simp only [List.append_assoc, List.singleton_append, List.length_append, List.length_singleton]
      at key
    apply key
    split_ifs with hc
    · refine ⟨le_of_lt (lt_of_lt_of_le hc h.1), ?_⟩
      intro j hj
      simp only [Option.some.injEq] at hj
      subst hj
      exact ⟨s, getElem?_append_cons_length pre starts s, rfl, lt_of_lt_of_le hc h.1⟩
    · exact h

/-- What the body of the loop over the destination endpoints appends: a result
extended by the destination node, after a wait node when the arrival is more
than `offset + ε` after the last node of the result. -/
theorem traverse_goal_spec (K : Const) (S : Store) (offset : ℚ) (starts : List Node)
    (results : List Path) (goal : Node) (rs : List Path)
    (hback : List.Forall₂ (fun r s => r.nodes.getLast? = some s) results starts)
    (h : traverse_goal K S offset starts results goal = .ok rs) :
    ∀ r' ∈ rs, ∃ r ∈ results, ∃ b, r.nodes.getLast? = some b ∧
      (best_start K S goal starts 0 (none, K.CN_INFINITY)).2 = check_endpoint K S b goal ∧
      check_endpoint K S b goal < K.CN_INFINITY ∧
      r'.nodes = r.nodes ++
        (if check_endpoint K S b goal - b.g > offset + K.CN_EPSILON then
          [{ b with g := check_endpoint K S b goal - offset }] else []) ++
        [landed K S goal (best_start K S goal starts 0 (none, K.CN_INFINITY)).2] := by
  have hbest := best_start_spec K S goal starts [] (none, K.CN_INFINITY)
    ⟨le_refl _, fun j hj => by simp at hj⟩
  simp only [List.length_nil, List.nil_append] at hbest
  unfold traverse_goal at h
  generalize best_start K S goal starts 0 (none, K.CN_INFINITY) = best at h hbest ⊢
  obtain ⟨bi, bg⟩ := best
  cases bi with
  | none => simp only [Except.ok.injEq] at h; subst h; intro r' hr'; simp at hr'
  | some k =>
    simp only at h
    obtain ⟨s, hs, hv, hlt⟩ := hbest.2 k rfl
    simp only at hv hlt
    rw [hs] at h
    cases hr : results[k]? with
    | none => simp [hr] at h
    | some r =>
      simp only [hr] at h
      have hrs := forall₂_getElem? _ _ hback k r s hr hs
      rw [hrs] at h
      simp only at h
      have hg : (landed K S goal bg).g = bg := rfl
      rw [hg] at h
      intro r' hr'
      refine ⟨r, List.getElem?_mem hr, s, hrs, hv, by rw [← hv]; exact hlt, ?_⟩
      rw [← hv]
      split_ifs at h ⊢ with hc
      all_goals
        simp only [Except.ok.injEq] at h
        subst h
        rw [List.mem_singleton.mp hr']
      · simp

/-- Two elements of a pairwise ordered list are equal or ordered one way or the
other. -/
theorem pairwise_mem_rel {α : Type} {R : α → α → Prop} :
    ∀ (l : List α), l.Pairwise R → ∀ a ∈ l, ∀ b ∈ l, a = b ∨ R a b ∨ R b a := by
  intro l
  induction l with
  | nil => intro _ a ha; simp at ha
  | cons x l ih =>
    intro h a ha b hb
    obtain ⟨hx, hl⟩ := List.pairwise_cons.mp h
    rcases List.mem_cons.mp ha with ha | ha
    · rcases List.mem_cons.mp hb with hb | hb
      · exact Or.inl (ha.trans hb.symm)
      · exact Or.inr (Or.inl (ha ▸ hx b hb))
    · rcases List.mem_cons.mp hb with hb | hb
      · exact Or.inr (Or.inr (hb ▸ hx a ha))
      · exact ih hl a ha b hb

/-- The consecutive pairs of a sequence extended by two nodes contain the pair
of those two nodes after the pairs of the sequence. -/
theorem pairs_append_two (xs : List Node) (a b : Node) :
    (pairs xs ++ [(a, b)]).Sublist (pairs (xs ++ [a] ++ [b])) := by
  rw [pairs_concat (xs ++ [a]) a b (by simp)]
  exact List.Sublist.append_right (pairs_append_sublist xs [a]) _

/-- A result that ends at the origin of the landmark edge inside the window,
extended by the traversal of the edge, has the shape of a path, honours the
landmark in addition, and ends with the destination node, which has table
coordinates. -/
theorem landing_inv (K : Const) (he : 0 < K.CN_EPSILON) (coord : Int → ℚ × ℚ) (done : List Move)
    (lm : Move) (hc1 : coord lm.id1 = (lm.i1, lm.j1)) (hc2 : coord lm.id2 = (lm.i2, lm.j2))
    (S : Store) (r : Path) (b goal : Node) (v : ℚ) (nodes' : List Node)
    (hshape : List.Chain' (Shape K) r.nodes) (hhon : Honoured done r.nodes)
    (hrb : r.nodes.getLast? = some b) (hbc : CoordOK coord b) (hbid : b.id = lm.id1)
    (hbt : lm.t1 ≤ b.g) (hgid : goal.id = lm.id2) (hgi : goal.i = lm.i2) (hgj : goal.j = lm.j2)
    (hghi : goal.interval.2 ≤ lm.t2 + K.sqrt ((lm.i1 - lm.i2) ^ 2 + (lm.j1 - lm.j2) ^ 2))
    (hv : v = check_endpoint K S b goal) (hlt : v < K.CN_INFINITY)
    (hnodes : nodes' = r.nodes ++
      (if v - b.g > K.sqrt ((lm.i1 - lm.i2) ^ 2 + (lm.j1 - lm.j2) ^ 2) + K.CN_EPSILON then
        [{ b with g := v - K.sqrt ((lm.i1 - lm.i2) ^ 2 + (lm.j1 - lm.j2) ^ 2) }] else []) ++
      [landed K S goal v]) :
    List.Chain' (Shape K) nodes' ∧ Honoured (done ++ [lm]) nodes' ∧
      nodes'.getLast? = some (landed K S goal v) ∧ CoordOK coord (landed K S goal v) := by
  have hcoordb : b.i = lm.i1 ∧ b.j = lm.j1 := by
    unfold CoordOK at hbc
    rw [hbid, hc1] at hbc
    exact ⟨(Prod.mk.inj hbc).1, (Prod.mk.inj hbc).2⟩
  have hcost : K.sqrt ((b.i - goal.i) ^ 2 + (b.j - goal.j) ^ 2)
      = K.sqrt ((lm.i1 - lm.i2) ^ 2 + (lm.j1 - lm.j2) ^ 2) := by
    rw [hcoordb.1, hcoordb.2, hgi, hgj]
  rw [hv] at hlt
  obtain ⟨f1, f2, f3, _⟩ := check_endpoint_spec K S b goal hlt
  rw [hcost, ← hv] at f1
  rw [← hv] at f2 f3
  generalize K.sqrt ((lm.i1 - lm.i2) ^ 2 + (lm.j1 - lm.j2) ^ 2) = off at *
  have hLc : CoordOK coord (landed K S goal v) := by
    unfold CoordOK
    show (goal.i, goal.j) = coord goal.id
    rw [hgi, hgj, hgid, hc2]
  have hLid : (landed K S goal v).id = lm.id2 := hgid
  have hLg : (landed K S goal v).g = v := rfl
  have hdist : ∀ x : Node, x.i = b.i → x.j = b.j → dist K x (landed K S goal v) = off := by
    intro x hx1 hx2
    unfold dist
    rw [hx1, hx2]
    exact hcost
  subst hnodes
  split_ifs with hw
  · refine ⟨?_, ?_, by simp, hLc⟩
    · rw [List.chain'_append, List.chain'_append]
      refine ⟨⟨hshape, by simp, ?_⟩, by simp, ?_⟩
      · intro x hx y hy
        rw [hrb] at hx
        simp only [Option.mem_def, Option.some.injEq, List.head?_cons] at hx hy
        subst hx hy
        exact Or.inr ⟨rfl, by show v - off > b.g; linarith⟩
      · intro x hx y hy
        simp only [List.getLast?_concat, Option.mem_def, Option.some.injEq, List.head?_cons]
          at hx hy
        subst hx hy
        left
        rw [hdist { b with g := v - off } rfl rfl, hLg]
        show |v - (v - off) - off| ≤ K.CN_EPSILON
        have : v - (v - off) - off = 0 := by ring
        rw [this, abs_zero]
        exact le_of_lt he
    · refine honoured_snoc done lm r.nodes _ _ (landed K S goal v) hhon ?_
        (pairs_append_two r.nodes _ _)
      exact ⟨hbid, hLid, by show lm.t1 ≤ v - off; linarith, by show v - off ≤ lm.t2; linarith⟩
  · have hw' : v - b.g ≤ off + K.CN_EPSILON := not_lt.mp hw
    simp only [List.append_nil]
    refine ⟨?_, ?_, by simp, hLc⟩
    · rw [List.chain'_append]
      refine ⟨hshape, by simp, ?_⟩
      intro x hx y hy
      rw [hrb] at hx
      simp only [Option.mem_def, Option.some.injEq, List.head?_cons] at hx hy
      subst hx hy
      left
      rw [hdist b rfl rfl, hLg, abs_le]
      exact ⟨by linarith, by linarith⟩
    · refine honoured_snoc done lm r.nodes _ b (landed K S goal v) hhon ?_ ?_
      · exact ⟨hbid, hLid, hbt, by linarith⟩
      · rw [pairs_concat r.nodes b _ hrb]

/-- The results of the traversal of a landmark edge: every result has the shape
of a path, honours the landmark in addition to those traversed before, and ends
with a node with table coordinates; and results whose last intervals start
within `ε` of each other end with the same node. -/
theorem traverse_spec (K : Const) (he : 0 < K.CN_EPSILON) (fuel : Nat) (S : Store) (lm : Move)
    (results : List Path) (coord : Int → ℚ × ℚ) (done : List Move)
    (hc1 : coord lm.id1 = (lm.i1, lm.j1)) (hc2 : coord lm.id2 = (lm.i2, lm.j2))
    (ht : lm.t1 ≤ lm.t2) (hS : StoreOrdered S)
    (hres : ∀ r ∈ results, List.Chain' (Shape K) r.nodes ∧ Honoured done r.nodes ∧
      ∃ b, r.nodes.getLast? = some b ∧ CoordOK coord b ∧ b.id = lm.id1 ∧ lm.t1 ≤ b.g)
    (out : List Path) (h : traverse K fuel S lm results = .ok (some out)) :
    (∀ r' ∈ out, ResInv K coord (done ++ [lm]) r') ∧ BacksSep K out := by
  unfold traverse at h
  cases hb : back_nodes results with
  | error e => simp [hb] at h
  | ok starts =>
    simp only [hb] at h
    have hback := back_nodes_forall₂ results starts hb
    cases hge : get_endpoints K fuel S lm.id2 lm.i2 lm.j2
        (lm.t1 + K.sqrt ((lm.i1 - lm.i2) ^ 2 + (lm.j1 - lm.j2) ^ 2))
        (lm.t2 + K.sqrt ((lm.i1 - lm.i2) ^ 2 + (lm.j1 - lm.j2) ^ 2)) with
    | error e => simp [hge] at h
    | ok goals =>
      simp only [hge] at h
      have hE := get_endpoints_inv K (le_of_lt he) fuel S lm.id2 lm.i2 lm.j2 _ _ (by linarith)
        (hS lm.id2) goals hge
      have hN := get_endpoints_nodes K fuel S lm.id2 lm.i2 lm.j2 _ _ goals hge
      split_ifs at h
      · simp at h
      cases hcol : collect (traverse_goal K (touch S lm.id2)
          (K.sqrt ((lm.i1 - lm.i2) ^ 2 + (lm.j1 - lm.j2) ^ 2)) starts results) goals with
      | error e => simp [hcol] at h
      | ok rs =>
        simp only [hcol] at h
        split_ifs at h
        · simp at h
        simp only [Except.ok.injEq, Option.some.injEq] at h
        subst h
        have key : ∀ r' ∈ rs, ∃ goal ∈ goals,
            List.Chain' (Shape K) r'.nodes ∧ Honoured (done ++ [lm]) r'.nodes ∧
            r'.nodes.getLast? = some (landed K (touch S lm.id2) goal
              (best_start K (touch S lm.id2) goal starts 0 (none, K.CN_INFINITY)).2) ∧
            CoordOK coord (landed K (touch S lm.id2) goal
              (best_start K (touch S lm.id2) goal starts 0 (none, K.CN_INFINITY)).2) := by
          intro r' hr'
          obtain ⟨goal, hgoal, ys, hys, hy⟩ := collect_mem _ goals rs hcol r' hr'
          obtain ⟨r, hr, b, hrb, hv, hlt, hnodes⟩ :=
            traverse_goal_spec K _ _ starts results goal ys hback hys r' hy
          obtain ⟨hshape, hhon, b0, hrb0, hbc, hbid, hbt⟩ := hres r hr
          rw [hrb] at hrb0
          simp only [Option.some.injEq] at hrb0
          subst hrb0
          obtain ⟨g1, g2, g3, _, _⟩ := hN goal hgoal
          obtain ⟨_, w2, _⟩ := hE.2 goal hgoal
          refine ⟨goal, hgoal, ?_⟩
          rw [hv]
          exact landing_inv K he coord done lm hc1 hc2 _ r b goal _ r'.nodes hshape hhon hrb hbc
            hbid hbt g1 g2 g3 w2 rfl hlt (by rw [hnodes, hv])
        constructor
        · intro r' hr'
          obtain ⟨goal, _, h1, h2, h3, h4⟩ := key r' hr'
          exact ⟨h1, h2, _, h3, h4⟩
        · intro r1 hr1 r2 hr2 b1 b2 hb1 hb2 habs
          obtain ⟨goal1, hg1, _, _, h13, _⟩ := key r1 hr1
          obtain ⟨goal2, hg2, _, _, h23, _⟩ := key r2 hr2
          rw [h13] at hb1
          rw [h23] at hb2
          simp only [Option.some.injEq] at hb1 hb2
          subst hb1 hb2
          have habs' : |goal1.interval.1 - goal2.interval.1| < K.CN_EPSILON := habs
          rcases pairwise_mem_rel goals hE.1 goal1 hg1 goal2 hg2 with h | h | h
          · rw [h]
          · have := h.2
            rw [abs_lt] at habs'
            linarith [habs'.1]
          · have := h.2
            rw [abs_lt] at habs'
            linarith [habs'.2]

/-! ### The landmark loop -/

/-- The iterations `i ≥ 1` of the landmark loop: every surviving result has the
shape of a path and honours the landmarks traversed before and in the loop. -/
theorem landmark_loop_spec (K : Const) (he : 0 < K.CN_EPSILON) (hinf : 0 ≤ K.CN_INFINITY)
    (fuel : Nat) (agent : Agent) (map : Map) (h_values : Heuristic) (coord : Int → ℚ × ℚ)
    (hmap : MapCoord coord map) :
    ∀ (rem done : List Move) (S : Store) (results out : List Path),
      LandmarkCoord coord rem → (∀ lm ∈ rem, lm.t1 ≤ lm.t2) → StoreOrdered S →
      (∀ r ∈ results, ResInv K coord done r) → BacksSep K results →
      landmark_loop K fuel agent map h_values rem S results = .ok (some out) →
      ∀ r ∈ out, List.Chain' (Shape K) r.nodes ∧ Honoured (done ++ rem) r.nodes := by
  intro rem
  induction rem with
  | nil =>
    intro done S results out _ _ hS hres hsep h
    simp only [landmark_loop] at h
    cases hb : back_nodes results with
    | error e => simp [hb] at h
    | ok starts =>
      simp only [hb] at h
      cases hge : get_endpoints K fuel S agent.goal_id agent.goal_i agent.goal_j 0
          K.CN_INFINITY with
      | error e => simp [hge] at h
      | ok ends =>
        simp only [hge] at h
        cases hl : ends.getLast? with
        | none => simp [hl] at h
        | some gl =>
          simp only [hl] at h
          have hE := get_endpoints_inv K (le_of_lt he) fuel S _ _ _ 0 K.CN_INFINITY hinf
            (hS agent.goal_id) ends hge
          have hgl : gl ∈ ends := List.mem_of_mem_getLast? hl
          have hE1 : EndInv K 0 K.CN_INFINITY [gl] :=
            ⟨List.pairwise_singleton _ _, fun n hn => by
              rw [List.mem_singleton.mp hn]; exact hE.2 gl hgl⟩
          intro r hr
          obtain ⟨h1, h2, _⟩ := segment_next_spec K fuel agent _ map h_values coord hmap he starts
            [gl] results gl.id 0 K.CN_INFINITY done hE1
            (fun g hg => by rw [List.mem_singleton.mp hg])
            (back_nodes_forall₂ results starts hb) hres hsep out h r hr
          rw [List.append_nil]
          exact ⟨h1, h2⟩
  | cons lm rem ih =>
    intro done S results out hlc ht hS hres hsep h
    simp only [landmark_loop] at h
    cases hb : back_nodes results with
    | error e => simp [hb] at h
    | ok starts =>
      simp only [hb] at h
      cases hge : get_endpoints K fuel S lm.id1 lm.i1 lm.j1 lm.t1 lm.t2 with
      | error e => simp [hge] at h
      | ok goals =>
        simp only [hge] at h
        have hlm := hlc lm (List.mem_cons_self _ _)
        have htlm := ht lm (List.mem_cons_self _ _)
        have hE := get_endpoints_inv K (le_of_lt he) fuel S _ _ _ lm.t1 lm.t2 htlm (hS lm.id1)
          goals hge
        have hN := get_endpoints_nodes K fuel S _ _ _ _ _ goals hge
        cases hseg : segment K fuel agent (touch S lm.id1) map h_values false starts goals
            results with
        | error e => simp [hseg] at h
        | ok o1 =>
          cases o1 with
          | none => simp [hseg] at h
          | some results1 =>
            simp only [hseg] at h
            have hres1 := segment_next_spec K fuel agent _ map h_values coord hmap he starts goals
              results lm.id1 lm.t1 lm.t2 done hE (fun g hg => (hN g hg).1)
              (back_nodes_forall₂ results starts hb) hres hsep results1 hseg
            cases htr : traverse K fuel (touch S lm.id1) lm results1 with
            | error e => simp [htr] at h
            | ok o2 =>
              cases o2 with
              | none => simp [htr] at h
              | some results2 =>
                simp only [htr] at h
                obtain ⟨hres2, hsep2⟩ := traverse_spec K he fuel _ lm results1 coord done hlm.1
                  hlm.2 htlm (touch_ordered S lm.id1 hS) hres1 results2 htr
                intro r hr
                have := ih (done ++ [lm]) _ results2 out
                  (fun l hl => hlc l (List.mem_cons_of_mem _ hl))
                  (fun l hl => ht l (List.mem_cons_of_mem _ hl))
                  (touch_ordered _ lm.id2 (touch_ordered S lm.id1 hS)) hres2 hsep2 h r hr
                rw [List.append_assoc] at this
                exact this

/-- The path returned by the landmark branch of `find_path` is empty or has the
shape of a path and honours every landmark, in the order of the landmark
vector. -/
theorem find_path_landmarks_spec (K : Const) (he : 0 < K.CN_EPSILON) (hinf : 0 ≤ K.CN_INFINITY)
    (fuel : Nat) (agent : Agent) (map : Map) (h_values : Heuristic) (coord : Int → ℚ × ℚ)
    (hmap : MapCoord coord map)
    (hstart : coord agent.start_id = (agent.start_i, agent.start_j))
    (S : Store) (lm : Move) (rem : List Move) (hlc : LandmarkCoord coord (lm :: rem))
    (ht : ∀ l ∈ lm :: rem, l.t1 ≤ l.t2) (hS : StoreOrdered S) (p : Path)
    (h : find_path_landmarks K fuel agent map h_values S lm rem = .ok p) :
    p.nodes = [] ∨ (List.Chain' (Shape K) p.nodes ∧ Honoured (lm :: rem) p.nodes) := by
  unfold find_path_landmarks at h
  cases hse : get_endpoints K fuel S agent.start_id agent.start_i agent.start_j 0
      K.CN_INFINITY with
  | error e => simp [hse] at h
  | ok ends =>
    simp only [hse] at h
    cases ends with
    | nil => simp at h
    | cons st rest =>
      simp only at h
      have hst := get_endpoints_nodes K fuel S _ _ _ _ _ _ hse st (List.mem_cons_self _ _)
      have hstartC : ∀ s ∈ [st], CoordOK coord s := by
        intro s hs
        rw [List.mem_singleton.mp hs]
        unfold CoordOK
        rw [hst.1, hst.2.1, hst.2.2.1, hstart]
      have hS1 := touch_ordered S agent.start_id hS
      cases hge : get_endpoints K fuel (touch S agent.start_id) lm.id1 lm.i1 lm.j1 lm.t1
          lm.t2 with
      | error e => simp [hge] at h
      | ok goals =>
        simp only [hge] at h
        have hlm := hlc lm (List.mem_cons_self _ _)
        have htlm := ht lm (List.mem_cons_self _ _)
        have hE := get_endpoints_inv K (le_of_lt he) fuel _ _ _ _ lm.t1 lm.t2 htlm
          (hS1 lm.id1) goals hge
        have hN := get_endpoints_nodes K fuel _ _ _ _ _ _ goals hge
        have hS2 := touch_ordered _ lm.id1 hS1
        cases hseg : segment K fuel agent (touch (touch S agent.start_id) lm.id1) map h_values
            true [st] goals [] with
        | error e => simp [hseg] at h
        | ok o1 =>
          cases o1 with
          | none =>
            simp only [hseg, Except.ok.injEq] at h
            subst h
            exact Or.inl rfl
          | some results1 =>
            simp only [hseg] at h
            have hres1 := segment_first_spec K fuel agent _ map h_values coord hmap he [st] goals
              lm.id1 lm.t1 lm.t2 hE (fun g hg => (hN g hg).1) hstartC results1 hseg
            have hres1' : ∀ r ∈ results1, List.Chain' (Shape K) r.nodes ∧ Honoured [] r.nodes ∧
                ∃ b, r.nodes.getLast? = some b ∧ CoordOK coord b ∧ b.id = lm.id1 ∧
                  lm.t1 ≤ b.g := by
              intro r hr
              obtain ⟨h1, h2⟩ := hres1 r hr
              exact ⟨h1, ⟨[], List.Forall₂.nil, List.nil_sublist _⟩, h2⟩
            cases htr : traverse K fuel (touch (touch S agent.start_id) lm.id1) lm results1 with
            | error e => simp [htr] at h
            | ok o2 =>
              cases o2 with
              | none =>
                simp only [htr, Except.ok.injEq] at h
                subst h
                exact Or.inl rfl
              | some results2 =>
                simp only [htr] at h
                obtain ⟨hres2, hsep2⟩ := traverse_spec K he fuel _ lm results1 coord [] hlm.1
                  hlm.2 htlm hS2 hres1' results2 htr
                cases hll : landmark_loop K fuel agent map h_values rem
                    (touch (touch (touch S agent.start_id) lm.id1) lm.id2) results2 with
                | error e => simp [hll] at h
                | ok o3 =>
                  cases o3 with
                  | none =>
                    simp only [hll, Except.ok.injEq] at h
                    subst h
                    exact Or.inl rfl
                  | some out =>
                    simp only [hll] at h
                    cases out with
                    | nil => simp at h
                    | cons r rs =>
                      simp only at h
                      have := landmark_loop_spec K he hinf fuel agent map h_values coord hmap rem
                        ([] ++ [lm]) _ results2 (r :: rs)
                        (fun l hl => hlc l (List.mem_cons_of_mem _ hl))
                        (fun l hl => ht l (List.mem_cons_of_mem _ hl))
                        (touch_ordered _ lm.id2 hS2) hres2 hsep2 hll r (List.mem_cons_self _ _)
                      right
                      rw [finish_nodes agent r p h]
                      simpa using this

/-! ### The landmark vector -/

/-- Inserting a landmark keeps the landmark vector sorted by `t1`. -/
theorem insert_landmark_sorted (m : Move) (l : List Move)
    (h : l.Sorted (fun a b => a.t1 ≤ b.t1)) :
    (insert_landmark m l).Sorted (fun a b => a.t1 ≤ b.t1) := by
  induction l with
  | nil => simp [insert_landmark]
  | cons a l ih =>
    obtain ⟨ha, hl⟩ := List.sorted_cons.mp h
    simp only [insert_landmark]
    split_ifs with hc
    · refine List.sorted_cons.mpr ⟨?_, h⟩
      intro b hb
      rcases List.mem_cons.mp hb with rfl | hb
      · exact le_of_lt hc
      · exact le_trans (le_of_lt hc) (ha b hb)
    · refine List.sorted_cons.mpr ⟨?_, ih hl⟩
      intro b hb
      rcases (mem_insert_landmark m b l).mp hb with rfl | hb
      · exact not_lt.mp hc
      · exact ha b hb

/-- One constraint keeps the landmark vector sorted and keeps its landmarks. -/
theorem make_constraint_landmarks_grow (K : Const) (agent : Agent) (S : Store) (con : Constraint)
    (h : S.landmarks.Sorted (fun a b => a.t1 ≤ b.t1)) :
    (make_constraint K agent S con).landmarks.Sorted (fun a b => a.t1 ≤ b.t1) ∧
      (∀ lm ∈ S.landmarks, lm ∈ (make_constraint K agent S con).landmarks) ∧
      (con.positive = true → con.agent = agent.id →
        Move.ofConstraint con ∈ (make_constraint K agent S con).landmarks) := by
  unfold make_constraint
  split_ifs with h1 h2 h3
  · exact ⟨h, fun _ hl => hl, fun hp => by simp [h1] at hp⟩
  · exact ⟨h, fun _ hl => hl, fun hp => by simp [h1] at hp⟩
  · exact ⟨insert_landmark_sorted _ _ h, fun lm hl => (mem_insert_landmark _ _ _).mpr (Or.inr hl),
      fun _ _ => (mem_insert_landmark _ _ _).mpr (Or.inl rfl)⟩
  · exact ⟨h, fun _ hl => hl, fun _ ha => absurd ha h3⟩

/-- `make_constraints` keeps the landmark vector sorted by `t1`, keeps its
landmarks and adds one for every positive constraint that names the agent. -/
theorem make_constraints_landmarks_grow (K : Const) (agent : Agent) (cons : List Constraint)
    (S : Store) (h : S.landmarks.Sorted (fun a b => a.t1 ≤ b.t1)) :
    (make_constraints K agent S cons).landmarks.Sorted (fun a b => a.t1 ≤ b.t1) ∧
      (∀ lm ∈ S.landmarks, lm ∈ (make_constraints K agent S cons).landmarks) ∧
      (∀ c ∈ cons, c.positive = true → c.agent = agent.id →
        Move.ofConstraint c ∈ (make_constraints K agent S cons).landmarks) := by
  induction cons generalizing S with
  | nil => exact ⟨h, fun _ hl => hl, fun c hc => by simp at hc⟩
  | cons con rest ih =>
    obtain ⟨g1, g2, g3⟩ := make_constraint_landmarks_grow K agent S con h
    obtain ⟨i1, i2, i3⟩ := ih (make_constraint K agent S con) g1
    simp only [make_constraints, List.foldl_cons] at i1 i2 i3 ⊢
    refine ⟨i1, fun lm hl => i2 lm (g2 lm hl), ?_⟩
    intro c hc hp ha
    rcases List.mem_cons.mp hc with rfl | hc
    · exact i2 _ (g3 hp ha)
    · exact i3 c hc hp ha

/-! ### The collision store of an input with one wait constraint per vertex -/

/-- Adding an interval to a vertex without entry stores that interval alone. -/
theorem add_collision_list_none (K : Const) (iv : ℚ × ℚ) :
    add_collision_list K none iv = [iv] := by
  simp [add_collision_list, coalesce, coalesceFrom]

/-- The collision entries after one constraint: a negative wait constraint
writes the entry of its vertex, any other constraint writes none. -/
theorem make_constraint_collisions (K : Const) (agent : Agent) (S : Store) (con : Constraint)
    (id : Int) :
    (make_constraint K agent S con).collision_intervals id =
      if WaitOn con id then
        some (add_collision_list K (S.collision_intervals id) (con.t1, con.t2))
      else S.collision_intervals id := by
  unfold make_constraint WaitOn
  by_cases h1 : con.positive = false
  · by_cases h2 : con.id1 = con.id2
    · simp only [h1, h2, if_true, add_collision_interval]
      by_cases h3 : id = con.id2
      · simp [h3]
      · have : ¬ con.id2 = id := fun h => h3 h.symm
        simp [h3, this]
    · simp only [h1, h2, if_true, if_false]
      have : ¬ (con.id1 = id ∧ con.id2 = id) := fun h => h2 (h.1.trans h.2.symm)
      simp only [true_and, this, if_false]
      rfl
  · have hw : ¬ (con.positive = false ∧ con.id1 = id ∧ con.id2 = id) := fun h => h1 h.1
    rw [if_neg h1]
    simp only [hw, if_false]
    split_ifs <;> rfl

/-- For an input whose negative wait constraints are on distinct vertices and
whose vertices have no entry yet, `make_constraints` stores for the vertex of
each such constraint its interval alone, and every entry it stores was there
before or is of that kind. -/
theorem make_constraints_single (K : Const) (agent : Agent) (cons : List Constraint)
    (hd : WaitsDistinct cons) (S : Store)
    (hfree : ∀ c ∈ cons, ∀ id, WaitOn c id → S.collision_intervals id = none) :
    (∀ c ∈ cons, ∀ id, WaitOn c id →
        (make_constraints K agent S cons).collision_intervals id = some [(c.t1, c.t2)]) ∧
      (∀ id l, (make_constraints K agent S cons).collision_intervals id = some l →
        S.collision_intervals id = some l ∨
          ∃ c ∈ cons, WaitOn c id ∧ l = [(c.t1, c.t2)]) ∧
      (∀ id, (∀ c ∈ cons, ¬ WaitOn c id) →
        (make_constraints K agent S cons).collision_intervals id = S.collision_intervals id) := by
  induction cons generalizing S with
  | nil =>
    refine ⟨fun c hc => by simp at hc, fun id l h => Or.inl h, fun id _ => rfl⟩
  | cons con rest ih =>
    obtain ⟨hcon, hrest⟩ := List.pairwise_cons.mp hd
    have hfree1 : ∀ c ∈ rest, ∀ id, WaitOn c id →
        (make_constraint K agent S con).collision_intervals id = none := by
      intro c hc id hw
      rw [make_constraint_collisions]
      have : ¬ WaitOn con id := fun h => hcon c hc id h hw
      rw [if_neg this]
      exact hfree c (List.mem_cons_of_mem _ hc) id hw
    obtain ⟨i1, i2, i3⟩ := ih hrest (make_constraint K agent S con) hfree1
    simp only [make_constraints, List.foldl_cons] at i1 i2 i3 ⊢
    refine ⟨?_, ?_, ?_⟩
    · intro c hc id hw
      rcases List.mem_cons.mp hc with rfl | hc
      · rw [i3 id (fun c' hc' h' => hcon c' hc' id hw h'), make_constraint_collisions,
          if_pos hw, hfree c (List.mem_cons_self _ _) id hw, add_collision_list_none]
      · exact i1 c hc id hw
    · intro id l hl
      rcases i2 id l hl with h | ⟨c, hc, hw, h⟩
      · rw [make_constraint_collisions] at h
        split_ifs at h with hw
        · right
          rw [hfree con (List.mem_cons_self _ _) id hw, add_collision_list_none] at h
          simp only [Option.some.injEq] at h
          exact ⟨con, List.mem_cons_self _ _, hw, h.symm⟩
        · exact Or.inl h
      · exact Or.inr ⟨c, List.mem_cons_of_mem _ hc, hw, h⟩
    · intro id hno
      rw [i3 id (fun c hc => hno c (List.mem_cons_of_mem _ hc)), make_constraint_collisions,
        if_neg (hno con (List.mem_cons_self _ _))]

/-- An entry read after `operator[]` was there before or is the empty vector
created for a vertex without entry. -/
theorem touch_some (S : Store) (a b : Int) (l : List (ℚ × ℚ))
    (h : (touch S a).collision_intervals b = some l) :
    S.collision_intervals b = some l ∨ (S.collision_intervals b = none ∧ l = []) := by
  simp only [touch] at h
  split_ifs at h with hb
  · subst hb
    cases hs : S.collision_intervals b with
    | none =>
      simp only [hs, Option.getD_none, Option.some.injEq] at h
      exact Or.inr ⟨rfl, h.symm⟩
    | some l' =>
      simp only [hs, Option.getD_some, Option.some.injEq] at h
      exact Or.inl (by rw [h])
  · exact Or.inl h

/-- `operator[]` keeps the entries that exist. -/
theorem touch_keeps (S : Store) (a b : Int) (l : List (ℚ × ℚ))
    (h : S.collision_intervals b = some l) : (touch S a).collision_intervals b = some l := by
  simp only [touch]
  split_ifs with hb
  · subst hb
    simp [h]
  · exact h

/-! ### The endpoints of a vertex with at most one collision interval -/

/-- Without a collision interval, `get_endpoints` returns the window. -/
theorem get_endpoints_free (K : Const) (fuel : Nat) (S : Store) (id : Int) (i j t1 t2 : ℚ)
    (hS : S.collision_intervals id = none ∨ S.collision_intervals id = some [])
    (out : List Node) (h : get_endpoints K fuel S id i j t1 t2 = .ok out) :
    out = [endpoint_node id i j t1 t2] := by
  unfold get_endpoints at h
  rcases hS with hS | hS
  all_goals
    rw [hS] at h
    simp only [Except.ok.injEq] at h
    exact h.symm

/-- With the single collision interval `c`, which starts after `ε`, has
`lo ≤ hi` and ends before `∞ − ε`, `get_endpoints` splits the window `[0, ∞]`
into `[0, c.lo]` and `[c.hi, ∞]`. -/
theorem get_endpoints_single (K : Const) (he : 0 < K.CN_EPSILON) (fuel : Nat) (S : Store)
    (id : Int) (i j : ℚ) (c : ℚ × ℚ) (hS : S.collision_intervals id = some [c])
    (h1 : K.CN_EPSILON < c.1) (h2 : c.1 ≤ c.2) (h3 : c.2 + K.CN_EPSILON < K.CN_INFINITY)
    (out : List Node) (h : get_endpoints K fuel S id i j 0 K.CN_INFINITY = .ok out) :
    out = [endpoint_node id i j 0 c.1, endpoint_node id i j c.2 K.CN_INFINITY] := by
  have e1 : endpoint_step K (endpoint_node id i j) c [endpoint_node id i j 0 K.CN_INFINITY] 0
      (endpoint_node id i j 0 K.CN_INFINITY)
      = some [endpoint_node id i j 0 c.1, endpoint_node id i j c.2 K.CN_INFINITY] := by
    unfold endpoint_step
    have a1 : ¬ c.1 - K.CN_EPSILON < (endpoint_node id i j 0 K.CN_INFINITY).interval.1 := by
      show ¬ c.1 - K.CN_EPSILON < 0
      linarith
    have a3 : c.1 - K.CN_EPSILON > (endpoint_node id i j 0 K.CN_INFINITY).interval.1 ∧
        c.2 + K.CN_EPSILON < (endpoint_node id i j 0 K.CN_INFINITY).interval.2 :=
      ⟨by show c.1 - K.CN_EPSILON > 0; linarith, h3⟩
    rw [if_neg (fun h => a1 h.1), if_neg (fun h => a1 h.1), if_pos a3]
    rfl
  have e2 : endpoint_step K (endpoint_node id i j) c
      [endpoint_node id i j 0 c.1, endpoint_node id i j c.2 K.CN_INFINITY] 0
      (endpoint_node id i j 0 c.1) = none := by
    unfold endpoint_step
    have a1 : ¬ c.1 - K.CN_EPSILON < (endpoint_node id i j 0 c.1).interval.1 := by
      show ¬ c.1 - K.CN_EPSILON < 0
      linarith
    have a3 : ¬ c.2 + K.CN_EPSILON < (endpoint_node id i j 0 c.1).interval.2 := by
      show ¬ c.2 + K.CN_EPSILON < c.1
      linarith
    have a4 : ¬ c.1 < (endpoint_node id i j 0 c.1).interval.2 := lt_irrefl _
    rw [if_neg (fun h => a1 h.1), if_neg (fun h => a1 h.1), if_neg (fun h => a3 h.2),
      if_neg (fun h => a4 h.1)]
  have e3 : endpoint_step K (endpoint_node id i j) c
      [endpoint_node id i j 0 c.1, endpoint_node id i j c.2 K.CN_INFINITY] 1
      (endpoint_node id i j c.2 K.CN_INFINITY) = none := by
    unfold endpoint_step
    have a1 : ¬ c.2 + K.CN_EPSILON > (endpoint_node id i j c.2 K.CN_INFINITY).interval.2 := by
      show ¬ c.2 + K.CN_EPSILON > K.CN_INFINITY
      linarith
    have a2 : ¬ c.2 > (endpoint_node id i j c.2 K.CN_INFINITY).interval.1 := lt_irrefl _
    have a3 : ¬ c.1 - K.CN_EPSILON > (endpoint_node id i j c.2 K.CN_INFINITY).interval.1 := by
      show ¬ c.1 - K.CN_EPSILON > c.2
      linarith
    rw [if_neg (fun h => a1 h.2), if_neg (fun h => a2 h.2), if_neg (fun h => a3 h.1),
      if_neg (fun h => a1 h.2)]
  unfold get_endpoints at h
  rw [hS] at h
  simp only at h
  cases fuel with
  | zero => simp [get_endpoints_loop] at h
  | succ fuel =>
    simp only [get_endpoints_loop, List.getElem?_cons_zero, e1] at h
    cases fuel with
    | zero => simp [get_endpoints_loop] at h
    | succ fuel =>
      simp only [get_endpoints_loop, List.getElem?_cons_zero, e2] at h
      cases fuel with
      | zero => simp [get_endpoints_loop] at h
      | succ fuel =>
        simp only [get_endpoints_loop, List.getElem?_cons_zero, List.getElem?_cons_succ, zero_add,
          e3] at h
        cases fuel with
        | zero => simp [get_endpoints_loop] at h
        | succ fuel =>
          simp only [get_endpoints_loop, List.getElem?_cons_zero, List.getElem?_cons_succ,
            List.getElem?_nil] at h
          cases fuel with
          | zero => simp [get_endpoints_loop] at h
          | succ fuel =>
            simp only [get_endpoints_loop, List.getElem?_cons_succ, List.getElem?_nil,
              Except.ok.injEq] at h
            exact h.symm

/-! ### Vertex safety without landmarks, one wait constraint per vertex -/

/-- A property of cells that holds at the root and passes along every link holds
for every node of the parent chain. -/
theorem parent_chain_all (Q : Cell → Prop) (R : Cell → Cell → Prop)
    (hstep : ∀ p c, R p c → Q c) (c : Cell) (ps : List Cell) (hroot : Q (rootCell c ps))
    (hlink : Linked R c ps) : ∀ n ∈ parent_chain c ps, Q n.cell := by
  induction ps generalizing c with
  | nil =>
    intro n hn
    simp only [parent_chain, List.mem_singleton] at hn
    subst hn
    exact hroot
  | cons p rest ih =>
    intro n hn
    simp only [parent_chain, List.mem_append, List.mem_singleton] at hn
    rcases hn with hn | rfl
    · exact ih p hroot hlink.2 n hn
    · exact hstep p c hlink.1

/-- On a linked chain of nodes whose intervals are safe from their arrival on,
the path with the inserted waits leaves no vertex inside a forbidden wait
interval of that vertex. -/
theorem insert_waits_safe (K : Const) (h0 : K.sqrt 0 = 0) (S : Store) (cons : List Constraint) :
    ∀ (ns out : List Node),
      List.Chain' (fun u v => Link K S u.cell v.cell) ns →
      (∀ n ∈ ns, SafeAt cons n) →
      insert_waits K ns = .ok out → List.Chain' (SafeStep K cons) out := by
  intro ns
  induction ns with
  | nil => intro out _ _ h; simp [insert_waits] at h; subst h; simp
  | cons u rest ih =>
    cases rest with
    | nil => intro out _ _ h; simp [insert_waits] at h; subst h; simp
    | cons v rest =>
      intro out hc hs h
      obtain ⟨huv, hc'⟩ := List.chain'_cons.mp hc
      have hmove : u.g + dist K u v ≤ v.g := huv.1
      have hleave : v.g - dist K u v ≤ u.interval.2 := huv.2.1
      have hu : SafeAt cons u := hs u (List.mem_cons_self _ _)
      have hs' : ∀ n ∈ v :: rest, SafeAt cons n := fun n hn => hs n (List.mem_cons_of_mem _ hn)
      simp only [insert_waits] at h
      split_ifs at h with h1 h2
      · cases hr : insert_waits K (v :: rest) with
        | error e => simp [hr, Except.map] at h
        | ok l =>
          simp only [hr, Except.map, Except.ok.injEq] at h
          subst h
          have hl := ih l hc' hs' hr
          have hhead := insert_waits_head K _ l hr
          cases l with
          | nil => simp at hhead
          | cons a l' =>
            simp only [List.head?_cons, Option.some.injEq] at hhead
            subst hhead
            refine List.chain'_cons.mpr ⟨?_, List.chain'_cons.mpr ⟨?_, hl⟩⟩
            · intro c hc hw
              rcases hu c hc hw with h | h
              · left
                show a.g - dist K a u - K.sqrt ((u.i - u.i) ^ 2 + (u.j - u.j) ^ 2) ≤ c.t1
                have e : (u.i - u.i) ^ 2 + (u.j - u.j) ^ 2 = 0 := by ring
                rw [e, h0, dist_comm K a u]
                linarith
              · exact Or.inr h
            · intro c hc hw
              rcases hu c hc hw with h | h
              · left
                show a.g - dist K u a ≤ c.t1
                linarith
              · right
                show c.t2 ≤ a.g - dist K a u
                rw [dist_comm K a u]
                linarith
      · cases hr : insert_waits K (v :: rest) with
        | error e => simp [hr, Except.map] at h
        | ok l =>
          simp only [hr, Except.map, Except.ok.injEq] at h
          subst h
          have hl := ih l hc' hs' hr
          have hhead := insert_waits_head K _ l hr
          cases l with
          | nil => simp at hhead
          | cons a l' =>
            simp only [List.head?_cons, Option.some.injEq] at hhead
            subst hhead
            refine List.chain'_cons.mpr ⟨?_, hl⟩
            intro c hc hw
            rcases hu c hc hw with h | h
            · exact Or.inl (le_trans hleave h)
            · exact Or.inr h

/-- A cell that `find_successors` links to its parent is placed, when the store
holds exactly the wait constraints of the input and the empty vector for a goal
vertex without constraint. -/
theorem link_placed (K : Const) (S : Store) (cons : List Constraint) (goal_id : Int)
    (hS : ∀ con ∈ cons, ∀ id, WaitOn con id →
      S.collision_intervals id = some [(con.t1, con.t2)])
    (hg : (∀ con ∈ cons, ¬ WaitOn con goal_id) → S.collision_intervals goal_id = some [])
    (p c : Cell) (hl : Link K S p c) : Placed K cons goal_id c := by
  obtain ⟨_, _, hlo, _, t, hint⟩ := hl
  refine ⟨fun con hc hw => ?_, fun hid hno => ?_⟩
  · rw [hS con hc c.id hw] at hint
    simp only [successor_intervals, safe_intervals_from, List.mem_cons, List.mem_singleton,
      List.not_mem_nil, or_false] at hint
    exact ⟨hint, hlo⟩
  · rw [hid] at hno hint
    rw [hg hno] at hint
    simp only [successor_intervals, safe_intervals_from, List.mem_singleton] at hint
    rw [hint] at hlo
    exact hlo

/-- A placed node is safe at its vertex from its arrival on. -/
theorem placed_safeAt (K : Const) (cons : List Constraint) (goal_id : Int) (n : Node)
    (h : Placed K cons goal_id n.cell) : SafeAt cons n := by
  intro c hc hw
  obtain ⟨hi, hlo⟩ := h.1 c hc hw
  rcases hi with hi | hi
  · left
    have e : n.interval.2 = c.t1 := congrArg Prod.snd hi
    rw [e]
  · right
    have e : n.interval.1 = c.t2 := congrArg Prod.fst hi
    have hlo' : n.interval.1 ≤ n.g := hlo
    linarith

/-- After `operator[]` on the start and on the goal vertex, a goal vertex
without entry holds the empty vector. -/
theorem touch_goal_empty (S : Store) (a b : Int) (h : S.collision_intervals b = none) :
    (touch (touch S a) b).collision_intervals b = some [] ∧
      ((touch S a).collision_intervals b = none ∨ (touch S a).collision_intervals b = some []) := by
  by_cases hb : b = a
  · subst hb
    simp [touch, h]
  · simp [touch, h, hb]

/-- Without a landmark for the agent and with at most one wait constraint per
vertex, each starting after `ε`, at least `ε` long and ending before `∞ − ε`,
every step of the path returned by `find_path` leaves its vertex no later than
the forbidden wait interval of that vertex starts, or arrives there no earlier
than it ends. -/
theorem find_path_waits_safe (K : Const) (he : 0 < K.CN_EPSILON) (h0 : K.sqrt 0 = 0)
    (fuel : Nat) (agent : Agent) (map : Map) (cons : List Constraint) (h_values : Heuristic)
    (coord : Int → ℚ × ℚ) (hmap : MapCoord coord map)
    (hstart : coord agent.start_id = (agent.start_i, agent.start_j))
    (hnl : NoLandmark agent cons) (hd : WaitsDistinct cons) (hp : WaitsProper K cons)
    (p : Path) (h : find_path K fuel agent map cons h_values = .ok p) :
    List.Chain' (SafeStep K cons) p.nodes := by
  unfold find_path at h
  simp only at h
  have hl : (make_constraints K agent clear cons).landmarks = [] :=
    make_constraints_landmarks K agent cons hnl clear
  rw [hl] at h
  simp only at h
  obtain ⟨s1, _, s3⟩ := make_constraints_single K agent cons hd clear (fun _ _ _ _ => rfl)
  generalize make_constraints K agent clear cons = S at h s1 s3
  rcases find_path_direct_spec K fuel agent map h_values S coord hmap hstart p h with
    hnil | ⟨ends, gends, st, gl, hends, hst, hgends, hgl, hspec⟩
  · rw [hnil]; exact List.chain'_nil
  rcases hspec with hnil | ⟨popped, goal, g', nodes, hinv, _, hid, ⟨done, rest, hgoals, hg'⟩,
    _, h6, hrec, hnodes⟩
  · rw [hnil]; exact List.chain'_nil
  have hdone : done = [] ∧ goal = gl := by
    cases done with
    | nil =>
      simp only [List.nil_append, List.cons.injEq] at hgoals
      exact ⟨rfl, hgoals.1.symm⟩
    | cons d ds =>
      have := congrArg List.length hgoals
      simp at this
  obtain ⟨rfl, rfl⟩ := hdone
  have hgp : g' = popped.g := by
    rcases hg' with hg' | ⟨gk, hgk, _⟩
    · exact hg'
    · simp at hgk
  subst hgp
  have hS2 : ∀ con ∈ cons, ∀ id, WaitOn con id →
      (touch (touch S agent.start_id) agent.goal_id).collision_intervals id
        = some [(con.t1, con.t2)] :=
    fun con hc id hw => touch_keeps _ _ _ _ (touch_keeps _ _ _ _ (s1 con hc id hw))
  have hS2g : (∀ con ∈ cons, ¬ WaitOn con agent.goal_id) →
      (touch (touch S agent.start_id) agent.goal_id).collision_intervals agent.goal_id
        = some [] :=
    fun hno => (touch_goal_empty S _ _ (s3 agent.goal_id hno)).1
  have hstn := get_endpoints_nodes K fuel S _ _ _ _ _ _ hends st (List.mem_of_mem_head? hst)
  have hgn := get_endpoints_nodes K fuel _ _ _ _ _ _ _ hgends goal
    (List.mem_of_mem_getLast? hgl)
  have hroot : Placed K cons agent.goal_id st.cell := by
    refine ⟨fun con hc hw => ?_, fun _ _ => ?_⟩
    · have hw' : WaitOn con agent.start_id := by
        rw [← hstn.1]
        exact hw
      obtain ⟨p1, p2, p3⟩ := hp con hc _ hw'
      have e := get_endpoints_single K he fuel S agent.start_id _ _ (con.t1, con.t2)
        (s1 con hc _ hw') p1 (by show con.t1 ≤ con.t2; linarith) p3 ends hends
      rw [e] at hst
      simp only [List.head?_cons, Option.some.injEq] at hst
      subst hst
      exact ⟨Or.inl rfl, le_refl _⟩
    · show 0 ≤ st.g
      rw [hstn.2.2.2.1]
  obtain ⟨_, hlinked, s, hs, hrootEq⟩ := hinv
  have hs' : s = st := List.mem_singleton.mp hs
  subst hs'
  have hall := parent_chain_all (Placed K cons agent.goal_id)
    (Link K (touch (touch S agent.start_id) agent.goal_id))
    (link_placed K _ cons agent.goal_id hS2 hS2g) popped.cell popped.parent
    (by rw [hrootEq]; exact hroot) hlinked
  have hQp : Placed K cons agent.goal_id popped.cell :=
    hall _ (List.mem_of_mem_getLast? (parent_chain_getLast popped.cell popped.parent))
  have hidg : popped.id = agent.goal_id := by rw [hid, hgn.1]
  have hnw : ¬ popped.g < goal.interval.1 := by
    by_cases hex : ∃ con ∈ cons, WaitOn con agent.goal_id
    · obtain ⟨con, hc, hw⟩ := hex
      obtain ⟨p1, p2, p3⟩ := hp con hc _ hw
      have e := get_endpoints_single K he fuel (touch S agent.start_id) agent.goal_id _ _
        (con.t1, con.t2) (touch_keeps _ _ _ _ (s1 con hc _ hw)) p1
        (by show con.t1 ≤ con.t2; linarith) p3 gends hgends
      rw [e] at hgl
      simp only [List.getLast?_cons_cons, List.getLast?_singleton, Option.some.injEq] at hgl
      subst hgl
      have hw' : WaitOn con popped.cell.id := by
        show WaitOn con popped.id
        rw [hidg]
        exact hw
      obtain ⟨hi, hlo⟩ := hQp.1 con hc hw'
      have h6' : con.t2 - K.CN_EPSILON < popped.interval.2 := h6
      have hlo' : popped.interval.1 ≤ popped.g := hlo
      show ¬ popped.g < con.t2
      rcases hi with hi | hi
      · have e2 : popped.interval.2 = con.t1 := congrArg Prod.snd hi
        linarith
      · have e1 : popped.interval.1 = con.t2 := congrArg Prod.fst hi
        linarith
    · push_neg at hex
      have e := get_endpoints_free K fuel (touch S agent.start_id) agent.goal_id _ _ 0
        K.CN_INFINITY (touch_goal_empty S _ _ (s3 agent.goal_id hex)).2 gends hgends
      rw [e] at hgl
      simp only [List.getLast?_singleton, Option.some.injEq] at hgl
      subst hgl
      have hpos : 0 ≤ popped.g := hQp.2 hidg (by
        intro con hc hw
        exact hex con hc (by rw [← hidg]; exact hw))
      show ¬ popped.g < 0
      linarith
  rw [hnodes, if_neg hnw]
  exact insert_waits_safe K h0 _ cons _ nodes (parent_chain_chain _ _ _ hlinked)
    (fun n hn => placed_safeAt K cons agent.goal_id n (hall n hn)) hrec

/-! ### The landmark vector is the stable sort of the landmarks of the input -/

/-- Inserting a landmark adds it to the vector. -/
theorem insert_landmark_perm (m : Move) (l : List Move) :
    (insert_landmark m l).Perm (l ++ [m]) := by
  induction l with
  | nil => simp [insert_landmark]
  | cons a l ih =>
    simp only [insert_landmark]
    split_ifs with hc
    · exact (List.perm_append_singleton m (a :: l)).symm
    · exact List.Perm.cons a ih

/-- In a sorted vector the inserted landmark comes after the landmarks with the
same `t1`. -/
theorem insert_landmark_filter (m : Move) (l : List Move)
    (h : l.Sorted (fun a b => a.t1 ≤ b.t1)) (t : ℚ) :
    (insert_landmark m l).filter (fun x => decide (x.t1 = t))
      = l.filter (fun x => decide (x.t1 = t)) ++ [m].filter (fun x => decide (x.t1 = t)) := by
  induction l with
  | nil => simp [insert_landmark]
  | cons a l ih =>
    obtain ⟨ha, hl⟩ := List.sorted_cons.mp h
    simp only [insert_landmark]
    split_ifs with hc
    · by_cases hm : m.t1 = t
      · have hnone : (a :: l).filter (fun x => decide (x.t1 = t)) = [] := by
          rw [List.filter_eq_nil_iff]
          intro x hx
          have hge : a.t1 ≤ x.t1 := by
            rcases List.mem_cons.mp hx with rfl | hx
            · exact le_refl _
            · exact ha x hx
          have : x.t1 ≠ t := by
            intro hxt
            rw [hxt, ← hm] at hge
            exact absurd hc (not_lt.mpr hge)
          simpa using this
        rw [List.filter_cons, hnone]
        simp [hm]
      · rw [List.filter_cons]
        simp [hm]
    · rw [List.filter_cons, List.filter_cons, ih hl]
      split_ifs
      · rfl
      · rfl

/-- The landmark vector after one constraint. -/
theorem make_constraint_landmarks_eq (K : Const) (agent : Agent) (S : Store) (con : Constraint) :
    (make_constraint K agent S con).landmarks
      = if (con.positive && decide (con.agent = agent.id)) = true then
          insert_landmark (Move.ofConstraint con) S.landmarks
        else S.landmarks := by
  by_cases hp : con.positive = true
  · by_cases ha : con.agent = agent.id
    · simp [make_constraint, hp, ha]
    · simp [make_constraint, hp, ha]
  · have hp' : con.positive = false := by simpa using hp
    by_cases hid : con.id1 = con.id2
    · simp [make_constraint, hp', hid, add_collision_interval]
    · simp [make_constraint, hp', hid, add_move_constraint]

/-- Starting from a sorted landmark vector, `make_constraints` adds the
landmarks of the input, each after the landmarks with the same `t1` that are
already there. -/
theorem make_constraints_landmarks_stable (K : Const) (agent : Agent) (cons : List Constraint)
    (S : Store) (h : S.landmarks.Sorted (fun a b => a.t1 ≤ b.t1)) :
    (make_constraints K agent S cons).landmarks.Perm (S.landmarks ++ own_landmarks agent cons) ∧
      ∀ t, (make_constraints K agent S cons).landmarks.filter (fun x => decide (x.t1 = t))
        = S.landmarks.filter (fun x => decide (x.t1 = t))
          ++ (own_landmarks agent cons).filter (fun x => decide (x.t1 = t)) := by
  induction cons generalizing S with
  | nil => simp [make_constraints, own_landmarks]
  | cons con rest ih =>
    have hs := (make_constraint_landmarks_grow K agent S con h).1
    obtain ⟨i1, i2⟩ := ih (make_constraint K agent S con) hs
    simp only [make_constraints, List.foldl_cons] at i1 i2 ⊢
    rw [make_constraint_landmarks_eq] at i1 i2
    by_cases hc : (con.positive && decide (con.agent = agent.id)) = true
    · have hown : own_landmarks agent (con :: rest)
          = Move.ofConstraint con :: own_landmarks agent rest := by
        simp only [own_landmarks, List.filter_cons, hc, if_true, List.map_cons]
      rw [if_pos hc] at i1 i2
      rw [hown]
      refine ⟨?_, fun t => ?_⟩
      · refine i1.trans ?_
        have := (insert_landmark_perm (Move.ofConstraint con) S.landmarks).append_right
          (own_landmarks agent rest)
        refine this.trans ?_
        simp
      · rw [i2 t, insert_landmark_filter _ _ h t, List.append_assoc, ← List.filter_append]
        rfl
    · have hown : own_landmarks agent (con :: rest) = own_landmarks agent rest := by
        simp only [own_landmarks, List.filter_cons, hc]
        rfl
      rw [if_neg hc] at i1 i2
      rw [hown]
      exact ⟨i1, i2⟩

/-! ### Termination of `get_endpoints` -/

/-- A node for which none of the four cases of the `while` body applies is left
alone. -/
theorem endpoint_step_none (K : Const) (mk : ℚ → ℚ → Node) (c : ℚ × ℚ) (nodes : List Node)
    (i : Nat) (n : Node)
    (h1 : ¬ (c.1 - K.CN_EPSILON < n.interval.1 ∧ c.2 + K.CN_EPSILON > n.interval.2))
    (h2 : ¬ (c.1 - K.CN_EPSILON < n.interval.1 ∧ c.2 > n.interval.1))
    (h3 : ¬ (c.1 - K.CN_EPSILON > n.interval.1 ∧ c.2 + K.CN_EPSILON < n.interval.2))
    (h4 : ¬ (c.1 < n.interval.2 ∧ c.2 + K.CN_EPSILON > n.interval.2)) :
    endpoint_step K mk c nodes i n = none := by
  unfold endpoint_step
  rw [if_neg h1, if_neg h2, if_neg h3, if_neg h4]

/-- Once `i` has passed the end of the vector, the loops run out without a
change, in at most one iteration per remaining collision and one more. -/
theorem get_endpoints_loop_drain (K : Const) (mk : ℚ → ℚ → Node) (colls : List (ℚ × ℚ)) :
    ∀ (fuel k i : Nat) (nodes : List Node), nodes.length ≤ i → 1 ≤ fuel →
      colls.length + 1 ≤ fuel + k → get_endpoints_loop K mk colls fuel k i nodes = .ok nodes := by
  intro fuel
  induction fuel with
  | zero => intro k i nodes _ h1 _; omega
  | succ fuel ih =>
    intro k i nodes hi _ hf
    simp only [get_endpoints_loop]
    cases hc : colls[k]? with
    | none => rfl
    | some c =>
      have hk : k < colls.length := by
        by_contra hk
        rw [List.getElem?_eq_none (not_lt.mp hk)] at hc
        simp at hc
      simp only [List.getElem?_eq_none hi]
      exact ih (k + 1) i nodes hi (by omega) (by omega)

/-- A pass over a vector whose nodes are all left alone by the first collision
ends without a change. -/
theorem get_endpoints_loop_settled (K : Const) (mk : ℚ → ℚ → Node) (c0 : ℚ × ℚ)
    (cs : List (ℚ × ℚ)) (nodes : List Node)
    (hst : ∀ n ∈ nodes, ∀ idx, endpoint_step K mk c0 nodes idx n = none) :
    ∀ (fuel i : Nat), (nodes.length - i) + cs.length + 2 ≤ fuel →
      get_endpoints_loop K mk (c0 :: cs) fuel 0 i nodes = .ok nodes := by
  intro fuel
  induction fuel with
  | zero => intro i h; omega
  | succ fuel ih =>
    intro i hf
    simp only [get_endpoints_loop, List.getElem?_cons_zero]
    cases hn : nodes[i]? with
    | none =>
      simp only
      have hi : nodes.length ≤ i := by
        by_contra hi
        rw [List.getElem?_eq_getElem (not_le.mp hi)] at hn
        simp at hn
      exact get_endpoints_loop_drain K mk (c0 :: cs) fuel 1 i nodes hi (by omega)
        (by simp only [List.length_cons]; omega)
    | some n =>
      have hlt : i < nodes.length := by
        by_contra hi
        rw [List.getElem?_eq_none (not_lt.mp hi)] at hn
        simp at hn
      have hnone := hst n (List.mem_iff_getElem?.mpr ⟨i, hn⟩) i
      simp only [hnone]
      exact ih (i + 1) (by omega)


/-- Whether a case of the `while` body applies to a node depends on the node and
the collision only. -/
theorem endpoint_step_none_indep (K : Const) (mk : ℚ → ℚ → Node) (c : ℚ × ℚ)
    (nodes nodes' : List Node) (i i' : Nat) (n : Node)
    (h : endpoint_step K mk c nodes i n = none) : endpoint_step K mk c nodes' i' n = none := by
  unfold endpoint_step at h ⊢
  split_ifs at h ⊢
  rfl

/-- After a change made for the collision `c` (with `lo ≤ hi`, tolerance
`ε > 0`), no case of the `while` body applies to a node of the changed vector
`[n]` for `c` again. -/
theorem endpoint_step_settles (K : Const) (he : 0 < K.CN_EPSILON) (mk : ℚ → ℚ → Node)
    (hmk : ∀ a b, (mk a b).interval = (a, b)) (c : ℚ × ℚ) (hc : c.1 ≤ c.2) (n : Node)
    (nodes' : List Node) (h : endpoint_step K mk c [n] 0 n = some nodes') :
    nodes'.length ≤ 2 ∧ ∀ m ∈ nodes', ∀ idx, endpoint_step K mk c nodes' idx m = none := by
  unfold endpoint_step at h
  split_ifs at h with a1 a2 a3 a4
  · simp only [List.eraseIdx_cons_zero, Option.some.injEq] at h
    subst h
    exact ⟨by simp, fun m hm => by simp at hm⟩
  · simp only [List.set_cons_zero, Option.some.injEq] at h
    subst h
    refine ⟨by simp, fun m hm idx => ?_⟩
    rw [List.mem_singleton.mp hm]
    apply endpoint_step_none
    · rintro ⟨_, h2⟩
      exact a1 ⟨a2.1, h2⟩
    · rintro ⟨_, h2⟩
      exact lt_irrefl _ h2
    · rintro ⟨h1, _⟩
      have h1' : c.1 - K.CN_EPSILON > c.2 := h1
      linarith
    · rintro ⟨_, h2⟩
      exact a1 ⟨a2.1, h2⟩
  · simp only [List.set_cons_zero, Option.some.injEq] at h
    subst h
    refine ⟨by simp, fun m hm idx => ?_⟩
    simp only [List.insertIdx, zero_add, List.mem_cons] at hm
    have hm' : m = { n with interval := (n.interval.1, c.1) } ∨ m = mk c.2 n.interval.2 := by
      simpa [List.insertIdx, List.modifyTailIdx] using hm
    rcases hm' with rfl | rfl
    · apply endpoint_step_none
      · rintro ⟨h1, _⟩
        have h1' : c.1 - K.CN_EPSILON < n.interval.1 := h1
        linarith [a3.1]
      · rintro ⟨h1, _⟩
        have h1' : c.1 - K.CN_EPSILON < n.interval.1 := h1
        linarith [a3.1]
      · rintro ⟨_, h2⟩
        have h2' : c.2 + K.CN_EPSILON < c.1 := h2
        linarith
      · rintro ⟨h1, _⟩
        exact lt_irrefl _ h1
    · apply endpoint_step_none
      · rw [hmk]
        rintro ⟨_, h2⟩
        have h2' : c.2 + K.CN_EPSILON > n.interval.2 := h2
        linarith [a3.2]
      · rw [hmk]
        rintro ⟨_, h2⟩
        exact lt_irrefl _ h2
      · rw [hmk]
        rintro ⟨h1, _⟩
        have h1' : c.1 - K.CN_EPSILON > c.2 := h1
        linarith
      · rw [hmk]
        rintro ⟨_, h2⟩
        have h2' : c.2 + K.CN_EPSILON > n.interval.2 := h2
        linarith [a3.2]
  · simp only [List.set_cons_zero, Option.some.injEq] at h
    subst h
    refine ⟨by simp, fun m hm idx => ?_⟩
    rw [List.mem_singleton.mp hm]
    have hlo : ¬ c.1 - K.CN_EPSILON < n.interval.1 := fun hlt => a1 ⟨hlt, a4.2⟩
    apply endpoint_step_none
    · rintro ⟨h1, _⟩
      exact hlo h1
    · rintro ⟨h1, _⟩
      exact hlo h1
    · rintro ⟨_, h2⟩
      have h2' : c.2 + K.CN_EPSILON < c.1 := h2
      linarith
    · rintro ⟨h1, _⟩
      exact lt_irrefl _ h1

/-- With collisions that have `lo ≤ hi` and a tolerance `ε > 0`, `get_endpoints`
returns: the loops make at most one change and end within `len + 4`
iterations, `len` the length of the collision vector of the vertex. -/
theorem get_endpoints_returns (K : Const) (he : 0 < K.CN_EPSILON) (S : Store) (node_id : Int)
    (node_i node_j t1 t2 : ℚ)
    (hcolls : ∀ l, S.collision_intervals node_id = some l → ∀ c ∈ l, c.1 ≤ c.2) :
    ∃ out, ∀ fuel, ((S.collision_intervals node_id).getD []).length + 4 ≤ fuel →
      get_endpoints K fuel S node_id node_i node_j t1 t2 = .ok out := by
  cases hS : S.collision_intervals node_id with
  | none =>
    refine ⟨[endpoint_node node_id node_i node_j t1 t2], fun fuel _ => ?_⟩
    unfold get_endpoints
    rw [hS]
  | some l =>
    cases l with
    | nil =>
      refine ⟨[endpoint_node node_id node_i node_j t1 t2], fun fuel _ => ?_⟩
      unfold get_endpoints
      rw [hS]
    | cons c0 cs =>
      have hc0 : c0.1 ≤ c0.2 := hcolls _ hS c0 (List.mem_cons_self _ _)
      cases hstep : endpoint_step K (endpoint_node node_id node_i node_j) c0
          [endpoint_node node_id node_i node_j t1 t2] 0
          (endpoint_node node_id node_i node_j t1 t2) with
      | none =>
        refine ⟨[endpoint_node node_id node_i node_j t1 t2], fun fuel hf => ?_⟩
        simp only [Option.getD_some, List.length_cons] at hf
        unfold get_endpoints
        rw [hS]
        simp only
        refine get_endpoints_loop_settled K _ c0 cs _ ?_ fuel 0 (by simp only [List.length_singleton]; omega)
        intro n hn idx
        rw [List.mem_singleton.mp hn]
        exact endpoint_step_none_indep K _ c0 _ _ 0 idx _ hstep
      | some nodes' =>
        obtain ⟨hlen, hst⟩ := endpoint_step_settles K he _ (fun a b => rfl) c0 hc0 _ nodes' hstep
        refine ⟨nodes', fun fuel hf => ?_⟩
        simp only [Option.getD_some, List.length_cons] at hf
        unfold get_endpoints
        rw [hS]
        simp only
        cases fuel with
        | zero => omega
        | succ fuel =>
          simp only [get_endpoints_loop, List.getElem?_cons_zero, hstep]
          exact get_endpoints_loop_settled K _ c0 cs nodes' hst fuel 0 (by omega)

/-! ### What `add_open` does to the open list -/

/-- `insert` at the split point. -/
theorem insertIdx_append_length {α : Type} (a rest : List α) (x : α) :
    (a ++ rest).insertIdx a.length x = a ++ x :: rest := by
  induction a with
  | nil => cases rest <;> rfl
  | cons y a ih => simp only [List.cons_append, List.length_cons, List.insertIdx_succ_cons, ih]

/-- The loop of `add_open` passes the entries that do not hold the state of the
new node and only looks for the position. -/
theorem add_open_loop_skip (K : Const) (n : Node) (openl : List Node) :
    ∀ (pre : List Node) (idx : Nat) (pos : Option Nat) (rest : List Node),
      (∀ x ∈ pre, ¬ Duplicate K n x) →
      add_open_loop K n openl idx (pre ++ rest) pos
        = add_open_loop K n openl (idx + pre.length) rest (scan_pos K n idx pre pos) := by
  intro pre
  induction pre with
  | nil => intro idx pos rest _; rfl
  | cons x pre ih =>
    intro idx pos rest h
    have hx : ¬ (x.id = n.id ∧ |x.interval.2 - n.interval.2| < K.CN_EPSILON) :=
      h x (List.mem_cons_self _ _)
    have e := ih (idx + 1) (next_pos K n x idx pos) rest
      (fun y hy => h y (List.mem_cons_of_mem _ hy))
    have hidx : idx + (x :: pre).length = idx + 1 + pre.length := by
      simp only [List.length_cons]
      omega
    rw [hidx]
    show add_open_loop K n openl idx (x :: (pre ++ rest)) pos = _
    simp only [add_open_loop, if_neg hx, scan_pos]
    exact e

/-- A position that has been found is kept. -/
theorem scan_pos_some (K : Const) (n : Node) (p : Nat) :
    ∀ (pre : List Node) (idx : Nat), scan_pos K n idx pre (some p) = some p := by
  intro pre
  induction pre with
  | nil => intro idx; rfl
  | cons x pre ih => intro idx; simp only [scan_pos, next_pos]; exact ih (idx + 1)

/-- The position found over `pre` is that of its first entry that the new node
belongs before, if there is one. -/
theorem scan_pos_none (K : Const) (n : Node) :
    ∀ (pre : List Node) (idx : Nat),
      (scan_pos K n idx pre none = none ∧ ∀ x ∈ pre, ¬ belongs_before K n x) ∨
        ∃ a x b, pre = a ++ x :: b ∧ (∀ y ∈ a, ¬ belongs_before K n y) ∧ belongs_before K n x ∧
          scan_pos K n idx pre none = some (idx + a.length) := by
  intro pre
  induction pre with
  | nil => intro idx; exact Or.inl ⟨rfl, fun x hx => by simp at hx⟩
  | cons x pre ih =>
    intro idx
    by_cases hb : belongs_before K n x
    · right
      refine ⟨[], x, pre, rfl, fun y hy => by simp at hy, hb, ?_⟩
      simp only [scan_pos, next_pos, if_pos hb, List.length_nil, add_zero]
      exact scan_pos_some K n idx pre (idx + 1)
    · rcases ih (idx + 1) with ⟨h1, h2⟩ | ⟨a, y, b, h1, h2, h3, h4⟩
      · left
        refine ⟨?_, ?_⟩
        · simp only [scan_pos, next_pos, if_neg hb]
          exact h1
        · intro z hz
          rcases List.mem_cons.mp hz with rfl | hz
          · exact hb
          · exact h2 z hz
      · right
        refine ⟨x :: a, y, b, by rw [h1]; rfl, ?_, h3, ?_⟩
        · intro z hz
          rcases List.mem_cons.mp hz with rfl | hz
          · exact hb
          · exact h2 z hz
        · simp only [scan_pos, next_pos, if_neg hb, List.length_cons]
          rw [h4]
          congr 1
          omega

/-- Without an entry that holds the state of the new node, `add_open` inserts
the node before the first entry it belongs before, or appends it. -/
theorem add_open_no_duplicate (K : Const) (openl : List Node) (n : Node)
    (h : ∀ x ∈ openl, ¬ Duplicate K n x) :
    ((∀ x ∈ openl, ¬ belongs_before K n x) ∧ add_open K openl n = openl ++ [n]) ∨
      ∃ a x b, openl = a ++ x :: b ∧ (∀ y ∈ a, ¬ belongs_before K n y) ∧ belongs_before K n x ∧
        add_open K openl n = a ++ n :: x :: b := by
  cases openl with
  | nil => exact Or.inl ⟨fun x hx => by simp at hx, rfl⟩
  | cons o os =>
    have hloop : add_open K (o :: os) n
        = add_open_loop K n (o :: os) (0 + (o :: os).length) [] (scan_pos K n 0 (o :: os) none) := by
      have := add_open_loop_skip K n (o :: os) (o :: os) 0 none [] h
      rw [List.append_nil] at this
      exact this
    rcases scan_pos_none K n (o :: os) 0 with ⟨h1, h2⟩ | ⟨a, x, b, h1, h2, h3, h4⟩
    · left
      refine ⟨h2, ?_⟩
      rw [hloop, h1]
      rfl
    · right
      refine ⟨a, x, b, h1, h2, h3, ?_⟩
      rw [hloop, h4]
      simp only [add_open_loop, zero_add]
      rw [h1]
      exact insertIdx_append_length a (x :: b) n

/-- With a first entry `e` that holds the state of the new node, `add_open`
discards the node when `n.f > e.f − ε`; otherwise it overwrites `e` when `e` is
the position found, or erases `e` and inserts the node at the position found
before `e`, or appends it when no position was found. -/
theorem add_open_first_duplicate (K : Const) (pre post : List Node) (e n : Node)
    (hpre : ∀ x ∈ pre, ¬ Duplicate K n x) (he : Duplicate K n e) :
    (n.f > e.f - K.CN_EPSILON ∧ add_open K (pre ++ e :: post) n = pre ++ e :: post) ∨
      (¬ n.f > e.f - K.CN_EPSILON ∧
        (((∀ y ∈ pre, ¬ belongs_before K n y) ∧ belongs_before K n e ∧
            add_open K (pre ++ e :: post) n = pre ++ overwrite e n :: post) ∨
          ((∀ y ∈ pre, ¬ belongs_before K n y) ∧ ¬ belongs_before K n e ∧
            add_open K (pre ++ e :: post) n = pre ++ post ++ [n]) ∨
          ∃ a x b, pre = a ++ x :: b ∧ (∀ y ∈ a, ¬ belongs_before K n y) ∧
            belongs_before K n x ∧
            add_open K (pre ++ e :: post) n = a ++ n :: x :: b ++ post)) := by
  have hstart : add_open K (pre ++ e :: post) n
      = add_open_loop K n (pre ++ e :: post) 0 (pre ++ e :: post) none := by
    cases pre <;> rfl
  have hskip := add_open_loop_skip K n (pre ++ e :: post) pre 0 none (e :: post) hpre
  rw [zero_add] at hskip
  have hdup : e.id = n.id ∧ |e.interval.2 - n.interval.2| < K.CN_EPSILON := he
  rw [hstart, hskip]
  simp only [add_open_loop, if_pos hdup]
  by_cases hf : n.f > e.f - K.CN_EPSILON
  · left
    exact ⟨hf, by rw [if_pos hf]⟩
  · right
    refine ⟨hf, ?_⟩
    rw [if_neg hf]
    rcases scan_pos_none K n pre 0 with ⟨h1, h2⟩ | ⟨a, x, b, h1, h2, h3, h4⟩
    · rw [h1]
      by_cases hb : belongs_before K n e
      · left
        refine ⟨h2, hb, ?_⟩
        simp only [next_pos, if_pos hb, if_true]
        exact set_split pre post e _
      · right
        left
        refine ⟨h2, hb, ?_⟩
        simp only [next_pos, if_neg hb]
        rw [if_neg (by simp), eraseIdx_split]
    · right
      right
      refine ⟨a, x, b, h1, h2, h3, ?_⟩
      rw [h4, zero_add]
      have hne : ¬ (some a.length = some pre.length) := by
        rw [h1]
        simp only [Option.some.injEq, List.length_append, List.length_cons]
        omega
      simp only [next_pos]
      rw [if_neg hne, eraseIdx_split, h1]
      have e1 : a ++ x :: b ++ post = a ++ (x :: b ++ post) := by simp
      rw [e1, insertIdx_append_length a (x :: b ++ post) n]
      simp

/-! ### The order of the open list -/

/-- The lexicographic order of the keys is transitive. -/
theorem lex_trans (a b c : Node) (h1 : Lex a b) (h2 : Lex b c) : Lex a c := by
  unfold Lex at *
  rcases h1 with h1 | ⟨h1, h1'⟩ <;> rcases h2 with h2 | ⟨h2, h2'⟩
  · exact Or.inl (lt_trans h1 h2)
  · exact Or.inl (by rw [← h2]; exact h1)
  · exact Or.inl (by rw [h1]; exact h2)
  · exact Or.inr ⟨h1.trans h2, le_trans h2' h1'⟩

/-- An entry that the new node does not belong before comes before the node in
the lexicographic order, when the keys can be told apart. -/
theorem lex_of_not_belongs (K : Const) (he : 0 < K.CN_EPSILON) (n e : Node)
    (ha : (e.f = n.f ∨ K.CN_EPSILON < |e.f - n.f|) ∧
      (e.f = n.f → e.g = n.g ∨ K.CN_EPSILON < |e.g - n.g|))
    (hb : ¬ belongs_before K n e) : Lex e n := by
  unfold belongs_before at hb
  push_neg at hb
  obtain ⟨hb1, hb2⟩ := hb
  rcases ha.1 with hf | hf
  · right
    refine ⟨hf, ?_⟩
    have := hb2 (by rw [hf, sub_self, abs_zero]; exact he)
    linarith
  · left
    rcases lt_abs.mp hf with h | h
    · linarith
    · linarith

/-- An entry that the new node belongs before comes after the node in the
lexicographic order, when the keys can be told apart. -/
theorem lex_of_belongs (K : Const) (he : 0 < K.CN_EPSILON) (n x : Node)
    (ha : (x.f = n.f ∨ K.CN_EPSILON < |x.f - n.f|) ∧
      (x.f = n.f → x.g = n.g ∨ K.CN_EPSILON < |x.g - n.g|))
    (hb : belongs_before K n x) : Lex n x := by
  rcases hb with hb | ⟨hb1, hb2⟩
  · left
    linarith
  · rcases ha.1 with hf | hf
    · right
      refine ⟨hf.symm, ?_⟩
      rcases ha.2 hf with hg | hg
      · rw [hg]
      · rcases lt_abs.mp hg with h | h
        · linarith
        · linarith
    · exact absurd hb1 (not_lt.mpr (le_of_lt hf))

/-- The open list has no entry that holds the state of `n`, or a first one. -/
theorem first_duplicate_split (K : Const) (n : Node) (l : List Node) :
    (∀ x ∈ l, ¬ Duplicate K n x) ∨
      ∃ pre e post, l = pre ++ e :: post ∧ (∀ x ∈ pre, ¬ Duplicate K n x) ∧ Duplicate K n e := by
  induction l with
  | nil => exact Or.inl (fun x hx => by simp at hx)
  | cons a l ih =>
    by_cases ha : Duplicate K n a
    · exact Or.inr ⟨[], a, l, rfl, fun x hx => by simp at hx, ha⟩
    · rcases ih with h | ⟨pre, e, post, h1, h2, h3⟩
      · left
        intro x hx
        rcases List.mem_cons.mp hx with rfl | hx
        · exact ha
        · exact h x hx
      · right
        refine ⟨a :: pre, e, post, by rw [h1]; rfl, ?_, h3⟩
        intro x hx
        rcases List.mem_cons.mp hx with rfl | hx
        · exact ha
        · exact h2 x hx

/-- Inserting `n` into a sorted list after entries that come before it and
before entries that come after it keeps the list sorted. -/
theorem pairwise_lex_insert (a rest : List Node) (n : Node)
    (hs : (a ++ rest).Pairwise Lex) (h1 : ∀ y ∈ a, Lex y n) (h2 : ∀ z ∈ rest, Lex n z) :
    (a ++ n :: rest).Pairwise Lex := by
  obtain ⟨ha, hr, hx⟩ := List.pairwise_append.mp hs
  refine List.pairwise_append.mpr ⟨ha, List.pairwise_cons.mpr ⟨h2, hr⟩, ?_⟩
  intro y hy z hz
  rcases List.mem_cons.mp hz with rfl | hz
  · exact h1 y hy
  · exact hx y hy z hz

/-- When the keys of the new node can be told apart from those of the entries
under the tolerance, `add_open` keeps a list that is sorted by `f` ascending,
ties by `g` descending, sorted. -/
theorem add_open_sorted (K : Const) (he : 0 < K.CN_EPSILON) (openl : List Node) (n : Node)
    (hs : openl.Pairwise Lex) (ha : Apart K n openl) : (add_open K openl n).Pairwise Lex := by
  rcases first_duplicate_split K n openl with hno | ⟨pre, e, post, rfl, hpre, hdup⟩
  · rcases add_open_no_duplicate K openl n hno with ⟨h1, h2⟩ | ⟨a, x, b, rfl, h1, h2, h3⟩
    · rw [h2]
      have := pairwise_lex_insert openl [] n (by rw [List.append_nil]; exact hs)
        (fun y hy => lex_of_not_belongs K he n y (ha y hy) (h1 y hy)) (fun z hz => by simp at hz)
      exact this
    · rw [h3]
      have hx : Lex n x := lex_of_belongs K he n x (ha x (by simp)) h2
      refine pairwise_lex_insert a (x :: b) n hs
        (fun y hy => lex_of_not_belongs K he n y (ha y (by simp [hy])) (h1 y hy)) ?_
      intro z hz
      rcases List.mem_cons.mp hz with rfl | hz
      · exact hx
      · have hxb := (List.pairwise_append.mp hs).2.1
        exact lex_trans n x z hx ((List.pairwise_cons.mp hxb).1 z hz)
  · obtain ⟨hp, hr, hx⟩ := List.pairwise_append.mp hs
    obtain ⟨hez, hpost⟩ := List.pairwise_cons.mp hr
    have hsub : (pre ++ post).Pairwise Lex := by
      refine List.pairwise_append.mpr ⟨hp, hpost, ?_⟩
      intro y hy z hz
      exact hx y hy z (List.mem_cons_of_mem _ hz)
    rcases add_open_first_duplicate K pre post e n hpre hdup with ⟨_, h⟩ |
      ⟨hf, ⟨h1, _, h⟩ | ⟨_, h2, _⟩ | ⟨a, x, b, hpab, h1, h2, h⟩⟩
    · rw [h]
      exact hs
    · rw [h]
      have hlt : n.f < e.f := by linarith [not_lt.mp hf]
      have hone := pairwise_lex_insert pre post (overwrite e n) hsub
        (fun y hy => lex_of_not_belongs K he n y (ha y (by simp [hy])) (h1 y hy)) ?_
      · exact hone
      · intro z hz
        left
        show n.f < z.f
        rcases hez z hz with h' | ⟨h', _⟩
        · linarith
        · linarith
    · exfalso
      have hle : n.f ≤ e.f - K.CN_EPSILON := not_lt.mp hf
      apply h2
      left
      rcases (ha e (by simp)).1 with hfe | hfe
      · linarith
      · rcases lt_abs.mp hfe with h' | h'
        · linarith
        · linarith
    · rw [h]
      subst hpab
      have hx' : Lex n x := lex_of_belongs K he n x (ha x (by simp)) h2
      have e1 : a ++ n :: x :: b ++ post = a ++ n :: (x :: b ++ post) := by simp
      rw [e1]
      have hsub' : (a ++ (x :: b ++ post)).Pairwise Lex := by
        have : a ++ (x :: b ++ post) = (a ++ x :: b) ++ post := by simp
        rw [this]
        exact hsub
      refine pairwise_lex_insert a (x :: b ++ post) n hsub'
        (fun y hy => lex_of_not_belongs K he n y (ha y (by simp [hy])) (h1 y hy)) ?_
      intro z hz
      rcases List.mem_cons.mp hz with rfl | hz
      · exact hx'
      · have hxb := (List.pairwise_append.mp hsub').2.1
        exact lex_trans n x z hx' ((List.pairwise_cons.mp hxb).1 z hz)

/-! ### Earliest arrival -/

/-- The vector `intervals` of `find_successors` holds the gaps of the collision
list. -/
theorem safe_intervals_from_zip (K : Const) (colls : List (ℚ × ℚ)) (first : ℚ) :
    safe_intervals_from K first colls
      = (first :: colls.map Prod.snd).zip (colls.map Prod.fst ++ [K.CN_INFINITY]) := by
  induction colls generalizing first with
  | nil => rfl
  | cons c rest ih =>
    simp only [safe_intervals_from, List.map_cons, List.cons_append, List.zip_cons_cons]
    rw [ih c.2]

/-- The starts of the safe intervals are `first` and the ends of the
collisions. -/
theorem safe_intervals_from_starts (K : Const) (colls : List (ℚ × ℚ)) (first : ℚ) :
    (safe_intervals_from K first colls).map Prod.fst = first :: colls.map Prod.snd := by
  induction colls generalizing first with
  | nil => rfl
  | cons c rest ih =>
    simp only [safe_intervals_from, List.map_cons]
    rw [ih c.2]

/-- The edge-constraint loop of `find_successors` does not pass an arrival time
whose departure lies in no window. -/
theorem avoid_moves_least (K : Const) (c : ℚ) (l : List Move) (g a : ℚ) (hga : g ≤ a)
    (ha : NoWindow K c l a) : avoid_moves K c l g ≤ a := by
  induction l generalizing g with
  | nil => exact hga
  | cons m rest ih =>
    simp only [avoid_moves]
    have hrest : NoWindow K c rest a := fun m' hm' => ha m' (List.mem_cons_of_mem _ hm')
    have hm := ha m (List.mem_cons_self _ _)
    refine ih _ ?_ hrest
    split_ifs with hw
    · by_contra hlt
      exact hm ⟨by linarith [hw.1], by linarith⟩
    · exact hga

/-- The arrival time computed for one interval: it is the least time from
`max(g, I.lo)` on whose departure lies in no window of the sorted list. -/
theorem arrival_least (K : Const) (c : ℚ) (cons : Option (List Move))
    (hs : (cons.getD []).Sorted (fun a b => a.t1 ≤ b.t1)) (I : ℚ × ℚ) (g : ℚ) :
    g ≤ arrival K c cons I g ∧ I.1 ≤ arrival K c cons I g ∧
      NoWindow K c (cons.getD []) (arrival K c cons I g) ∧
      ∀ a, g ≤ a → I.1 ≤ a → NoWindow K c (cons.getD []) a → arrival K c cons I g ≤ a := by
  have hmax : g ≤ (if I.1 > g then I.1 else g) ∧ I.1 ≤ (if I.1 > g then I.1 else g) := by
    split_ifs with h
    · exact ⟨le_of_lt h, le_refl _⟩
    · exact ⟨le_refl _, not_lt.mp h⟩
  have hle : ∀ a, g ≤ a → I.1 ≤ a → (if I.1 > g then I.1 else g) ≤ a := by
    intro a h1 h2
    split_ifs
    · exact h2
    · exact h1
  cases cons with
  | none =>
    simp only [arrival, Option.getD_none]
    exact ⟨hmax.1, hmax.2, fun m hm => by simp at hm, fun a h1 h2 _ => hle a h1 h2⟩
  | some l =>
    simp only [arrival, Option.getD_some] at hs ⊢
    have h1 := le_avoid_moves K c l (if I.1 > g then I.1 else g)
    exact ⟨le_trans hmax.1 h1, le_trans hmax.2 h1, avoid_moves_clear K c l hs _,
      fun a h1 h2 h3 => avoid_moves_least K c l _ a (hle a h1 h2) h3⟩

/-- The interval loop of `find_successors` over intervals with ascending
starts, entered with an arrival time `g0` that no feasible arrival into a
remaining interval precedes: every emitted node carries the least feasible
arrival time of its interval, and a node is emitted for every interval that
has a feasible arrival time. -/
theorem interval_loop_earliest (K : Const) (u : Node) (v : Vertex) (c hv : ℚ)
    (cons : Option (List Move)) (hs : (cons.getD []).Sorted (fun a b => a.t1 ≤ b.t1)) :
    ∀ (ivs : List (ℚ × ℚ)) (g0 : ℚ), ivs.Pairwise (fun I J => I.1 ≤ J.1) → u.g + c ≤ g0 →
      (∀ I ∈ ivs, ∀ a, u.g + c ≤ a → I.1 ≤ a → NoWindow K c (cons.getD []) a → g0 ≤ a) →
      (∀ n ∈ interval_loop K u v c hv cons ivs g0,
          n.id = v.id ∧ n.f = n.g + hv ∧ n.interval ∈ ivs ∧
            IsLeast {a | Feasible K u c (cons.getD []) n.interval a} n.g) ∧
        (∀ I ∈ ivs, (∃ a, Feasible K u c (cons.getD []) I a) →
          ∃ n ∈ interval_loop K u v c hv cons ivs g0, n.interval = I) := by
  intro ivs
  induction ivs with
  | nil =>
    intro g0 _ _ _
    exact ⟨fun n hn => by simp [interval_loop] at hn, fun I hI => by simp at hI⟩
  | cons I rest ih =>
    intro g0 hpw hg0 hinv
    obtain ⟨hIrest, hrest⟩ := List.pairwise_cons.mp hpw
    obtain ⟨a1, a2, a3, a4⟩ := arrival_least K c cons hs I g0
    have hinv0 : ∀ J ∈ rest, ∀ a, u.g + c ≤ a → J.1 ≤ a → NoWindow K c (cons.getD []) a →
        g0 ≤ a := fun J hJ => hinv J (List.mem_cons_of_mem _ hJ)
    have hinv1 : ∀ J ∈ rest, ∀ a, u.g + c ≤ a → J.1 ≤ a → NoWindow K c (cons.getD []) a →
        arrival K c cons I g0 ≤ a := by
      intro J hJ a h1 h2 h3
      exact a4 a (hinv0 J hJ a h1 h2 h3) (le_trans (hIrest J hJ) h2) h3
    have hlow : ∀ a, Feasible K u c (cons.getD []) I a → arrival K c cons I g0 ≤ a := by
      intro a ha
      exact a4 a (hinv I (List.mem_cons_self _ _) a ha.1 ha.2.1 ha.2.2.2.2) ha.2.1 ha.2.2.2.2
    simp only [interval_loop]
    generalize harr : arrival K c cons I g0 = g1 at a1 a2 a3 hinv1 hlow
    split_ifs with hskip hrej
    · obtain ⟨i1, i2⟩ := ih g0 hrest hg0 hinv0
      refine ⟨fun n hn => ?_, fun J hJ hF => ?_⟩
      · obtain ⟨h1, h2, h3, h4⟩ := i1 n hn
        exact ⟨h1, h2, List.mem_cons_of_mem _ h3, h4⟩
      · rcases List.mem_cons.mp hJ with rfl | hJ
        · obtain ⟨a, ha⟩ := hF
          have := hlow a ha
          linarith [ha.2.2.1]
        · exact i2 J hJ hF
    · obtain ⟨i1, i2⟩ := ih g1 hrest (le_trans hg0 a1) hinv1
      refine ⟨fun n hn => ?_, fun J hJ hF => ?_⟩
      · obtain ⟨h1, h2, h3, h4⟩ := i1 n hn
        exact ⟨h1, h2, List.mem_cons_of_mem _ h3, h4⟩
      · rcases List.mem_cons.mp hJ with rfl | hJ
        · obtain ⟨a, ha⟩ := hF
          have := hlow a ha
          rcases hrej with h | h
          · linarith [ha.2.2.2.1]
          · linarith [ha.2.2.1]
        · exact i2 J hJ hF
    · obtain ⟨i1, i2⟩ := ih g1 hrest (le_trans hg0 a1) hinv1
      push_neg at hrej
      refine ⟨fun n hn => ?_, fun J hJ hF => ?_⟩
      · rcases List.mem_cons.mp hn with rfl | hn
        · refine ⟨rfl, rfl, List.mem_cons_self _ _, ?_, fun a ha => hlow a ha⟩
          exact ⟨le_trans hg0 a1, a2, hrej.2, hrej.1, a3⟩
        · obtain ⟨h1, h2, h3, h4⟩ := i1 n hn
          exact ⟨h1, h2, List.mem_cons_of_mem _ h3, h4⟩
      · rcases List.mem_cons.mp hJ with rfl | hJ
        · exact ⟨_, List.mem_cons_self _ _, rfl⟩
        · obtain ⟨n, hn, hnI⟩ := i2 J hJ hF
          exact ⟨n, List.mem_cons_of_mem _ hn, hnI⟩

/-- The ends of a disjoint collision list with `lo ≤ hi` ascend. -/
theorem disjoint_ends_ascending (K : Const) (he : 0 ≤ K.CN_EPSILON) (colls : List (ℚ × ℚ))
    (hdis : CollisionsDisjoint K colls) (hord : ∀ c ∈ colls, c.1 ≤ c.2) :
    colls.Pairwise (fun a b => a.2 ≤ b.2) := by
  induction colls with
  | nil => exact List.Pairwise.nil
  | cons a rest ih =>
    unfold CollisionsDisjoint at hdis ih
    have hrest := ih (List.Chain'.tail hdis) (fun c hc => hord c (List.mem_cons_of_mem _ hc))
    refine List.pairwise_cons.mpr ⟨?_, hrest⟩
    cases rest with
    | nil => intro b hb; simp at hb
    | cons b0 rest' =>
      have h0 : a.2 + K.CN_EPSILON < b0.1 := (List.chain'_cons.mp hdis).1
      have h1 : b0.1 ≤ b0.2 := hord b0 (by simp)
      intro b hb
      rcases List.mem_cons.mp hb with rfl | hb
      · linarith
      · have := (List.pairwise_cons.mp hrest).1 b hb
        linarith

/-- The starts of the gaps of a disjoint collision list with `0 ≤ lo ≤ hi`
ascend. -/
theorem gaps_starts_ascending (K : Const) (he : 0 ≤ K.CN_EPSILON) (colls : List (ℚ × ℚ))
    (hdis : CollisionsDisjoint K colls) (hpos : ∀ c ∈ colls, 0 ≤ c.1 ∧ c.1 ≤ c.2) :
    (gaps K colls).Pairwise (fun I J => I.1 ≤ J.1) := by
  have hmap : ((gaps K colls).map Prod.fst).Pairwise (fun x y => x ≤ y) := by
    unfold gaps
    rw [← safe_intervals_from_zip, safe_intervals_from_starts]
    refine List.pairwise_cons.mpr ⟨?_, ?_⟩
    · intro x hx
      obtain ⟨c, hc, rfl⟩ := List.mem_map.mp hx
      linarith [(hpos c hc).1, (hpos c hc).2]
    · rw [List.pairwise_map]
      exact disjoint_ends_ascending K he colls hdis (fun c hc => (hpos c hc).2)
  rw [List.pairwise_map] at hmap
  exact hmap

/-- The successors of `u` at the neighbour `v`, when `v` is listed once among
the valid moves of `u`, are those the interval loop emits for `v`. -/
theorem find_successors_at (K : Const) (agent : Agent) (S : Store) (map : Map)
    (h_values : Heuristic) (u goal : Node) (v : Vertex) (hv : v ∈ map.get_valid_moves u.id)
    (huniq : ∀ w ∈ map.get_valid_moves u.id, w.id = v.id → w = v) (n : Node) :
    (n ∈ find_successors K agent S map h_values u goal ∧ n.id = v.id) ↔
      n ∈ move_successors K agent S h_values u goal v := by
  simp only [find_successors, List.mem_flatMap]
  constructor
  · rintro ⟨⟨w, hw, hn⟩, hid⟩
    have hnw := (interval_loop_mem K u w _ _ _ _ _ n hn).1
    rw [huniq w hw (by rw [← hnw, hid])] at hn
    exact hn
  · intro hn
    exact ⟨⟨v, hv, hn⟩, (interval_loop_mem K u v _ _ _ _ _ n hn).1⟩

/-! ### The interval of the destination node of a landmark edge -/

/-- The loop over the collisions of the destination vertex: the start of the
first collision that begins after `g`, and the value on entry when there is
none. -/
theorem next_collision_spec (g hi : ℚ) (colls : List (ℚ × ℚ)) :
    ((∀ c ∈ colls, c.1 ≤ g) ∧ next_collision g hi colls = hi) ∨
      ∃ pre c post, colls = pre ++ c :: post ∧ (∀ x ∈ pre, x.1 ≤ g) ∧ g < c.1 ∧
        next_collision g hi colls = c.1 := by
  induction colls with
  | nil => exact Or.inl ⟨fun c hc => by simp at hc, rfl⟩
  | cons c rest ih =>
    by_cases hc : g < c.1
    · right
      exact ⟨[], c, rest, rfl, fun x hx => by simp at hx, hc, by simp [next_collision, hc]⟩
    · rcases ih with ⟨h1, h2⟩ | ⟨pre, d, post, h1, h2, h3, h4⟩
      · left
        refine ⟨?_, by simp only [next_collision, if_neg hc]; exact h2⟩
        intro x hx
        rcases List.mem_cons.mp hx with rfl | hx
        · exact not_lt.mp hc
        · exact h1 x hx
      · right
        refine ⟨c :: pre, d, post, by rw [h1]; rfl, ?_, h3,
          by simp only [next_collision, if_neg hc]; exact h4⟩
        intro x hx
        rcases List.mem_cons.mp hx with rfl | hx
        · exact not_lt.mp hc
        · exact h2 x hx

/-- The end of the interval of the destination node of a landmark edge: `∞`
without collisions at the vertex, the start of the first collision that begins
after the arrival time when there is one, and otherwise the end the endpoint
had before. -/
theorem landed_interval_end (K : Const) (S : Store) (goal : Node) (g : ℚ) :
    ((S.collision_intervals goal.id = none ∨ S.collision_intervals goal.id = some []) ∧
        (landed K S goal g).interval.2 = K.CN_INFINITY) ∨
      ∃ colls, S.collision_intervals goal.id = some colls ∧ colls ≠ [] ∧
        (((∀ c ∈ colls, c.1 ≤ g) ∧ (landed K S goal g).interval.2 = goal.interval.2) ∨
          ∃ pre c post, colls = pre ++ c :: post ∧ (∀ x ∈ pre, x.1 ≤ g) ∧ g < c.1 ∧
            (landed K S goal g).interval.2 = c.1) := by
  cases hS : S.collision_intervals goal.id with
  | none => exact Or.inl ⟨Or.inl rfl, by simp [landed, hS]⟩
  | some l =>
    cases l with
    | nil => exact Or.inl ⟨Or.inr rfl, by simp [landed, hS]⟩
    | cons c cs =>
      right
      refine ⟨c :: cs, rfl, by simp, ?_⟩
      have e : (landed K S goal g).interval.2 = next_collision g goal.interval.2 (c :: cs) := by
        simp [landed, hS]
      rw [e]
      exact next_collision_spec g goal.interval.2 (c :: cs)

/-! ### `find_path` -/

/-- The path returned by `find_path` on a well-formed input (a tolerance
`ε > 0`, a sentinel `∞ ≥ 0`, coordinates of the map, of the start and of the
landmarks taken from one table, and `t1 ≤ t2` in every constraint) is empty or
has the shape of a path and honours the landmark vector in its order. -/
theorem find_path_spec (K : Const) (he : 0 < K.CN_EPSILON) (hinf : 0 ≤ K.CN_INFINITY)
    (fuel : Nat) (agent : Agent) (map : Map) (cons : List Constraint) (h_values : Heuristic)
    (coord : Int → ℚ × ℚ) (hmap : MapCoord coord map)
    (hstart : coord agent.start_id = (agent.start_i, agent.start_j))
    (hlm : ∀ c ∈ cons, c.positive = true → c.agent = agent.id →
      coord c.id1 = (c.i1, c.j1) ∧ coord c.id2 = (c.i2, c.j2))
    (ht : ∀ c ∈ cons, c.t1 ≤ c.t2) (p : Path)
    (h : find_path K fuel agent map cons h_values = .ok p) :
    p.nodes = [] ∨ (List.Chain' (Shape K) p.nodes ∧
      Honoured (make_constraints K agent clear cons).landmarks p.nodes) := by
  unfold find_path at h
  simp only at h
  have hS := make_constraints_ordered K agent cons ht clear clear_ordered
  have hmem := make_constraints_landmark_mem K agent cons clear
  cases hl : (make_constraints K agent clear cons).landmarks with
  | nil =>
    rw [hl] at h
    simp only at h
    rcases find_path_direct_spec K fuel agent map h_values _ coord hmap hstart p h with
      h0 | ⟨_, _, st, gl, _, _, _, _, hspec⟩
    · exact Or.inl h0
    · exact Or.inr ⟨partSpec_shape K _ coord [st] [gl] gl p hspec,
        ⟨[], List.Forall₂.nil, List.nil_sublist _⟩⟩
  | cons lm rem =>
    rw [hl] at h
    simp only at h
    have hfacts : ∀ l ∈ lm :: rem, (coord l.id1 = (l.i1, l.j1) ∧ coord l.id2 = (l.i2, l.j2)) ∧
        l.t1 ≤ l.t2 := by
      intro l hl'
      rw [← hl] at hl'
      rcases hmem l hl' with hc | ⟨c, hc, hp, ha, rfl⟩
      · simp [clear] at hc
      · exact ⟨hlm c hc hp ha, ht c hc⟩
    exact find_path_landmarks_spec K he hinf fuel agent map h_values coord hmap hstart _ lm rem
      (fun l hl' => (hfacts l hl').1) (fun l hl' => (hfacts l hl').2) hS p h

/-! ### The rounding of `double` -/

/-- The rounding `fl` gives the `double`s with the bit patterns
`0x3E45798EE2308C3A` for `10⁻⁸`, `0x3FD999999999999A` for `0.4`,
`0x3FF6666666666666` for `1.4`, `0x3FB999999999999A` for `0.1` and
`0x3FD5555555555555` for `1/3`; it leaves `10⁸` and `2⁻²⁶` as they are and rounds
a tie to the even neighbour. -/
theorem fl_values :
    fl (1 / 100000000) = 6044629098073146 / 2 ^ 79 ∧ fl (2 / 5) = 7205759403792794 / 2 ^ 54 ∧
      fl (7 / 5) = 6305039478318694 / 2 ^ 52 ∧ fl (1 / 10) = 7205759403792794 / 2 ^ 56 ∧
      fl (1 / 3) = 6004799503160661 / 2 ^ 54 ∧ fl 100000000 = 100000000 ∧
      fl (1 / 2 ^ 26) = 1 / 2 ^ 26 ∧ fl (1 + 1 / 2 ^ 53) = 1 ∧
      fl (1 + 3 / 2 ^ 53) = 1 + 1 / 2 ^ 51 ∧ fl (-(1 / 3)) = -(6004799503160661 / 2 ^ 54) := by
  refine ⟨by decide!, by decide!, by decide!, by decide!, by decide!, by decide!, by decide!,
    by decide!, by decide!, by decide!⟩

/-! ### The planner object -/

/-- A run that agrees with a returning run returns the same value. -/
theorem agrees_ok {α : Type} {x : Except Fault (α × Planner)} {r0 : α} {P : Planner → Prop}
    (h : Agrees x (.ok r0) P) : ∃ s, x = .ok (r0, s) ∧ P s := by
  cases x with
  | error e => simp [Agrees] at h
  | ok v =>
    obtain ⟨r, s⟩ := v
    simp only [Agrees] at h
    exact ⟨s, by rw [h.1], h.2⟩

/-- A run that agrees with a failing run fails in the same way. -/
theorem agrees_error {α : Type} {x : Except Fault (α × Planner)} {e : Fault}
    {P : Planner → Prop} (h : Agrees x (.error e : Except Fault α) P) : x = .error e := by
  cases x with
  | error e1 => simp only [Agrees] at h; rw [h]
  | ok v => obtain ⟨r, s⟩ := v; simp [Agrees] at h

/-- `reconstruct_path` on the object returns what `reconstruct_path` returns and
writes `path` only. -/
theorem reconstruct_path_st_agrees (K : Const) (curNode : Node) (s : Planner) :
    Agrees (reconstruct_path_st K curNode s) (reconstruct_path K curNode) (SameButPath s) := by
  unfold reconstruct_path_st reconstruct_path
  simp only [List.append_nil]
  cases insert_waits K (parent_chain curNode.cell curNode.parent) with
  | error e => simp [Agrees]
  | ok nodes => simp [Agrees, SameButPath]

/-- The goal loop on the object returns what the goal loop returns and writes
`path` only. -/
theorem goal_loop_st_agrees (K : Const) (goals : List Node) :
    ∀ (curNode : Node) (paths : List Path) (s : Planner),
      Agrees (goal_loop_st K curNode goals paths s)
        (goal_loop K s.close.length curNode goals paths) (SameButPath s) := by
  induction goals with
  | nil =>
    intro curNode paths s
    simp [goal_loop_st, goal_loop, Agrees, SameButPath]
  | cons goal goals ih =>
    intro curNode paths s
    cases paths with
    | nil => simp [goal_loop_st, goal_loop, Agrees, SameButPath]
    | cons p paths =>
      simp only [goal_loop_st, goal_loop]
      split_ifs with hc
      · have hr := reconstruct_path_st_agrees K curNode s
        cases hy : reconstruct_path K curNode with
        | error e =>
          rw [hy] at hr
          rw [agrees_error hr]
          simp [Agrees]
        | ok nodes =>
          rw [hy] at hr
          obtain ⟨s1, hs1, hP⟩ := agrees_ok hr
          rw [hs1]
          simp only []
          cases nodes.getLast? with
          | none => simp [Agrees]
          | some b =>
            simp only []
            have hi := ih (if b.g < goal.interval.1 then { curNode with g := goal.interval.1 }
              else curNode) paths s1
            rw [hP.2.1] at hi
            cases hy2 : goal_loop K s.close.length
                (if b.g < goal.interval.1 then { curNode with g := goal.interval.1 }
                  else curNode) goals paths with
            | error e =>
              rw [hy2] at hi
              rw [agrees_error hi]
              simp [Agrees]
            | ok r =>
              rw [hy2] at hi
              obtain ⟨s2, hs2, hP2⟩ := agrees_ok hi
              rw [hs2]
              obtain ⟨cur2, paths2, cnt⟩ := r
              simp only [Agrees, hP.2.1, true_and]
              exact ⟨hP2.1.trans hP.1, hP2.2.1.trans hP.2.1, hP2.2.2.1.trans hP.2.2.1,
                hP2.2.2.2.trans hP.2.2.2⟩
      · have hi := ih curNode paths s
        cases hy2 : goal_loop K s.close.length curNode goals paths with
        | error e =>
          rw [hy2] at hi
          rw [agrees_error hi]
          simp [Agrees]
        | ok r =>
          rw [hy2] at hi
          obtain ⟨s2, hs2, hP2⟩ := agrees_ok hi
          rw [hs2]
          obtain ⟨cur2, paths2, cnt⟩ := r
          simp only [Agrees, true_and]
          exact hP2

/-- The loop over the successors on the object changes `open` as
`push_successors` does and nothing else. -/
theorem push_successors_st_eq (K : Const) (max_f : ℚ) (parent : List Cell) (succs : List Node) :
    ∀ s : Planner, push_successors_st K max_f parent succs s =
      { s with openl := push_successors K max_f s.close parent s.openl succs } := by
  induction succs with
  | nil => intro s; simp [push_successors_st, push_successors]
  | cons it succs ih =>
    intro s
    simp only [push_successors_st, push_successors]
    split_ifs
    · exact ih s
    · exact ih s
    · rw [ih]
      simp [add_open_st]

/-- The search loop on the object returns what the search loop returns on the
members `open` and `close` of the object, and leaves the constraint members and
`agent` as they are. -/
theorem search_loop_st_agrees (K : Const) (map : Map) (h_values : Heuristic)
    (goals : List Node) (goal0 : Node) (max_f : ℚ) (fuel : Nat) :
    ∀ (paths : List Path) (pathFound : Nat) (s : Planner),
      Agrees (search_loop_st K map h_values goals goal0 max_f fuel paths pathFound s)
        (search_loop K s.agent s.store map h_values goals goal0 max_f fuel s.openl s.close
          paths pathFound) (Holds s.store s.agent) := by
  induction fuel with
  | zero => intro paths pathFound s; simp [search_loop_st, search_loop, Agrees]
  | succ fuel ih =>
    intro paths pathFound s
    obtain ⟨openl, close, store, path, agent⟩ := s
    cases openl with
    | nil => simp [search_loop_st, search_loop, find_min_st, Agrees, Holds]
    | cons popped openl =>
      simp only [search_loop_st, search_loop, find_min_st]
      by_cases hid : popped.id = goal0.id
      · simp only [if_pos hid]
        have hg := goal_loop_st_agrees K goals popped paths
          ⟨openl, close ++ [popped], store, path, agent⟩
        cases hy : goal_loop K (close ++ [popped]).length popped goals paths with
        | error e =>
          rw [hy] at hg
          rw [agrees_error hg]
          simp [Agrees]
        | ok r =>
          rw [hy] at hg
          obtain ⟨s3, hs3, hP⟩ := agrees_ok hg
          rw [hs3]
          obtain ⟨curNode, paths1, cnt⟩ := r
          simp only []
          split_ifs with hf
          · simp only [Agrees, true_and]
            exact ⟨hP.2.2.1, hP.2.2.2⟩
          · rw [push_successors_st_eq]
            have hi := ih paths1 (pathFound + cnt)
              { s3 with openl := (push_successors K max_f s3.close
                (popped.cell :: popped.parent) s3.openl
                (find_successors K s3.agent s3.store map h_values curNode (goalArg goal0))) }
            obtain ⟨h1, h2, h3, h4⟩ := hP
            simp only at h1 h2 h3 h4
            simp only [h1, h2, h3, h4] at hi ⊢
            exact hi
      · simp only [if_neg hid]
        rw [push_successors_st_eq]
        exact ih paths pathFound _

/-- `find_partial_path` on the object returns what `find_partial_path` returns,
whatever `open`, `close` and `path` hold on entry. -/
theorem find_partial_path_st_agrees (K : Const) (fuel : Nat) (map : Map)
    (h_values : Heuristic) (starts goals : List Node) (max_f : ℚ) (s : Planner) :
    Agrees (find_partial_path_st K fuel map h_values starts goals max_f s)
      (find_partial_path K fuel s.agent s.store map h_values starts goals max_f)
      (Holds s.store s.agent) := by
  unfold find_partial_path_st find_partial_path
  cases goals with
  | nil => simp [Agrees]
  | cons goal0 goals =>
    simp only [List.nil_append]
    exact search_loop_st_agrees K map h_values (goal0 :: goals) goal0 max_f fuel _ _ _

/-- `get_endpoints` on the object returns what `get_endpoints` returns and
creates the collision vector of the vertex. -/
theorem get_endpoints_st_agrees (K : Const) (fuel : Nat) (node_id : Int)
    (node_i node_j t1 t2 : ℚ) (s : Planner) :
    Agrees (get_endpoints_st K fuel node_id node_i node_j t1 t2 s)
      (get_endpoints K fuel s.store node_id node_i node_j t1 t2)
      (Holds (touch s.store node_id) s.agent) := by
  unfold get_endpoints_st
  cases get_endpoints K fuel s.store node_id node_i node_j t1 t2 with
  | error e => simp [Agrees]
  | ok nodes => simp [Agrees, Holds]

/-- One segment of the landmark loop on the object returns what the segment
returns. -/
theorem segment_st_agrees (K : Const) (fuel : Nat) (map : Map) (h_values : Heuristic)
    (first : Bool) (starts goals : List Node) (results : List Path) (s : Planner) :
    Agrees (segment_st K fuel map h_values first starts goals results s)
      (segment K fuel s.agent s.store map h_values first starts goals results)
      (Holds s.store s.agent) := by
  unfold segment_st segment
  cases goals.getLast? with
  | none => simp [Agrees, Holds]
  | some gl =>
    simp only []
    have hp := find_partial_path_st_agrees K fuel map h_values starts goals gl.interval.2 s
    cases hy : find_partial_path K fuel s.agent s.store map h_values starts goals
        gl.interval.2 with
    | error e =>
      rw [hy] at hp
      rw [agrees_error hp]
      simp [Agrees]
    | ok parts =>
      rw [hy] at hp
      obtain ⟨s1, hs1, hP⟩ := agrees_ok hp
      rw [hs1]
      simp only []
      cases stitch K parts results with
      | error e => simp [Agrees]
      | ok stitched =>
        simp only []
        split_ifs <;> exact ⟨rfl, hP⟩

/-- The traversal of a landmark edge on the object returns what the traversal
returns and creates the collision vector of the destination. -/
theorem traverse_st_agrees (K : Const) (fuel : Nat) (lm : Move) (results : List Path)
    (s : Planner) :
    Agrees (traverse_st K fuel lm results s) (traverse K fuel s.store lm results)
      (Holds (touch s.store lm.id2) s.agent) := by
  unfold traverse_st traverse
  cases back_nodes results with
  | error e => simp [Agrees]
  | ok starts =>
    simp only []
    have hg := get_endpoints_st_agrees K fuel lm.id2 lm.i2 lm.j2
      (lm.t1 + K.sqrt ((lm.i1 - lm.i2) ^ 2 + (lm.j1 - lm.j2) ^ 2))
      (lm.t2 + K.sqrt ((lm.i1 - lm.i2) ^ 2 + (lm.j1 - lm.j2) ^ 2)) s
    cases hy : get_endpoints K fuel s.store lm.id2 lm.i2 lm.j2
        (lm.t1 + K.sqrt ((lm.i1 - lm.i2) ^ 2 + (lm.j1 - lm.j2) ^ 2))
        (lm.t2 + K.sqrt ((lm.i1 - lm.i2) ^ 2 + (lm.j1 - lm.j2) ^ 2)) with
    | error e =>
      rw [hy] at hg
      rw [agrees_error hg]
      simp [Agrees]
    | ok goals =>
      rw [hy] at hg
      obtain ⟨s1, hs1, hP⟩ := agrees_ok hg
      rw [hs1]
      simp only [hP.1]
      split_ifs
      · simp only [Agrees, true_and]; exact hP
      · cases collect (traverse_goal K (touch s.store lm.id2)
            (K.sqrt ((lm.i1 - lm.i2) ^ 2 + (lm.j1 - lm.j2) ^ 2)) starts results) goals with
        | error e => simp [Agrees]
        | ok rs =>
          simp only []
          split_ifs
          · simp only [Agrees, true_and]; exact hP
          · simp only [Agrees, true_and]; exact hP

/-- The landmark loop on the object returns what the landmark loop returns, when
the member `agent` is the agent of the call. -/
theorem landmark_loop_st_agrees (K : Const) (fuel : Nat) (agent : Agent) (map : Map)
    (h_values : Heuristic) (rem : List Move) :
    ∀ (results : List Path) (s : Planner), s.agent = agent →
      Agrees (landmark_loop_st K fuel agent map h_values rem results s)
        (landmark_loop K fuel agent map h_values rem s.store results) (fun _ => True) := by
  induction rem with
  | nil =>
    intro results s ha
    simp only [landmark_loop_st, landmark_loop]
    cases back_nodes results with
    | error e => simp [Agrees]
    | ok starts =>
      simp only []
      have hg := get_endpoints_st_agrees K fuel agent.goal_id agent.goal_i agent.goal_j 0
        K.CN_INFINITY s
      cases hy : get_endpoints K fuel s.store agent.goal_id agent.goal_i agent.goal_j 0
          K.CN_INFINITY with
      | error e =>
        rw [hy] at hg
        rw [agrees_error hg]
        simp [Agrees]
      | ok ends =>
        rw [hy] at hg
        obtain ⟨s1, hs1, hP⟩ := agrees_ok hg
        rw [hs1]
        simp only []
        cases ends.getLast? with
        | none => simp [Agrees]
        | some gl =>
          simp only []
          have hseg := segment_st_agrees K fuel map h_values false starts [gl] results s1
          rw [hP.1, hP.2, ha] at hseg
          cases hy2 : segment K fuel agent (touch s.store agent.goal_id) map h_values false
              starts [gl] results with
          | error e =>
            rw [hy2] at hseg
            rw [agrees_error hseg]
            simp [Agrees]
          | ok r =>
            rw [hy2] at hseg
            obtain ⟨s2, hs2, _⟩ := agrees_ok hseg
            rw [hs2]
            simp [Agrees]
  | cons lm rem ih =>
    intro results s ha
    simp only [landmark_loop_st, landmark_loop]
    cases back_nodes results with
    | error e => simp [Agrees]
    | ok starts =>
      simp only []
      have hg := get_endpoints_st_agrees K fuel lm.id1 lm.i1 lm.j1 lm.t1 lm.t2 s
      cases hy : get_endpoints K fuel s.store lm.id1 lm.i1 lm.j1 lm.t1 lm.t2 with
      | error e =>
        rw [hy] at hg
        rw [agrees_error hg]
        simp [Agrees]
      | ok goals =>
        rw [hy] at hg
        obtain ⟨s1, hs1, hP⟩ := agrees_ok hg
        rw [hs1]
        simp only []
        have hseg := segment_st_agrees K fuel map h_values false starts goals results s1
        rw [hP.1, hP.2, ha] at hseg
        cases hy2 : segment K fuel agent (touch s.store lm.id1) map h_values false starts goals
            results with
        | error e =>
          rw [hy2] at hseg
          rw [agrees_error hseg]
          simp [Agrees]
        | ok r =>
          rw [hy2] at hseg
          obtain ⟨s2, hs2, hP2⟩ := agrees_ok hseg
          rw [hs2]
          cases r with
          | none => simp [Agrees]
          | some results1 =>
            simp only []
            have ht := traverse_st_agrees K fuel lm results1 s2
            rw [hP2.1, hP2.2] at ht
            cases hy3 : traverse K fuel (touch s.store lm.id1) lm results1 with
            | error e =>
              rw [hy3] at ht
              rw [agrees_error ht]
              simp [Agrees]
            | ok r2 =>
              rw [hy3] at ht
              obtain ⟨s3, hs3, hP3⟩ := agrees_ok ht
              rw [hs3]
              cases r2 with
              | none => simp [Agrees]
              | some results2 =>
                simp only []
                have hi := ih results2 s3 hP3.2
                rw [hP3.1] at hi
                exact hi

/-- The landmark branch of `find_path` on the object returns what the landmark
branch returns. -/
theorem find_path_landmarks_st_agrees (K : Const) (fuel : Nat) (agent : Agent) (map : Map)
    (h_values : Heuristic) (lm : Move) (rem : List Move) (s : Planner) (ha : s.agent = agent) :
    Agrees (find_path_landmarks_st K fuel agent map h_values lm rem s)
      (find_path_landmarks K fuel agent map h_values s.store lm rem) (fun _ => True) := by
  unfold find_path_landmarks_st find_path_landmarks
  have hg := get_endpoints_st_agrees K fuel agent.start_id agent.start_i agent.start_j 0
    K.CN_INFINITY s
  cases hy : get_endpoints K fuel s.store agent.start_id agent.start_i agent.start_j 0
      K.CN_INFINITY with
  | error e =>
    rw [hy] at hg
    rw [agrees_error hg]
    simp [Agrees]
  | ok ends =>
    rw [hy] at hg
    obtain ⟨s1, hs1, hP⟩ := agrees_ok hg
    rw [hs1]
    cases ends with
    | nil => simp [Agrees]
    | cons st _ =>
      simp only []
      have hg2 := get_endpoints_st_agrees K fuel lm.id1 lm.i1 lm.j1 lm.t1 lm.t2 s1
      rw [hP.1, hP.2] at hg2
      cases hy2 : get_endpoints K fuel (touch s.store agent.start_id) lm.id1 lm.i1 lm.j1 lm.t1
          lm.t2 with
      | error e =>
        rw [hy2] at hg2
        rw [agrees_error hg2]
        simp [Agrees]
      | ok goals =>
        rw [hy2] at hg2
        obtain ⟨s2, hs2, hP2⟩ := agrees_ok hg2
        rw [hs2]
        simp only []
        have hseg := segment_st_agrees K fuel map h_values true [st] goals [] s2
        rw [hP2.1, hP2.2, ha] at hseg
        cases hy3 : segment K fuel agent (touch (touch s.store agent.start_id) lm.id1) map
            h_values true [st] goals [] with
        | error e =>
          rw [hy3] at hseg
          rw [agrees_error hseg]
          simp [Agrees]
        | ok r =>
          rw [hy3] at hseg
          obtain ⟨s3, hs3, hP3⟩ := agrees_ok hseg
          rw [hs3]
          cases r with
          | none => simp [Agrees]
          | some results1 =>
            simp only []
            have ht := traverse_st_agrees K fuel lm results1 s3
            rw [hP3.1, hP3.2] at ht
            cases hy4 : traverse K fuel (touch (touch s.store agent.start_id) lm.id1) lm
                results1 with
            | error e =>
              rw [hy4] at ht
              rw [agrees_error ht]
              simp [Agrees]
            | ok r2 =>
              rw [hy4] at ht
              obtain ⟨s4, hs4, hP4⟩ := agrees_ok ht
              rw [hs4]
              cases r2 with
              | none => simp [Agrees]
              | some results2 =>
                simp only []
                have hl := landmark_loop_st_agrees K fuel agent map h_values rem results2 s4
                  hP4.2
                rw [hP4.1] at hl
                cases hy5 : landmark_loop K fuel agent map h_values rem
                    (touch (touch (touch s.store agent.start_id) lm.id1) lm.id2) results2 with
                | error e =>
                  rw [hy5] at hl
                  rw [agrees_error hl]
                  simp [Agrees]
                | ok r3 =>
                  rw [hy5] at hl
                  obtain ⟨s5, hs5, _⟩ := agrees_ok hl
                  rw [hs5]
                  cases r3 with
                  | none => simp [Agrees]
                  | some l =>
                    cases l with
                    | nil => simp [Agrees]
                    | cons r _ =>
                      simp only []
                      cases finish agent r with
                      | error e => simp [Agrees]
                      | ok p => simp [Agrees]

/-- The branch of `find_path` without landmarks on the object returns what the
branch returns. -/
theorem find_path_direct_st_agrees (K : Const) (fuel : Nat) (agent : Agent) (map : Map)
    (h_values : Heuristic) (s : Planner) (ha : s.agent = agent) :
    Agrees (find_path_direct_st K fuel agent map h_values s)
      (find_path_direct K fuel agent map h_values s.store) (fun _ => True) := by
  unfold find_path_direct_st find_path_direct
  have hg := get_endpoints_st_agrees K fuel agent.start_id agent.start_i agent.start_j 0
    K.CN_INFINITY s
  cases hy : get_endpoints K fuel s.store agent.start_id agent.start_i agent.start_j 0
      K.CN_INFINITY with
  | error e =>
    rw [hy] at hg
    rw [agrees_error hg]
    simp [Agrees]
  | ok ends =>
    rw [hy] at hg
    obtain ⟨s1, hs1, hP⟩ := agrees_ok hg
    rw [hs1]
    cases ends with
    | nil => simp [Agrees]
    | cons st _ =>
      simp only []
      have hg2 := get_endpoints_st_agrees K fuel agent.goal_id agent.goal_i agent.goal_j 0
        K.CN_INFINITY s1
      rw [hP.1, hP.2] at hg2
      cases hy2 : get_endpoints K fuel (touch s.store agent.start_id) agent.goal_id agent.goal_i
          agent.goal_j 0 K.CN_INFINITY with
      | error e =>
        rw [hy2] at hg2
        rw [agrees_error hg2]
        simp [Agrees]
      | ok gends =>
        rw [hy2] at hg2
        obtain ⟨s2, hs2, hP2⟩ := agrees_ok hg2
        rw [hs2]
        simp only []
        cases gends.getLast? with
        | none => simp [Agrees]
        | some gl =>
          simp only []
          have hp := find_partial_path_st_agrees K fuel map h_values [st] [gl] K.CN_INFINITY s2
          rw [hP2.1, hP2.2, ha] at hp
          cases hy3 : find_partial_path K fuel agent
              (touch (touch s.store agent.start_id) agent.goal_id) map h_values [st] [gl]
              K.CN_INFINITY with
          | error e =>
            rw [hy3] at hp
            rw [agrees_error hp]
            simp [Agrees]
          | ok parts =>
            rw [hy3] at hp
            obtain ⟨s3, hs3, _⟩ := agrees_ok hp
            rw [hs3]
            cases parts with
            | nil => simp [Agrees]
            | cons p0 _ =>
              simp only []
              split_ifs
              · simp [Agrees]
              · cases finish agent p0 with
                | error e => simp [Agrees]
                | ok p => simp [Agrees]

/-- `find_path` on a planner object returns what `find_path` returns on the
arguments alone, whatever the members of the object hold on entry. -/
theorem find_path_st_agrees (K : Const) (fuel : Nat) (agent : Agent) (map : Map)
    (cons : List Constraint) (h_values : Heuristic) (s : Planner) :
    Agrees (find_path_st K fuel agent map cons h_values s)
      (find_path K fuel agent map cons h_values) (fun _ => True) := by
  have hst : (enter K agent cons s).store = make_constraints K agent clear cons := by
    simp [enter, make_constraints_st, set_agent, clear_state]
  have hag : (enter K agent cons s).agent = agent := by
    simp [enter, make_constraints_st, set_agent]
  unfold find_path_st find_path
  simp only [hst]
  cases hl : (make_constraints K agent clear cons).landmarks with
  | nil =>
    simp only []
    have h := find_path_direct_st_agrees K fuel agent map h_values _ hag
    rw [hst] at h
    exact h
  | cons lm rem =>
    simp only []
    have h := find_path_landmarks_st_agrees K fuel agent map h_values lm rem _ hag
    rw [hst] at h
    exact h

/-! ### Edge constraints in the arithmetic of `double` -/

/-- A departure time that is in no window `m` stays in no window `m` through the
edge-constraint loop over a list whose windows start no earlier than `m`, when
a push to the end of a window arrives no earlier than that end. -/
theorem avoid_moves_fl_keeps (A : Arith) (K : Const) (c : ℚ) (m : Move) (l : List Move)
    (hle : ∀ x ∈ l, m.t1 ≤ x.t1) (hrt : ∀ x ∈ l, x.t2 ≤ A.sub (A.add x.t2 c) c) (g : ℚ)
    (hg : ¬ (A.add (A.sub g c) K.CN_EPSILON > m.t1 ∧ A.sub g c < m.t2)) :
    ¬ (A.add (A.sub (avoid_moves_fl A K c l g) c) K.CN_EPSILON > m.t1 ∧
      A.sub (avoid_moves_fl A K c l g) c < m.t2) := by
  induction l generalizing g with
  | nil => simpa [avoid_moves_fl] using hg
  | cons x rest ih =>
    simp only [avoid_moves_fl]
    apply ih (fun y hy => hle y (List.mem_cons_of_mem _ hy))
      (fun y hy => hrt y (List.mem_cons_of_mem _ hy))
    split_ifs with h
    · have h1 := hle x (List.mem_cons_self _ _)
      have h2 := hrt x (List.mem_cons_self _ _)
      have h3 : m.t2 ≤ A.sub g c := by
        by_contra hlt
        exact hg ⟨lt_of_le_of_lt h1 h.1, lt_of_not_le hlt⟩
      intro hc
      linarith [hc.2, h.2]
    · exact hg

/-- After the edge-constraint loop of `find_successors` over a list sorted by
`t1`, the departure time the code computes lies in no window of the list, when
a push to the end of a window arrives no earlier than that end. -/
theorem avoid_moves_fl_clear (A : Arith) (K : Const) (c : ℚ) (l : List Move)
    (hs : l.Sorted (fun a b => a.t1 ≤ b.t1)) (hrt : ∀ x ∈ l, x.t2 ≤ A.sub (A.add x.t2 c) c)
    (g : ℚ) :
    ∀ m ∈ l, ¬ (A.add (A.sub (avoid_moves_fl A K c l g) c) K.CN_EPSILON > m.t1 ∧
      A.sub (avoid_moves_fl A K c l g) c < m.t2) := by
  induction l generalizing g with
  | nil => simp
  | cons x rest ih =>
    have hrest := (List.sorted_cons.mp hs).2
    have hle := (List.sorted_cons.mp hs).1
    intro m hm
    rcases List.mem_cons.mp hm with rfl | hin
    · simp only [avoid_moves_fl]
      apply avoid_moves_fl_keeps A K c m rest hle
        (fun y hy => hrt y (List.mem_cons_of_mem _ hy))
      split_ifs with h
      · have h2 := hrt m (List.mem_cons_self _ _)
        intro hc
        linarith [hc.2]
      · exact h
    · simp only [avoid_moves_fl]
      exact ih hrest (fun y hy => hrt y (List.mem_cons_of_mem _ hy)) _ m hin

/-- Every node emitted by the interval loop is at the vertex of the move and has
an arrival time produced by the edge-constraint loop. -/
theorem interval_loop_fl_mem (A : Arith) (K : Const) (curNode : Node) (v : Vertex)
    (cost hv : ℚ) (cons : Option (List Move)) (ivs : List (ℚ × ℚ)) (g : ℚ) (s : Node)
    (hs : s ∈ interval_loop_fl A K curNode v cost hv cons ivs g) :
    s.id = v.id ∧ s.i = v.i ∧ s.j = v.j ∧
      ∀ l, cons = some l → ∃ g1, s.g = avoid_moves_fl A K cost l g1 := by
  induction ivs generalizing g with
  | nil => simp [interval_loop_fl] at hs
  | cons iv rest ih =>
    simp only [interval_loop_fl] at hs
    split_ifs at hs
    all_goals first
      | exact ih _ hs
      | (rcases List.mem_cons.mp hs with rfl | hin
         · refine ⟨rfl, rfl, rfl, ?_⟩
           intro l hl
           subst hl
           exact ⟨_, rfl⟩
         · exact ih _ hin)

/-- After the edge-constraint loop of `check_endpoint` over a list sorted by
`t1`, the departure time lies in no window of the list. -/
theorem endpoint_avoid_fl_keeps (A : Arith) (K : Const) (m : Move) (l : List Move)
    (hle : ∀ x ∈ l, m.t1 ≤ x.t1) (g : ℚ)
    (hg : ¬ (A.add g K.CN_EPSILON > m.t1 ∧ g < m.t2)) :
    ¬ (A.add (endpoint_avoid_fl A K l g) K.CN_EPSILON > m.t1 ∧
      endpoint_avoid_fl A K l g < m.t2) := by
  induction l generalizing g with
  | nil => simpa [endpoint_avoid_fl] using hg
  | cons x rest ih =>
    simp only [endpoint_avoid_fl]
    apply ih (fun y hy => hle y (List.mem_cons_of_mem _ hy))
    split_ifs with h
    · have h1 := hle x (List.mem_cons_self _ _)
      have h3 : m.t2 ≤ g := by
        by_contra hlt
        exact hg ⟨lt_of_le_of_lt h1 h.1, lt_of_not_le hlt⟩
      intro hc
      linarith [hc.2, h.2]
    · exact hg

/-- After the edge-constraint loop of `check_endpoint` over a list sorted by
`t1`, the departure time lies in no window of the list. -/
theorem endpoint_avoid_fl_clear (A : Arith) (K : Const) (l : List Move)
    (hs : l.Sorted (fun a b => a.t1 ≤ b.t1)) (g : ℚ) :
    ∀ m ∈ l, ¬ (A.add (endpoint_avoid_fl A K l g) K.CN_EPSILON > m.t1 ∧
      endpoint_avoid_fl A K l g < m.t2) := by
  induction l generalizing g with
  | nil => simp
  | cons x rest ih =>
    have hrest := (List.sorted_cons.mp hs).2
    have hle := (List.sorted_cons.mp hs).1
    intro m hm
    rcases List.mem_cons.mp hm with rfl | hin
    · simp only [endpoint_avoid_fl]
      apply endpoint_avoid_fl_keeps A K m rest hle
      split_ifs with h
      · intro hc
        exact lt_irrefl _ hc.2
      · exact h
    · simp only [endpoint_avoid_fl]
      exact ih hrest _ m hin

/-- The departure time of `check_endpoint` is the start time, the time that
reaches the goal interval when it opens, or the end of a window. -/
theorem endpoint_avoid_fl_mem (A : Arith) (K : Const) (l : List Move) (g : ℚ) :
    endpoint_avoid_fl A K l g = g ∨ endpoint_avoid_fl A K l g ∈ l.map (fun m => m.t2) := by
  induction l generalizing g with
  | nil => left; rfl
  | cons x rest ih =>
    simp only [endpoint_avoid_fl]
    split_ifs with h
    · rcases ih x.t2 with h1 | h1
      · right; rw [h1]; simp
      · right; simp only [List.map_cons, List.mem_cons]; right; exact h1
    · rcases ih g with h1 | h1
      · left; exact h1
      · right; simp only [List.map_cons, List.mem_cons]; right; exact h1

/-! ### Earliest arrival in the arithmetic of `double` -/

/-- The maximum accumulated from the left is the maximum taken from the
right. -/
theorem foldr_max_start (l : List ℚ) (a b : ℚ) :
    l.foldr max (max a b) = max b (l.foldr max a) := by
  induction l with
  | nil => exact max_comm a b
  | cons y rest ih =>
    simp only [List.foldr_cons]
    rw [ih, max_left_comm]

/-- The loop `h = max(h, …)` over the pivots computes the maximum of the
initial value and the bounds. -/
theorem foldl_max_eq_foldr (f : Nat → ℚ) (l : List Nat) (init : ℚ) :
    l.foldl (fun h p => max h (f p)) init = (l.map f).foldr max init := by
  induction l generalizing init with
  | nil => rfl
  | cons x rest ih =>
    simp only [List.foldl_cons, List.map_cons, List.foldr_cons]
    rw [ih, foldr_max_start]

/-- The heuristic value `find_successors` computes is the heuristic of the
specification, when the arithmetic is exact on the operations of the
differential heuristic. -/
theorem h_value_fl_eq_spec (A : Arith) (K : Const) (agent : Agent) (h_values : Heuristic)
    (goal : Node) (v : Vertex)
    (hh : goal.id ≠ agent.goal_id → HeurExact A K h_values goal v) :
    h_value_fl A K agent h_values goal v = h_spec K agent h_values goal v := by
  unfold h_value_fl h_spec
  split_ifs with hg
  · rfl
  · obtain ⟨h1, h2⟩ := hh hg
    rw [h1, ← foldl_max_eq_foldr]
    generalize K.sqrt ((goal.i - v.i) ^ 2 + (goal.j - v.j) ^ 2) = init
    generalize List.range h_values.get_size = l at h2
    induction l generalizing init with
    | nil => rfl
    | cons p rest ih =>
      simp only [List.foldl_cons]
      rw [h2 p (List.mem_cons_self _ _)]
      exact ih _ (fun q hq => h2 q (List.mem_cons_of_mem _ hq))

/-- The edge-constraint loop in an arithmetic that is exact at the arrival time
and at the arrivals after a push is the loop in exact arithmetic. -/
theorem avoid_moves_fl_exact (A : Arith) (K : Const) (c hv : ℚ) (L : List Move)
    (hpush : ∀ m ∈ L, A.add m.t2 c = m.t2 + c)
    (hL : ∀ m ∈ L, ExactAt A K c hv L (m.t2 + c)) (l : List Move) (hsub : ∀ m ∈ l, m ∈ L)
    (g : ℚ) (hg : ExactAt A K c hv L g) :
    avoid_moves_fl A K c l g = avoid_moves K c l g ∧ ExactAt A K c hv L (avoid_moves K c l g) := by
  induction l generalizing g with
  | nil => exact ⟨rfl, hg⟩
  | cons m rest ih =>
    have hm := hsub m (List.mem_cons_self _ _)
    simp only [avoid_moves_fl, avoid_moves]
    rw [hg.1, hpush m hm]
    by_cases h : g - c + K.CN_EPSILON > m.t1 ∧ g - c < m.t2
    · rw [if_pos ⟨(hg.2.2 m hm).mpr h.1, h.2⟩, if_pos h]
      exact ih (fun x hx => hsub x (List.mem_cons_of_mem _ hx)) _ (hL m hm)
    · rw [if_neg (fun hc => h ⟨(hg.2.2 m hm).mp hc.1, hc.2⟩), if_neg h]
      exact ih (fun x hx => hsub x (List.mem_cons_of_mem _ hx)) _ hg

/-- The arrival time for one interval in an arithmetic that is exact on the run
is the arrival time in exact arithmetic. -/
theorem arrival_fl_exact (A : Arith) (K : Const) (c hv : ℚ) (cons : Option (List Move))
    (hpush : ∀ m ∈ cons.getD [], A.add m.t2 c = m.t2 + c)
    (hL : ∀ m ∈ cons.getD [], ExactAt A K c hv (cons.getD []) (m.t2 + c))
    (I : ℚ × ℚ) (hI : ExactAt A K c hv (cons.getD []) I.1)
    (g : ℚ) (hg : ExactAt A K c hv (cons.getD []) g) :
    arrival_fl A K c cons I g = arrival K c cons I g ∧
      ExactAt A K c hv (cons.getD []) (arrival K c cons I g) := by
  cases cons with
  | none =>
    show (if I.1 > g then I.1 else g) = (if I.1 > g then I.1 else g) ∧
      ExactAt A K c hv [] (if I.1 > g then I.1 else g)
    refine ⟨rfl, ?_⟩
    split_ifs
    · exact hI
    · exact hg
  | some l =>
    simp only [arrival_fl, arrival]
    simp only [Option.getD_some] at hpush hL hI hg ⊢
    apply avoid_moves_fl_exact A K c hv l hpush hL l (fun m hm => hm)
    split_ifs
    · exact hI
    · exact hg

/-- The interval loop in an arithmetic that is exact on the run is the interval
loop in exact arithmetic. -/
theorem interval_loop_fl_exact (A : Arith) (K : Const) (u : Node) (v : Vertex) (c hv : ℚ)
    (cons : Option (List Move))
    (hpush : ∀ m ∈ cons.getD [], A.add m.t2 c = m.t2 + c)
    (hL : ∀ m ∈ cons.getD [], ExactAt A K c hv (cons.getD []) (m.t2 + c)) :
    ∀ (ivs : List (ℚ × ℚ)) (g : ℚ), (∀ I ∈ ivs, ExactAt A K c hv (cons.getD []) I.1) →
      ExactAt A K c hv (cons.getD []) g →
      interval_loop_fl A K u v c hv cons ivs g = interval_loop K u v c hv cons ivs g := by
  intro ivs
  induction ivs with
  | nil => intro g _ _; rfl
  | cons I rest ih =>
    intro g hI hg
    obtain ⟨e1, e2⟩ := arrival_fl_exact A K c hv cons hpush hL I
      (hI I (List.mem_cons_self _ _)) g hg
    have hrest : ∀ J ∈ rest, ExactAt A K c hv (cons.getD []) J.1 :=
      fun J hJ => hI J (List.mem_cons_of_mem _ hJ)
    simp only [interval_loop_fl, interval_loop]
    rw [e1, e2.1, e2.2.1, ih g hrest hg, ih _ hrest e2]

/-- The successors of `u` at the neighbour `v`, when `v` is listed once among
the valid moves of `u`, are those the interval loop emits for `v`. -/
theorem find_successors_fl_at (A : Arith) (K : Const) (agent : Agent) (S : Store) (map : Map)
    (h_values : Heuristic) (u goal : Node) (v : Vertex) (hv : v ∈ map.get_valid_moves u.id)
    (huniq : ∀ w ∈ map.get_valid_moves u.id, w.id = v.id → w = v) (n : Node) :
    (n ∈ find_successors_fl A K agent S map h_values u goal ∧ n.id = v.id) ↔
      n ∈ move_successors_fl A K agent S h_values u goal v := by
  simp only [find_successors_fl, List.mem_flatMap]
  constructor
  · rintro ⟨⟨w, hw, hn⟩, hid⟩
    have hnw := (interval_loop_fl_mem A K u w _ _ _ _ _ n hn).1
    rw [huniq w hw (by rw [← hnw, hid])] at hn
    exact hn
  · intro hn
    exact ⟨⟨v, hv, hn⟩, (interval_loop_fl_mem A K u v _ _ _ _ _ n hn).1⟩

/-- The successors `find_successors` emits for the neighbour `v` in an
arithmetic that is exact on the run are those of the interval loop in exact
arithmetic over the gaps of the collision list of `v`. -/
theorem move_successors_fl_exact (A : Arith) (K : Const) (agent : Agent) (S : Store)
    (h_values : Heuristic) (u goal : Node) (v : Vertex) (colls : List (ℚ × ℚ))
    (hS : S.collision_intervals v.id = some colls)
    (hex : ExactRun A K u (dist_fl A K u.i u.j v.i v.j) (h_value_fl A K agent h_values goal v)
      ((S.constraints (u.id, v.id)).getD []) (gaps K colls)) :
    move_successors_fl A K agent S h_values u goal v
      = interval_loop K u v (dist_fl A K u.i u.j v.i v.j) (h_value_fl A K agent h_values goal v)
          (S.constraints (u.id, v.id)) (gaps K colls) (u.g + dist_fl A K u.i u.j v.i v.j) := by
  obtain ⟨h1, h2, h3⟩ := hex
  have hms : successor_intervals K (S.collision_intervals v.id)
      (A.add u.g (dist_fl A K u.i u.j v.i v.j)) = gaps K colls := by
    simp only [hS, successor_intervals, gaps, safe_intervals_from_zip]
  unfold move_successors_fl
  rw [hms, h1]
  apply interval_loop_fl_exact A K u v _ _ _ h2
  · intro m hm
    apply h3
    simp only [List.mem_cons, List.mem_append, List.mem_map]
    exact Or.inr (Or.inr ⟨m, hm, rfl⟩)
  · intro I hI
    apply h3
    simp only [List.mem_cons, List.mem_append, List.mem_map]
    exact Or.inr (Or.inl ⟨I, hI, rfl⟩)
  · exact h3 _ (List.mem_cons_self _ _)

/-! ### The arithmetic of `double` without rounding -/

/-- In arithmetic without rounding the edge-constraint loop of
`find_successors` is `avoid_moves`. -/
theorem avoid_moves_fl_rational (K : Const) (cost : ℚ) (l : List Move) (g : ℚ) :
    avoid_moves_fl rational K cost l g = avoid_moves K cost l g := by
  induction l generalizing g with
  | nil => rfl
  | cons m rest ih =>
    simp only [avoid_moves_fl, avoid_moves]
    exact ih _

/-- In arithmetic without rounding the interval loop is `interval_loop`. -/
theorem interval_loop_fl_rational (K : Const) (u : Node) (v : Vertex) (cost hv : ℚ)
    (cons : Option (List Move)) (ivs : List (ℚ × ℚ)) (g : ℚ) :
    interval_loop_fl rational K u v cost hv cons ivs g = interval_loop K u v cost hv cons ivs g := by
  have ha : ∀ I g, arrival_fl rational K cost cons I g = arrival K cost cons I g := by
    intro I g
    cases cons with
    | none => rfl
    | some l => exact avoid_moves_fl_rational K cost l _
  induction ivs generalizing g with
  | nil => rfl
  | cons I rest ih =>
    simp only [interval_loop_fl, interval_loop, ha]
    rw [ih g, ih (arrival K cost cons I g)]
    rfl

/-- In arithmetic without rounding the heuristic value is `h_value`. -/
theorem h_value_fl_rational (K : Const) (agent : Agent) (h_values : Heuristic) (goal : Node)
    (v : Vertex) : h_value_fl rational K agent h_values goal v = h_value K agent h_values goal v := by
  unfold h_value_fl h_value
  split_ifs
  · rfl
  · have hl : ∀ (l : List Nat) (init : ℚ),
        l.foldl (fun (h : ℚ) (p : Nat) =>
          max h |rational.sub (h_values.get_value v.id (p : Int))
            (h_values.get_value goal.id (p : Int))|) init
        = (l.map (fun p : Nat => (p : Int))).foldl
            (fun h p => max h |h_values.get_value v.id p - h_values.get_value goal.id p|)
            init := by
      intro l
      induction l with
      | nil => intro init; rfl
      | cons p rest ih => intro init; simp only [List.foldl_cons, List.map_cons]; exact ih _
    rw [hl]
    simp [dist_fl, rational, List.map_eq_flatMap, Bind.bind, Functor.map]

/-- In arithmetic without rounding `find_successors_fl` is `find_successors`. -/
theorem find_successors_fl_rational (K : Const) (agent : Agent) (S : Store) (map : Map)
    (h_values : Heuristic) (curNode goal : Node) :
    find_successors_fl rational K agent S map h_values curNode goal
      = find_successors K agent S map h_values curNode goal := by
  unfold find_successors_fl find_successors
  congr 1
  funext v
  unfold move_successors_fl move_successors
  rw [interval_loop_fl_rational, h_value_fl_rational]
  rfl

/-- In arithmetic without rounding `check_endpoint_fl` is `check_endpoint`. -/
theorem check_endpoint_fl_rational (K : Const) (S : Store) (start goal : Node) :
    check_endpoint_fl rational K S start goal = check_endpoint K S start goal := by
  have he : ∀ l g, endpoint_avoid_fl rational K l g = endpoint_avoid K l g := by
    intro l
    induction l with
    | nil => intro g; rfl
    | cons m rest ih => intro g; simp only [endpoint_avoid_fl, endpoint_avoid]; exact ih _
  unfold check_endpoint_fl endpoint_departure_fl check_endpoint
  cases S.constraints (start.id, goal.id) with
  | none => rfl
  | some l => simp only [he]; rfl

/-! ### The claims -/

/-- The map `line3` carries the coordinates of `coordLine`. -/
theorem line3_coord : MapCoord coordLine line3 := by
  intro a v hv
  simp only [line3] at hv
  split_ifs at hv
  all_goals
    simp only [List.mem_cons, List.mem_singleton, List.not_mem_nil, or_false] at hv
  · subst hv; simp [coordLine]
  · rcases hv with rfl | rfl <;> simp [coordLine]
  · subst hv; simp [coordLine]

/-- C2 (edge-constraint avoidance) as the specification states it fails in the
arithmetic of the source: `double`.  On `line3` with the edge constraint `0 → 1`
and the window `[0, 0.4]` (`d04` is the `double` nearest to `0.4`, the tolerance
of `Kd` the `double` nearest to `10⁻⁸`), the list of `(0, 1)` is the single
window with `t1 ≤ t2`; `find_successors` pushes the arrival at vertex `1` to
`0.4 + 1`, which rounds to the `double` `d14`, and emits it; the departure
`d14 − 1 = 0.39999999999999991…` is below `0.4`: it lies in the window by the
test of the loop itself.  `check_endpoint` returns the same arrival for the same
traversal. -/
theorem C2_departure_inside_window_in_double :
    d04 = fl (2 / 5) ∧ Kd.CN_EPSILON = fl (1 / 100000000) ∧
      storeEdge04.constraints (0, 1) = some [move01 0 d04] ∧
      [move01 0 d04].Sorted (fun a b => a.t1 ≤ b.t1) ∧ (move01 0 d04).t1 ≤ (move01 0 d04).t2 ∧
      (find_successors_fl binary64 Kd agent02 storeEdge04 line3 hLine3 startNode0
          goalNode2).map (fun n => (n.id, n.g)) = [(1, d14)] ∧
      dist_fl binary64 Kd startNode0.i startNode0.j 1 0 = 1 ∧
      binary64.sub d14 1 = 900719925474099 / 2251799813685248 ∧
      (binary64.add (binary64.sub d14 1) Kd.CN_EPSILON > (move01 0 d04).t1 ∧
        binary64.sub d14 1 < (move01 0 d04).t2) ∧
      check_endpoint_fl binary64 Kd storeEdge04 startNode0 endNode1 = d14 ∧
      d14 ≠ Kd.CN_INFINITY := by
  refine ⟨by decide!, by decide!, by decide!, by simp, by norm_num [move01, d04], by decide!,
    by decide!, by decide!, ⟨by decide!, by decide!⟩, by decide!, by decide!⟩

/-- C2 (edge-constraint avoidance), as the code guarantees it in its own
arithmetic `A`.  When the edge-constraint list of `(u.id, v.id)` is sorted by
`t1` and, for every window `m` of the list, the arrival `m.t2 + c` to which the
loop pushes gives back a departure `(m.t2 + c) − c ≥ m.t2` (`c` the cost of the
move), every successor that `find_successors` emits for the neighbour `v` has a
departure `d = g − c` that lies in no window of the list: no `m` with
`d + ε > m.t1` and `d < m.t2`.  When `result − cost` gives back the departure
time from which `check_endpoint` computed its result, the same holds for every
value other than `CN_INFINITY` that `check_endpoint` returns.  Sums and
differences are those of `A`; in exact arithmetic both conditions hold. -/
theorem C2_departure_outside_windows (A : Arith) (K : Const) (S : Store) :
    (∀ (agent : Agent) (map : Map) (h_values : Heuristic) (u goal s : Node) (l : List Move),
        s ∈ find_successors_fl A K agent S map h_values u goal →
        S.constraints (u.id, s.id) = some l →
        l.Sorted (fun a b => a.t1 ≤ b.t1) →
        (∀ m ∈ l, m.t2 ≤ A.sub (A.add m.t2 (dist_fl A K u.i u.j s.i s.j))
          (dist_fl A K u.i u.j s.i s.j)) →
        ∀ m ∈ l, ¬ (A.add (A.sub s.g (dist_fl A K u.i u.j s.i s.j)) K.CN_EPSILON > m.t1 ∧
          A.sub s.g (dist_fl A K u.i u.j s.i s.j) < m.t2)) ∧
    (∀ (start goal : Node) (l : List Move),
        S.constraints (start.id, goal.id) = some l →
        l.Sorted (fun a b => a.t1 ≤ b.t1) →
        check_endpoint_fl A K S start goal ≠ K.CN_INFINITY →
        A.sub (check_endpoint_fl A K S start goal) (dist_fl A K start.i start.j goal.i goal.j)
          = endpoint_departure_fl A K S start goal →
        ∀ m ∈ l, ¬ (A.add (A.sub (check_endpoint_fl A K S start goal)
              (dist_fl A K start.i start.j goal.i goal.j)) K.CN_EPSILON > m.t1 ∧
            A.sub (check_endpoint_fl A K S start goal)
              (dist_fl A K start.i start.j goal.i goal.j) < m.t2)) := by
  constructor
  · intro agent map h_values u goal s l hs hl hsorted hrt m hm
    simp only [find_successors_fl, List.mem_flatMap] at hs
    obtain ⟨v, _, hsv⟩ := hs
    obtain ⟨hid, hi, hj, hg⟩ := interval_loop_fl_mem A K u v _ _ _ _ _ s hsv
    rw [← hid] at hg
    obtain ⟨g1, hg1⟩ := hg l hl
    rw [hi, hj] at hrt ⊢
    rw [hg1]
    exact avoid_moves_fl_clear A K _ l hsorted hrt g1 m hm
  · intro start goal l hl hsorted _ hback m hm
    rw [hback]
    unfold endpoint_departure_fl
    simp only [hl]
    exact endpoint_avoid_fl_clear A K l hsorted _ m hm

/-- Witness for C2 in `double` arithmetic: under the edge constraint `0 → 1` with
the window `[0, 1/2]` the push to `1/2 + 1 = 3/2` is exact, the successor of the
start at vertex `1` arrives at `3/2` and departs at `1/2`, and `check_endpoint`
returns `3/2` for the same traversal. -/
theorem C2_departure_outside_windows_witness :
    (succHalf ∈ find_successors_fl binary64 Kd agent02 storeEdgeHalf line3 hLine3 startNode0
        goalNode2 ∧
      ∀ m ∈ [move01 0 (1 / 2)],
        ¬ (binary64.add (binary64.sub succHalf.g
              (dist_fl binary64 Kd startNode0.i startNode0.j succHalf.i succHalf.j))
            Kd.CN_EPSILON > m.t1 ∧
          binary64.sub succHalf.g
            (dist_fl binary64 Kd startNode0.i startNode0.j succHalf.i succHalf.j) < m.t2)) ∧
    (check_endpoint_fl binary64 Kd storeEdgeHalf startNode0 endNode1 = 3 / 2 ∧
      ∀ m ∈ [move01 0 (1 / 2)],
        ¬ (binary64.add (binary64.sub (check_endpoint_fl binary64 Kd storeEdgeHalf startNode0
                endNode1)
              (dist_fl binary64 Kd startNode0.i startNode0.j endNode1.i endNode1.j))
            Kd.CN_EPSILON > m.t1 ∧
          binary64.sub (check_endpoint_fl binary64 Kd storeEdgeHalf startNode0 endNode1)
            (dist_fl binary64 Kd startNode0.i startNode0.j endNode1.i endNode1.j) < m.t2)) :=
  ⟨⟨by decide!,
    (C2_departure_outside_windows binary64 Kd storeEdgeHalf).1 agent02 line3 hLine3 startNode0
      goalNode2 succHalf [move01 0 (1 / 2)] (by decide!) (by decide!) (by simp)
      (by decide!)⟩,
   ⟨by decide!,
    (C2_departure_outside_windows binary64 Kd storeEdgeHalf).2 startNode0 endNode1
      [move01 0 (1 / 2)] (by decide!) (by simp) (by decide!) (by decide!)⟩⟩

/-- C6 (collision-list invariant), evaluated: from the empty store, adding
`[1, 5]` and then `[2, 6]` to one vertex leaves the two overlapping entries
`[1, 5], [2, 6]`, which are not disjoint modulo `ε`. -/
theorem C6_overlapping_entries_kept :
    (add_collision_interval K8 (add_collision_interval K8 clear 7 (1, 5)) 7 (2, 6)).collision_intervals 7
        = some [(1, 5), (2, 6)] ∧
      ¬ CollisionsDisjoint K8 [(1, 5), (2, 6)] := by
  refine ⟨by decide!, ?_⟩
  norm_num [CollisionsDisjoint, K8]

/-- C7 (collision merging is exact), evaluated: adding `[1, 2]` and then `[5, 6]`
(with `2 + ε < 5`) to an empty vertex leaves the single entry `[1, 6]`, so the
time `3`, covered by neither interval, is covered afterwards. -/
theorem C7_disjoint_entries_merged :
    (add_collision_interval K8 (add_collision_interval K8 clear 7 (1, 2)) 7 (5, 6)).collision_intervals 7
        = some [(1, 6)] ∧
      (2 : ℚ) + K8.CN_EPSILON < 5 ∧ ¬ Covered [(1, 2), (5, 6)] 3 ∧ Covered [(1, 6)] 3 := by
  refine ⟨by decide!, by decide!, ?_, ⟨(1, 6), by simp, by norm_num, by norm_num⟩⟩
  rintro ⟨c, hc, h1, h2⟩
  simp only [List.mem_cons, List.mem_singleton, List.not_mem_nil, or_false] at hc
  rcases hc with rfl | rfl <;> norm_num at h1 h2

/-- C8 (edge-constraint list postcondition), evaluated: the one-entry list
`[0, 10]` is sorted and disjoint, the move `[2, 3]` has `t1 ≤ t2`, and the list
stored after `add_move_constraint` is `[0, 10], [2, 3]`, which is not disjoint. -/
theorem C8_contained_move_appended :
    MovesDisjoint K8 [move01 0 10] ∧
      (add_move_constraint K8 (add_move_constraint K8 clear (move01 0 10)) (move01 2 3)).constraints
          (0, 1) = some [move01 0 10, move01 2 3] ∧
      ¬ MovesDisjoint K8 [move01 0 10, move01 2 3] := by
  refine ⟨by simp [MovesDisjoint], by decide!, ?_⟩
  norm_num [MovesDisjoint, K8, move01]

/-- C9 (endpoint generation), evaluated on a collision vector that the planner
builds: the wait constraint `[ε, 5]` on vertex `0` is stored as the single
collision interval `[ε, 5]`, a sorted and disjoint vector.  For the window
`[0, 10]`, `c.first − ε` equals the start of the window, so neither
`c.first − ε < n.first` nor `c.first − ε > n.first` holds, none of the four
cases of `get_endpoints` applies, and the window is returned whole although it
contains the collision interval.  In `find_path` the start node gets the
interval `[0, ∞]` in the same way, and under a second wait constraint `[1/2, 3]`
on vertex `1` the agent stays at vertex `0` until time `2`, inside the forbidden
interval `[ε, 5]`.  The tolerance `ε` of `Kd` is the `double` nearest to `10⁻⁸`,
and `ε − ε = 0` is exact in `double` arithmetic. -/
theorem C9_collision_at_window_start_missed :
    (make_constraints Kd agent02 clear [waitCon 0 0 Kd.CN_EPSILON 5]).collision_intervals 0
        = some [(Kd.CN_EPSILON, 5)] ∧
      CollisionsDisjoint Kd [(Kd.CN_EPSILON, 5)] ∧
      (get_endpoints Kd 10 (make_constraints Kd agent02 clear [waitCon 0 0 Kd.CN_EPSILON 5])
          0 0 0 0 10).map (fun l => l.map (fun n => n.interval)) = .ok [(0, 10)] ∧
      ¬ SafeAgainst [(Kd.CN_EPSILON, 5)] (0, 10) ∧
      (find_path Kd 20 agent02 line3 [waitCon 0 0 Kd.CN_EPSILON 5, waitCon 1 1 (1 / 2) 3]
          hLine3).map (fun p => (trace p, p.cost)) =
        .ok ([(0, 0, 0, 100000000), (0, 2, 0, 100000000), (1, 3, 3, 100000000),
          (2, 4, 0, 100000000)], 4) := by
  refine ⟨by decide!, by norm_num [CollisionsDisjoint], by decide!, by decide!, by decide!⟩

/-- C10 (failure is reported by value), evaluated: when the start vertex is
covered by the collision interval `[0, CN_INFINITY]`, `find_path` does not
return a path: `get_endpoints(...).at(0)` is applied to an empty vector. -/
theorem C10_start_covered_throws :
    find_path K8 10 agent02 line3 [waitCon 0 0 0 K8.CN_INFINITY] hLine3 = .error .out_of_range := by
  decide!

/-- C3 (optimality), evaluated: on `line3` with the exact heuristic and the two
wait constraints `[1/5, 2/5]` and `[3, 4]` on vertex `1`, `find_path` returns a
path of cost `5` (it waits at the start until `3`), while the path
`0@0 → 1@1 → 2@2` respects both constraints and costs `2`. -/
theorem C3_returned_path_not_optimal :
    (find_path K8 20 agent02 line3 [waitCon 1 1 (1 / 5) (2 / 5), waitCon 1 1 3 4] hLine3).map
        (fun p => (trace p, p.cost)) =
      .ok ([(0, 0, 0, 100000000), (0, 3, 0, 100000000), (1, 4, 4, 100000000),
            (2, 5, 0, 100000000)], 5) ∧
      RespectsFromStart K8 agent02 line3 [waitCon 1 1 (1 / 5) (2 / 5), waitCon 1 1 3 4]
        [⟨0, 0, 0, 0, 0, (0, 0), []⟩, ⟨1, 0, 1, 1, 0, (0, 0), []⟩, ⟨2, 0, 2, 2, 0, (0, 0), []⟩] := by
  refine ⟨by decide!, ?_⟩
  simp only [RespectsFromStart, Respects, List.head?_cons, Option.mem_def, Option.some.injEq,
    exists_eq_left', agent02, line3, waitCon, dist, K8]
  norm_num

/-- C11 (no state survives between calls): for every two planner objects `s1`
and `s2`, whatever their members `open`, `close`, `path`, `agent` and constraint
structures hold, `find_path` run on `s1` and on `s2` with the same arguments
returns the same result (the same path or the same failure), which is that of
`find_path` on the arguments alone. -/
theorem C11_result_independent_of_state (s1 s2 : Planner) (K : Const) (fuel : Nat)
    (agent : Agent) (map : Map) (cons : List Constraint) (h_values : Heuristic) :
    (find_path_st K fuel agent map cons h_values s1).map Prod.fst
        = (find_path_st K fuel agent map cons h_values s2).map Prod.fst ∧
      (find_path_st K fuel agent map cons h_values s1).map Prod.fst
        = find_path K fuel agent map cons h_values := by
  have h : ∀ s : Planner, (find_path_st K fuel agent map cons h_values s).map Prod.fst
      = find_path K fuel agent map cons h_values := by
    intro s
    have h1 := find_path_st_agrees K fuel agent map cons h_values s
    cases hy : find_path K fuel agent map cons h_values with
    | error e =>
      rw [hy] at h1
      rw [agrees_error h1]
      rfl
    | ok p =>
      rw [hy] at h1
      obtain ⟨t1, ht1, _⟩ := agrees_ok h1
      rw [ht1]
      rfl
  exact ⟨by rw [h s1, h s2], h s1⟩

/-- C12 (landmark ordering): after `make_constraints` on the cleared planner the
landmark vector is a permutation of the moves of the positive constraints that
name the agent (one per constraint, nothing else), it is sorted by `t1`
ascending, and for every `t` the landmarks with `t1 = t` stand in the order of
the input. -/
theorem C12_landmarks_stably_sorted (K : Const) (agent : Agent) (cons : List Constraint) :
    (make_constraints K agent clear cons).landmarks.Perm (own_landmarks agent cons) ∧
      (make_constraints K agent clear cons).landmarks.Sorted (fun a b => a.t1 ≤ b.t1) ∧
      ∀ t, (make_constraints K agent clear cons).landmarks.filter (fun x => decide (x.t1 = t))
        = (own_landmarks agent cons).filter (fun x => decide (x.t1 = t)) := by
  have hs : clear.landmarks.Sorted (fun a b => a.t1 ≤ b.t1) := by simp [clear]
  obtain ⟨h1, h2⟩ := make_constraints_landmarks_stable K agent cons clear hs
  refine ⟨?_, (make_constraints_landmarks_grow K agent cons clear hs).1, fun t => ?_⟩
  · simpa [clear] using h1
  · simpa [clear] using h2 t

/-- C13 (collision merging is idempotent), evaluated: adding `[1, 2]` to an
empty vertex stores `[1, 2]`, and adding it a second time stores
`[1, 2], [1, 2]`: the coalescing test `a.hi − ε < b.lo` does not hold for an
interval and its copy unless the interval is shorter than `ε`. -/
theorem C13_second_add_keeps_copy :
    (add_collision_interval K8 clear 7 (1, 2)).collision_intervals 7 = some [(1, 2)] ∧
      (add_collision_interval K8 (add_collision_interval K8 clear 7 (1, 2)) 7
        (1, 2)).collision_intervals 7 = some [(1, 2), (1, 2)] := by
  refine ⟨by decide!, by decide!⟩

/-- C14 (scenario S2) as the specification states it fails: on `line3` with the
wait constraint `[1, 2]` on vertex `1`, `find_path` returns `pathTouch`, whose
cost is `2`, not `3`, and which has no wait node at vertex `1`. -/
theorem C14_scenario_cost_not_three :
    find_path K8 20 agent02 line3 [waitCon 1 1 1 2] hLine3 = .ok pathTouch ∧
      pathTouch.cost ≠ 3 ∧ has_wait 1 pathTouch.nodes = false := by
  refine ⟨by decide!, by decide!, by decide⟩

/-- C14 (scenario S2), as the code behaves: on `line3` with the wait constraint
`[1, 2]` on vertex `1`, `find_path` returns the three nodes `0@0`, `1@1` (in the
safe interval `[0, 1]`) and `2@2`, with cost `2` and no wait node at vertex
`1`. -/
theorem C14_scenario_passes_at_boundary :
    (find_path K8 20 agent02 line3 [waitCon 1 1 1 2] hLine3).map
        (fun p => (trace p, p.cost, has_wait 1 p.nodes)) =
      .ok ([(0, 0, 0, 100000000), (1, 1, 0, 1), (2, 2, 0, 100000000)], 2, false) := by
  decide!

/-- C15 (earliest arrival) as the specification states it fails in the
arithmetic of the source: `double`.  On `line3` with the wait constraint
`[5, 6]` on vertex `1` and the edge constraint `0 → 1` with the window
`[0, 0.4]` (`d04` is the `double` nearest to `0.4`), the collision list of
vertex `1` is non-empty, sorted and disjoint and the edge-constraint list is
sorted.  For the gap `I = [0, 5]` the least feasible arrival time is `0.4 + 1`,
which is no `double`; `find_successors` emits the `double` `d14` nearest to it,
whose departure `d14 − 1` lies in the window, so the emitted `g` is no element
of `F`. -/
theorem C15_emitted_arrival_not_feasible_in_double :
    d04 = fl (2 / 5) ∧ d14 = fl (d04 + 1) ∧
      storeWaitEdge04.collision_intervals 1 = some [(5, 6)] ∧
      storeWaitEdge04.constraints (0, 1) = some [move01 0 d04] ∧
      CollisionsDisjoint Kd [(5, 6)] ∧ (0, 5) ∈ gaps Kd [(5, 6)] ∧
      dist_fl binary64 Kd startNode0.i startNode0.j 1 0 = 1 ∧
      (find_successors_fl binary64 Kd agent02 storeWaitEdge04 line3 hLine3 startNode0
          goalNode2).map (fun n => (n.id, n.g, n.interval)) =
        [(1, d14, (0, 5)), (1, 6, (6, 100000000))] ∧
      IsLeast {a | Feasible Kd startNode0 1 [move01 0 d04] (0, 5) a} (d04 + 1) ∧
      ¬ Feasible Kd startNode0 1 [move01 0 d04] (0, 5) d14 := by
  refine ⟨by decide!, by decide!, by decide!, by decide!, by norm_num [CollisionsDisjoint],
    by decide!, by decide!, by decide!, ⟨?_, ?_⟩, ?_⟩
  · refine ⟨by norm_num [startNode0, d04], by norm_num [d04], by norm_num [d04],
      by norm_num [startNode0, d04], ?_⟩
    intro m hm
    rw [List.mem_singleton.mp hm]
    intro hc
    norm_num [move01] at hc
  · intro a ha
    have h1 := ha.1
    have h5 := ha.2.2.2.2 (move01 0 d04) (List.mem_singleton.mpr rfl)
    simp only [Set.mem_setOf_eq, move01, startNode0] at h1 h5 ⊢
    by_contra hlt
    apply h5
    constructor
    · have : (0 : ℚ) < Kd.CN_EPSILON := by norm_num [Kd]
      linarith
    · linarith
  · intro h
    apply h.2.2.2.2 (move01 0 d04) (List.mem_singleton.mpr rfl)
    constructor <;> norm_num [d14, d04, move01, Kd]

/-- C15 (earliest arrival), as the code guarantees it in its own arithmetic
`A`.  Let `u` be a node, `v` a neighbour listed once among the valid moves of
`u`, `c` the cost of the move as the code computes it, the collision list of `v`
disjoint (`a.hi + ε < b.lo` for consecutive entries, hence sorted) with
`0 ≤ lo ≤ hi`, the edge-constraint list `l` of `(u.id, v.id)` sorted by `t1`, and
`ε ≥ 0`.  Let `A` be exact on the run: the sums `u.g + c` and `m.t2 + c` are
formed without rounding, and at every value `x` the arrival time can take
(`u.g + c`, the starts of the gaps, `m.t2 + c`) the difference `x − c` and the
sum `x + h` are formed without rounding and the rounded `x − c + ε` compares
with the starts of the windows as the exact sum does; when the sub-search does
not target the goal of the agent, let `A` be exact on the differential
heuristic as well.  Then for every gap `I` of the collision list,
`find_successors` emits a successor at `v` with interval `I` iff some arrival
time is feasible for `I`, and every such successor has the least feasible
arrival time as `g` and `f = g + h(v)`, with `h(v)` the heuristic of the
specification. -/
theorem C15_earliest_arrival_when_exact (A : Arith) (K : Const) (he : 0 ≤ K.CN_EPSILON)
    (agent : Agent) (S : Store) (map : Map) (h_values : Heuristic) (u goal : Node) (v : Vertex)
    (colls : List (ℚ × ℚ)) (hv : v ∈ map.get_valid_moves u.id)
    (huniq : ∀ w ∈ map.get_valid_moves u.id, w.id = v.id → w = v)
    (hS : S.collision_intervals v.id = some colls)
    (hpos : ∀ c ∈ colls, 0 ≤ c.1 ∧ c.1 ≤ c.2) (hdis : CollisionsDisjoint K colls)
    (hsorted : ((S.constraints (u.id, v.id)).getD []).Sorted (fun a b => a.t1 ≤ b.t1))
    (hex : ExactRun A K u (dist_fl A K u.i u.j v.i v.j) (h_value_fl A K agent h_values goal v)
      ((S.constraints (u.id, v.id)).getD []) (gaps K colls))
    (hh : goal.id ≠ agent.goal_id → HeurExact A K h_values goal v)
    (I : ℚ × ℚ) (hI : I ∈ gaps K colls) :
    ((∃ n ∈ find_successors_fl A K agent S map h_values u goal, n.id = v.id ∧ n.interval = I) ↔
        ∃ a, Feasible K u (dist_fl A K u.i u.j v.i v.j)
          ((S.constraints (u.id, v.id)).getD []) I a) ∧
      ∀ n ∈ find_successors_fl A K agent S map h_values u goal, n.id = v.id → n.interval = I →
        IsLeast {a | Feasible K u (dist_fl A K u.i u.j v.i v.j)
          ((S.constraints (u.id, v.id)).getD []) I a} n.g ∧
        n.f = n.g + h_spec K agent h_values goal v := by
  have hat := find_successors_fl_at A K agent S map h_values u goal v hv huniq
  have hms := move_successors_fl_exact A K agent S h_values u goal v colls hS hex
  obtain ⟨i1, i2⟩ := interval_loop_earliest K u v (dist_fl A K u.i u.j v.i v.j)
    (h_value_fl A K agent h_values goal v) (S.constraints (u.id, v.id)) hsorted (gaps K colls)
    (u.g + dist_fl A K u.i u.j v.i v.j)
    (gaps_starts_ascending K he colls hdis hpos) (le_refl _) (fun _ _ a ha _ _ => ha)
  rw [← hms] at i1 i2
  refine ⟨⟨?_, ?_⟩, ?_⟩
  · rintro ⟨n, hn, hid, hnI⟩
    obtain ⟨_, _, _, h4⟩ := i1 n ((hat n).mp ⟨hn, hid⟩)
    rw [hnI] at h4
    exact ⟨n.g, h4.1⟩
  · intro hF
    obtain ⟨n, hn, hnI⟩ := i2 I hI hF
    exact ⟨n, ((hat n).mpr hn).1, ((hat n).mpr hn).2, hnI⟩
  · intro n hn hid hnI
    obtain ⟨_, h2, _, h4⟩ := i1 n ((hat n).mp ⟨hn, hid⟩)
    rw [hnI] at h4
    rw [← h_value_fl_eq_spec A K agent h_values goal v hh]
    exact ⟨h4, h2⟩

/-- Witness for C15 in `double` arithmetic: from the start node of `line3` under
the wait constraint `[1, 2]` on vertex `1` and the edge constraint `0 → 1` with
the window `[0, 1/2]`, every operation of the run is exact; `find_successors`
emits for the neighbour `1` the arrival time `2` in the gap `[2, ∞]`, the least
feasible arrival time of that gap, and nothing in the gap `[0, 1]`. -/
theorem C15_earliest_arrival_when_exact_witness :
    (find_successors_fl binary64 Kd agent02 storeWaitEdgeHalf line3 hLine3 startNode0
        goalNode2).map (fun n => (n.id, n.g, n.interval)) = [(1, 2, (2, 100000000))] ∧
      (((∃ n ∈ find_successors_fl binary64 Kd agent02 storeWaitEdgeHalf line3 hLine3 startNode0
            goalNode2, n.id = (⟨1, 1, 0⟩ : Vertex).id ∧ n.interval = (2, 100000000)) ↔
          ∃ a, Feasible Kd startNode0
            (dist_fl binary64 Kd startNode0.i startNode0.j (⟨1, 1, 0⟩ : Vertex).i
              (⟨1, 1, 0⟩ : Vertex).j)
            ((storeWaitEdgeHalf.constraints (startNode0.id, (⟨1, 1, 0⟩ : Vertex).id)).getD [])
            (2, 100000000) a) ∧
        ∀ n ∈ find_successors_fl binary64 Kd agent02 storeWaitEdgeHalf line3 hLine3 startNode0
            goalNode2,
          n.id = (⟨1, 1, 0⟩ : Vertex).id → n.interval = (2, 100000000) →
          IsLeast {a | Feasible Kd startNode0
            (dist_fl binary64 Kd startNode0.i startNode0.j (⟨1, 1, 0⟩ : Vertex).i
              (⟨1, 1, 0⟩ : Vertex).j)
            ((storeWaitEdgeHalf.constraints (startNode0.id, (⟨1, 1, 0⟩ : Vertex).id)).getD [])
            (2, 100000000) a} n.g ∧
          n.f = n.g + h_spec Kd agent02 hLine3 goalNode2 ⟨1, 1, 0⟩) :=
  ⟨by decide!,
   C15_earliest_arrival_when_exact binary64 Kd (by norm_num [Kd]) agent02 storeWaitEdgeHalf line3
      hLine3 startNode0 goalNode2 ⟨1, 1, 0⟩ [(1, 2)] (by decide) (by decide) (by decide!)
      (by
        intro c hc
        rw [List.mem_singleton.mp hc]
        norm_num)
      (by unfold CollisionsDisjoint; exact List.chain'_singleton _)
      (by
        have : (storeWaitEdgeHalf.constraints (startNode0.id, (⟨1, 1, 0⟩ : Vertex).id)).getD []
            = [move01 0 (1 / 2)] := by
          decide!
        rw [this]
        exact List.sorted_singleton _)
      (by decide!)
      (by intro h; exact absurd rfl h)
      (2, 100000000) (by decide!)⟩

/-- C17 (dominated insertions are discarded): let `e` be the first entry of the
open list with `e.id = n.id` and `|e.interval.hi − n.interval.hi| < ε` (the only
one, when there is at most one).  If `n.f > e.f − ε`, `add_open(n)` leaves the
open list unchanged.  If `n.f ≤ e.f − ε`, the open list after `add_open(n)` has
the same length, the entries other than `e` are there in their order, and in
place of `e` there is one entry with the id, `f`, `g`, interval and parent of
`n`. -/
theorem C17_dominated_insertion_discarded (K : Const) (pre post : List Node) (e n : Node)
    (hpre : ∀ x ∈ pre, ¬ Duplicate K n x) (he : Duplicate K n e) :
    (n.f > e.f - K.CN_EPSILON → add_open K (pre ++ e :: post) n = pre ++ e :: post) ∧
      (n.f ≤ e.f - K.CN_EPSILON →
        ∃ m a b, add_open K (pre ++ e :: post) n = a ++ m :: b ∧ a ++ b = pre ++ post ∧
          m.id = n.id ∧ m.f = n.f ∧ m.g = n.g ∧ m.interval = n.interval ∧
          m.parent = n.parent ∧
          (add_open K (pre ++ e :: post) n).length = (pre ++ e :: post).length) := by
  rcases add_open_first_duplicate K pre post e n hpre he with ⟨hf, h⟩ |
    ⟨hf, ⟨_, _, h⟩ | ⟨_, _, h⟩ | ⟨a, x, b, hp, _, _, h⟩⟩
  · exact ⟨fun _ => h, fun hle => absurd hf (not_lt.mpr hle)⟩
  · refine ⟨fun hgt => absurd hgt hf, fun _ => ?_⟩
    exact ⟨overwrite e n, pre, post, h, rfl, he.1, rfl, rfl, rfl, rfl, by rw [h]; simp⟩
  · refine ⟨fun hgt => absurd hgt hf, fun _ => ?_⟩
    exact ⟨n, pre ++ post, [], h, by simp, rfl, rfl, rfl, rfl, rfl, by rw [h]; simp⟩
  · refine ⟨fun hgt => absurd hgt hf, fun _ => ?_⟩
    refine ⟨n, a, x :: b ++ post, by rw [h]; simp, by rw [hp]; simp, rfl, rfl, rfl, rfl, rfl, ?_⟩
    rw [h, hp]
    simp
    omega

/-- Witness for C17: the open list holds the entry `1` with `f = 9/2` and the
interval end `∞`; a node for the same state with `f = 5` is discarded, and one
with `f = 4` takes the place of the entry. -/
theorem C17_dominated_insertion_discarded_witness :
    add_open K8 ([] ++ succNode1 :: []) ⟨1, 5, 4, 1, 0, (2, 100000000), []⟩
        = [] ++ succNode1 :: [] ∧
      ∃ m a b, add_open K8 ([] ++ succNode1 :: []) ⟨1, 4, 3, 1, 0, (0, 100000000), []⟩
          = a ++ m :: b ∧ a ++ b = [] ++ [] ∧
        m.id = 1 ∧ m.f = 4 ∧ m.g = 3 ∧ m.interval = (0, 100000000) ∧ m.parent = [] ∧
        (add_open K8 ([] ++ succNode1 :: []) ⟨1, 4, 3, 1, 0, (0, 100000000), []⟩).length
          = ([] ++ succNode1 :: []).length :=
  ⟨(C17_dominated_insertion_discarded K8 [] [] succNode1 ⟨1, 5, 4, 1, 0, (2, 100000000), []⟩
      (fun x hx => by simp at hx) (by decide!)).1 (by decide!),
   (C17_dominated_insertion_discarded K8 [] [] succNode1 ⟨1, 4, 3, 1, 0, (0, 100000000), []⟩
      (fun x hx => by simp at hx) (by decide!)).2 (by decide!)⟩

/-- C18 (residency after a landmark traversal), evaluated: on `line3` with the
landmark `1 → 2` in `[5, 6]` and the wait constraint `[1, 2]` on vertex `2`, the
collision vector of vertex `2` is `[1, 2]`, which begins before the arrival time
`6`, and the destination node `2@6` keeps the end `7` of the window
`[t1 + offset, t2 + offset]` as `interval.second`, not `CN_INFINITY`. -/
theorem C18_window_end_kept :
    (make_constraints K8 agent02 clear [landmark12, waitCon 2 2 1 2]).collision_intervals 2
        = some [(1, 2)] ∧
      (find_path K8 20 agent02 line3 [landmark12, waitCon 2 2 1 2] hLine3).map trace =
        .ok [(0, 0, 0, 100000000), (1, 1, 0, 100000000), (1, 5, 0, 100000000), (2, 6, 6, 7)] ∧
      (7 : ℚ) ≠ K8.CN_INFINITY := by
  refine ⟨by decide!, by decide!, by decide!⟩

/-- The collision intervals of `storeAt7 [[1, 2], [4, 5]]` have `lo ≤ hi`. -/
theorem storeAt7_ordered :
    ∀ l, (storeAt7 [(1, 2), (4, 5)]).collision_intervals 7 = some l → ∀ c ∈ l, c.1 ≤ c.2 := by
  intro l hl c hc
  simp only [storeAt7, if_true, Option.some.injEq] at hl
  subst hl
  simp only [List.mem_cons, List.mem_singleton, List.not_mem_nil, or_false] at hc
  rcases hc with rfl | rfl <;> norm_num

/-- C19 (endpoint order and bounds): for a tolerance `ε > 0`, a window
`t1 ≤ t2` and collision intervals with `lo ≤ hi`, every node returned by
`get_endpoints` has an interval `[lo, hi]` with `t1 ≤ lo ≤ hi ≤ t2`, and of any
two returned nodes the earlier one starts strictly before the later one and
ends no later than the later one starts. -/
theorem C19_endpoints_ordered_in_window (K : Const) (he : 0 < K.CN_EPSILON) (fuel : Nat)
    (S : Store) (node_id : Int) (node_i node_j t1 t2 : ℚ) (ht : t1 ≤ t2)
    (hcolls : ∀ l, S.collision_intervals node_id = some l → ∀ c ∈ l, c.1 ≤ c.2)
    (out : List Node) (h : get_endpoints K fuel S node_id node_i node_j t1 t2 = .ok out) :
    (∀ n ∈ out, t1 ≤ n.interval.1 ∧ n.interval.1 ≤ n.interval.2 ∧ n.interval.2 ≤ t2) ∧
      out.Pairwise (fun a b => a.interval.1 < b.interval.1 ∧ a.interval.2 ≤ b.interval.1) := by
  obtain ⟨hp, hw⟩ := get_endpoints_inv K (le_of_lt he) fuel S node_id node_i node_j t1 t2 ht
    hcolls out h
  refine ⟨fun n hn => ⟨(hw n hn).1, (hw n hn).2.2, (hw n hn).2.1⟩, hp.imp ?_⟩
  intro a b hab
  exact ⟨by linarith [hab.2], hab.1⟩

/-- Witness for C19: for the collisions `[1, 2], [4, 5]` and the window `[0, 10]`
`get_endpoints` returns `[0, 1]` and `[2, 10]`, in the window and in order. -/
theorem C19_endpoints_ordered_in_window_witness :
    get_endpoints K8 10 (storeAt7 [(1, 2), (4, 5)]) 7 0 0 0 10
        = .ok [endpoint_node 7 0 0 0 1, endpoint_node 7 0 0 2 10] ∧
      ((∀ n ∈ [endpoint_node 7 0 0 0 1, endpoint_node 7 0 0 2 10],
          (0 : ℚ) ≤ n.interval.1 ∧ n.interval.1 ≤ n.interval.2 ∧ n.interval.2 ≤ 10) ∧
        [endpoint_node 7 0 0 0 1, endpoint_node 7 0 0 2 10].Pairwise
          (fun a b => a.interval.1 < b.interval.1 ∧ a.interval.2 ≤ b.interval.1)) :=
  ⟨by decide!,
   C19_endpoints_ordered_in_window K8 (by norm_num [K8]) 10 (storeAt7 [(1, 2), (4, 5)]) 7 0 0 0 10
      (by norm_num) storeAt7_ordered _ (by decide!)⟩

/-- C20 (the restart-on-change loop terminates): for a tolerance `ε > 0` and
collision intervals with `lo ≤ hi`, whatever the window, `get_endpoints`
returns a vector, the same for every number of loop iterations allowed from
`len + 4` on, `len` the length of the collision vector of the vertex. -/
theorem C20_get_endpoints_terminates (K : Const) (he : 0 < K.CN_EPSILON) (S : Store)
    (node_id : Int) (node_i node_j t1 t2 : ℚ)
    (hcolls : ∀ l, S.collision_intervals node_id = some l → ∀ c ∈ l, c.1 ≤ c.2) :
    ∃ out, ∀ fuel, ((S.collision_intervals node_id).getD []).length + 4 ≤ fuel →
      get_endpoints K fuel S node_id node_i node_j t1 t2 = .ok out :=
  get_endpoints_returns K he S node_id node_i node_j t1 t2 hcolls

/-- Witness for C20: for the collisions `[1, 2], [4, 5]` and the window `[0, 10]`
`get_endpoints` returns within `6` iterations. -/
theorem C20_get_endpoints_terminates_witness :
    ∃ out, ∀ fuel,
      (((storeAt7 [(1, 2), (4, 5)]).collision_intervals 7).getD []).length + 4 ≤ fuel →
      get_endpoints K8 fuel (storeAt7 [(1, 2), (4, 5)]) 7 0 0 0 10 = .ok out :=
  C20_get_endpoints_terminates K8 (by norm_num [K8]) (storeAt7 [(1, 2), (4, 5)]) 7 0 0 0 10
    storeAt7_ordered

/-- C21 (goal matching does not disturb expansion), evaluated on `line3` with
the landmark `1 → 2` in `[2, 10]`, the wait constraints `[4, 5]` on vertex `1`
and `[3/2, 100]` on vertex `0` and the edge constraint `[2, 9/2]` on `(1, 2)`.
The first segment has the goals `[2, 4]` and `[5, 10]` at vertex `1` and pops
`1@1`.  Recording the path for `[2, 4]` appends a wait node and sets the `g` of
the popped node to `2`; the successors of that iteration are generated from
`g = 2`, where the edge constraint rejects the move to vertex `2`, while the
popped node's own `g = 1` gives the successor `2@2`.  `find_partial_path`
therefore leaves the goal `[5, 10]` without a path and `find_path` returns the
empty path, whereas with the popped node left unchanged the goal `[5, 10]` is
reached by `0@0, 1@1, 2@2, 2@4, 1@5`. -/
theorem C21_goal_wait_overwrites_popped_g :
    poppedNode1.g = 1 ∧
      (goal_loop K8 2 poppedNode1 [endpoint_node 1 1 0 2 4, endpoint_node 1 1 0 5 10]
          [Path.empty, Path.empty]).map (fun r => (r.1.g, r.2.2)) = .ok (2, 1) ∧
      (find_successors K8 agent02 storeDelay line3 hLine3 poppedNode1
          (goalArg (endpoint_node 1 1 0 2 4))).map (fun n => (n.id, n.g, n.interval))
        = [(2, 2, (2, 100000000))] ∧
      find_successors K8 agent02 storeDelay line3 hLine3 { poppedNode1 with g := 2 }
          (goalArg (endpoint_node 1 1 0 2 4)) = [] ∧
      (find_partial_path K8 10 agent02 storeDelay line3 hLine3 [endpoint_node 0 0 0 0 (3 / 2)]
          [endpoint_node 1 1 0 2 4, endpoint_node 1 1 0 5 10] 10).map
          (fun l => l.map trace)
        = .ok [[(0, 0, 0, 3 / 2), (1, 1, 0, 4), (1, 2, 0, 4)], []] ∧
      (find_partial_path_kept K8 10 agent02 storeDelay line3 hLine3
          [endpoint_node 0 0 0 0 (3 / 2)]
          [endpoint_node 1 1 0 2 4, endpoint_node 1 1 0 5 10] 10).map
          (fun l => l.map trace)
        = .ok [[(0, 0, 0, 3 / 2), (1, 1, 0, 4), (1, 2, 0, 4)],
            [(0, 0, 0, 3 / 2), (1, 1, 0, 4), (2, 2, 2, 100000000), (2, 4, 2, 100000000),
              (1, 5, 5, 100000000)]] ∧
      find_path K8 20 agent02 line3 consDelay hLine3 = .ok Path.empty := by
  refine ⟨by decide!, by decide!, by decide!, by decide!, by decide!, by decide!, by decide!⟩

end SIPP
